import Mathlib

/-!
Verification of the sync-agents reconciliation core.

This file gives a shallow embedding, in Lean 4, of the reconciliation core of
the sync-agents repository: path validation (`src/utils/validation.ts`), path
canonicalization helpers (`src/utils/paths.ts`), the plan builder
(`buildSyncPlan`), the MCP config codec and merger (`src/utils/mcp.ts`), the
similarity scorer, the conflict detector, and the apply engine
(`src/utils/apply.ts`).  JavaScript strings are modelled by `String` (operating
on `String.data` character lists), JavaScript objects by insertion-ordered
association lists, and Node's POSIX path functions by explicit segment
resolution.  The SHA-1 content digest is modelled as an injective fingerprint
(the identity on content), matching the code's use of digests purely for
equality tests.
-/

/-! ### Character-list string helpers

JavaScript string primitives (`split`, `startsWith`, `endsWith`,
`toLowerCase`, `trim`, `replace` of single characters) are modelled as
structurally recursive functions on `String.data`. -/

/-- Split a character list at every occurrence of `c`.  Mirrors JavaScript
`s.split(c)`: the empty string splits to `[""]`, and separators at the ends
produce empty pieces. -/
def splitOnChar (c : Char) : List Char → List (List Char)
  | [] => [[]]
  | x :: xs =>
    let r := splitOnChar c xs
    if x = c then [] :: r
    else
      match r with
      | [] => [[x]]
      | h :: t => (x :: h) :: t

/-- Split a string on `/` characters, as JavaScript `s.split("/")`. -/
def splitSlash (s : String) : List String :=
  (splitOnChar '/' s.data).map fun l => String.mk l

/-- Join path segments with `/` separators (JavaScript `parts.join("/")`). -/
def joinParts : List String → String
  | [] => ""
  | [p] => p
  | p :: rest => p ++ "/" ++ joinParts rest

/-- JavaScript `s.startsWith(p)`, modelled on character lists. -/
def strStartsWith (s p : String) : Bool :=
  p.data.isPrefixOf s.data

/-- JavaScript `s.endsWith(p)`, modelled on character lists. -/
def strEndsWith (s p : String) : Bool :=
  p.data.reverse.isPrefixOf s.data.reverse

/-- ASCII lower-casing of one character (JavaScript `toLowerCase` restricted to
the ASCII range, which is all the repository compares). -/
def lowerChar (c : Char) : Char :=
  if 'A' ≤ c ∧ c ≤ 'Z' then Char.ofNat (c.toNat + 32) else c

/-- JavaScript `s.toLowerCase()` (ASCII). -/
def strToLower (s : String) : String :=
  String.mk (s.data.map lowerChar)

/-- JavaScript whitespace test used by `trim` and `\s`. -/
def isJsWhitespace (c : Char) : Bool :=
  c = ' ' ∨ c = '\t' ∨ c = '\n' ∨ c = '\r'

/-- JavaScript `s.trim()`. -/
def strTrim (s : String) : String :=
  String.mk (((s.data.dropWhile isJsWhitespace).reverse.dropWhile isJsWhitespace).reverse)

/-! ### Node POSIX path model

Node's `path.normalize`, `path.join`, `path.relative` and `path.isAbsolute`
(POSIX flavour) are modelled by splitting on `/` and resolving `.`/`..`
segments.  `path.relative` is modelled for absolute arguments, which is how
the repository calls it (client roots and destination paths are absolute). -/

/-- JavaScript `path.isAbsolute` (POSIX): the path starts with `/`. -/
def isAbsolutePath (s : String) : Bool :=
  s.data.head? = some '/'

/-- One step of POSIX segment resolution: drop empty and `.` segments, let
`..` pop the last real segment (at the root of an absolute path, `..` is
dropped; in a relative path, unmatched `..` segments are kept). -/
def resolveStep (isAbs : Bool) (acc : List String) (seg : String) : List String :=
  if seg = "" ∨ seg = "." then acc
  else if seg = ".." then
    match acc.getLast? with
    | some last => if last = ".." then acc ++ [".."] else acc.dropLast
    | none => if isAbs then [] else [".."]
  else acc ++ [seg]

/-- Resolve a list of raw path segments. -/
def resolveSegs (isAbs : Bool) (segs : List String) : List String :=
  segs.foldl (resolveStep isAbs) []

/-- Resolved segment list of an absolute path. -/
def absParts (s : String) : List String :=
  resolveSegs true (splitSlash s)

/-- Node `path.normalize` (POSIX), without trailing-slash preservation (no
caller of the modelled code passes trailing slashes). -/
def pathNormalize (s : String) : String :=
  let abs := isAbsolutePath s
  let parts := resolveSegs abs (splitSlash s)
  if abs then "/" ++ joinParts parts
  else if parts = [] then "." else joinParts parts

/-- Length of the common leading run of equal segments. -/
def commonPrefixLen : List String → List String → Nat
  | a :: as, b :: bs => if a = b then commonPrefixLen as bs + 1 else 0
  | _, _ => 0

/-- Node `path.relative` (POSIX) restricted to absolute `from`/`to`: resolve
both, drop the common leading segments, and climb with `..` for each remaining
segment of `from`. -/
def pathRelative (f t : String) : String :=
  let fromParts := absParts f
  let toParts := absParts t
  let i := commonPrefixLen fromParts toParts
  joinParts (List.replicate (fromParts.length - i) ".." ++ toParts.drop i)

/-- Node `path.join` (POSIX): drop empty parts, join with `/`, normalize;
an all-empty join yields `"."`. -/
def pathJoin (parts : List String) : String :=
  let joined := joinParts (parts.filter fun p => p ≠ "")
  if joined = "" then "." else pathNormalize joined

/-! ### validation.ts -/

/-- Source `validatePathSafe` (src/utils/validation.ts): normalize both paths,
compute the relative path from root to target, and throw when it starts with
`..` or is absolute.  The thrown `Error` is modelled as `Except.error` carrying
the message text. -/
def validatePathSafe (root targetPath : String) : Except String Unit :=
  let normalizedRoot := pathNormalize root
  let normalizedTarget := pathNormalize targetPath
  let relative := pathRelative normalizedRoot normalizedTarget
  if strStartsWith relative ".." ∨ isAbsolutePath relative then
    Except.error ("Path traversal detected: " ++ targetPath ++ " escapes root " ++ root)
  else
    Except.ok ()

/-- Source `isValidPathSafe` (src/utils/validation.ts). -/
def isValidPathSafe (root targetPath : String) : Bool :=
  match validatePathSafe root targetPath with
  | Except.ok _ => true
  | Except.error _ => false

/-! ### Path-model lemmas for the plan-builder safety invariant -/

/-- A resolved path segment: nonempty, not a dot segment, slash-free. -/
def okSeg (s : String) : Prop :=
  s ≠ "" ∧ s ≠ "." ∧ s ≠ ".." ∧ '/' ∉ s.data

theorem splitOnChar_ne_nil (c : Char) (l : List Char) : splitOnChar c l ≠ [] := by
  cases l with
  | nil => simp [splitOnChar]
  | cons x xs =>
    simp only [splitOnChar]
    by_cases hx : x = c
    · simp [hx]
    · simp only [if_neg hx]
      rcases hr : splitOnChar c xs with _ | ⟨h0, t⟩ <;> simp

theorem splitOnChar_not_mem (c : Char) (l : List Char) :
    ∀ piece ∈ splitOnChar c l, c ∉ piece := by
  induction l with
  | nil => intro piece hp; simp [splitOnChar] at hp; simp [hp]
  | cons x xs ih =>
    intro piece hp
    by_cases hx : x = c
    · simp [splitOnChar, hx] at hp
      rcases hp with h | h
      · simp [h]
      · exact ih piece (hx ▸ h)
    · rcases hr : splitOnChar c xs with _ | ⟨h0, t⟩
      · exact absurd hr (splitOnChar_ne_nil c xs)
      · simp [splitOnChar, hx, hr] at hp
        rcases hp with h | h
        · subst h
          intro hmem
          rcases List.mem_cons.mp hmem with h1 | h1
          · exact hx h1.symm
          · exact ih h0 (by simp [hr]) h1
        · exact ih piece (by simp [hr, h])

theorem splitSlash_not_slash (s : String) : ∀ p ∈ splitSlash s, '/' ∉ p.data := by
  intro p hp
  simp only [splitSlash, List.mem_map] at hp
  obtain ⟨l, hl, rfl⟩ := hp
  exact splitOnChar_not_mem '/' s.data l hl

theorem resolveStep_ok (acc : List String) (seg : String)
    (hacc : ∀ x ∈ acc, okSeg x) (hseg : '/' ∉ seg.data) :
    ∀ y ∈ resolveStep true acc seg, okSeg y := by
  intro y hy
  unfold resolveStep at hy
  split at hy
  · exact hacc y hy
  next h1 =>
    split at hy
    next h2 =>
      split at hy
      next last heq =>
        split at hy
        next hdd =>
          have hlast : last ∈ acc := by
            rcases List.getLast?_eq_some_iff.mp heq with ⟨ys, rfl⟩
            simp
          exact absurd hdd (hacc last hlast).2.2.1
        next => exact hacc y (List.dropLast_subset acc hy)
      next heq =>
        split at hy
        · simp at hy
        next hcond => exact absurd rfl hcond
    next h2 =>
      rcases List.mem_append.mp hy with h | h
      · exact hacc y h
      · have : y = seg := by simpa using h
        subst this
        push_neg at h1
        exact ⟨h1.1, h1.2, h2, hseg⟩

theorem foldl_resolveStep_ok (segs : List String) :
    ∀ acc : List String, (∀ x ∈ acc, okSeg x) → (∀ s ∈ segs, '/' ∉ s.data) →
      ∀ x ∈ segs.foldl (resolveStep true) acc, okSeg x := by
  induction segs with
  | nil => intro acc hacc _ x hx; exact hacc x hx
  | cons seg rest ih =>
    intro acc hacc hns x hx
    simp only [List.foldl_cons] at hx
    exact ih (resolveStep true acc seg)
      (resolveStep_ok acc seg hacc (hns seg (by simp)))
      (fun s hs => hns s (by simp [hs])) x hx

theorem absParts_ok (s : String) : ∀ x ∈ absParts s, okSeg x :=
  foldl_resolveStep_ok (splitSlash s) [] (by simp) (splitSlash_not_slash s)

theorem foldl_resolveStep_id (R : List String)
    (h : ∀ x ∈ R, x ≠ "" ∧ x ≠ "." ∧ x ≠ "..") :
    ∀ acc : List String, R.foldl (resolveStep true) acc = acc ++ R := by
  induction R with
  | nil => intro acc; simp
  | cons seg rest ih =>
    intro acc
    obtain ⟨h1, h2, h3⟩ := h seg (by simp)
    have hstep : resolveStep true acc seg = acc ++ [seg] := by
      unfold resolveStep
      rw [if_neg (by simp [h1, h2]), if_neg h3]
    simp only [List.foldl_cons, hstep]
    rw [ih (fun x hx => h x (by simp [hx]))]
    simp

theorem splitOnChar_append_sep (c : Char) (l r : List Char) (hl : c ∉ l) :
    splitOnChar c (l ++ c :: r) = l :: splitOnChar c r := by
  induction l with
  | nil => simp [splitOnChar]
  | cons x xs ih =>
    have hx : x ≠ c := by intro h; exact hl (by simp [h])
    have hxs : c ∉ xs := fun h => hl (by simp [h])
    simp only [List.cons_append, splitOnChar, if_neg hx, List.append_eq, ih hxs]

theorem splitOnChar_no_sep (c : Char) (l : List Char) (hl : c ∉ l) :
    splitOnChar c l = [l] := by
  induction l with
  | nil => simp [splitOnChar]
  | cons x xs ih =>
    have hx : x ≠ c := by intro h; exact hl (by simp [h])
    have hxs : c ∉ xs := fun h => hl (by simp [h])
    simp [splitOnChar, if_neg hx, ih hxs]

theorem splitSlash_joinParts (R : List String)
    (h : ∀ x ∈ R, x ≠ "" ∧ '/' ∉ x.data) (hne : R ≠ []) :
    splitSlash (joinParts R) = R := by
  induction R with
  | nil => exact absurd rfl hne
  | cons p rest ih =>
    cases rest with
    | nil =>
      obtain ⟨_, hp2⟩ := h p (by simp)
      simp [joinParts, splitSlash, splitOnChar_no_sep '/' p.data hp2]
    | cons q rest' =>
      obtain ⟨_, hp2⟩ := h p (by simp)
      have hdata : (joinParts (p :: q :: rest')).data
          = p.data ++ '/' :: (joinParts (q :: rest')).data := by
        show (p ++ "/" ++ joinParts (q :: rest')).data = _
        simp [String.data_append]
      have := splitOnChar_append_sep '/' p.data (joinParts (q :: rest')).data hp2
      simp only [splitSlash, hdata, this, List.map_cons]
      have hih := ih (fun x hx => h x (by simp at hx ⊢; tauto)) (by simp)
      simp only [splitSlash] at hih
      rw [hih]

theorem absParts_normalize (s : String) (habs : isAbsolutePath s = true) :
    absParts (pathNormalize s) = absParts s := by
  have hnorm : pathNormalize s = "/" ++ joinParts (absParts s) := by
    unfold pathNormalize
    rw [habs]
    rfl
  have hok : ∀ x ∈ absParts s, okSeg x := absParts_ok s
  rw [hnorm]
  have hdata : ("/" ++ joinParts (absParts s)).data = '/' :: (joinParts (absParts s)).data := by
    simp [String.data_append]
  show resolveSegs true (splitSlash ("/" ++ joinParts (absParts s))) = absParts s
  have hsplit : splitSlash ("/" ++ joinParts (absParts s))
      = "" :: splitSlash (joinParts (absParts s)) := by
    simp only [splitSlash, hdata]
    have : splitOnChar '/' ('/' :: (joinParts (absParts s)).data)
        = [] :: splitOnChar '/' (joinParts (absParts s)).data := by
      simp [splitOnChar]
    rw [this]
    rfl
  rw [hsplit]
  rcases hR : absParts s with _ | ⟨r0, rs⟩
  · simp [hR, joinParts, splitSlash, splitOnChar, resolveSegs, resolveStep]
  · have hRne : absParts s ≠ [] := by rw [hR]; simp
    have hsp := splitSlash_joinParts (absParts s)
      (fun x hx => ⟨(hok x hx).1, (hok x hx).2.2.2⟩) hRne
    rw [hR] at hsp
    rw [hsp]
    show List.foldl (resolveStep true) (resolveStep true [] "") (r0 :: rs)
        = r0 :: rs
    have : resolveStep true [] "" = [] := by unfold resolveStep; simp
    rw [this]
    have hgood : ∀ x ∈ r0 :: rs, x ≠ "" ∧ x ≠ "." ∧ x ≠ ".." := by
      intro x hx
      have := hok x (hR ▸ hx)
      exact ⟨this.1, this.2.1, this.2.2.1⟩
    simpa using foldl_resolveStep_id (r0 :: rs) hgood []

theorem commonPrefixLen_le (R T : List String) : commonPrefixLen R T ≤ R.length := by
  induction R generalizing T with
  | nil => simp [commonPrefixLen]
  | cons a as ih =>
    cases T with
    | nil => simp [commonPrefixLen]
    | cons b bs =>
      by_cases h : a = b
      · simp only [commonPrefixLen, if_pos h, List.length_cons]
        exact Nat.succ_le_succ (ih bs)
      · simp [commonPrefixLen, if_neg h]

theorem commonPrefixLen_eq_of_prefix (R T : List String) (h : R <+: T) :
    commonPrefixLen R T = R.length := by
  induction R generalizing T with
  | nil => simp [commonPrefixLen]
  | cons a as ih =>
    obtain ⟨t, ht⟩ := h
    cases T with
    | nil => simp at ht
    | cons b bs =>
      have ha : a = b := by
        have := congrArg (List.head? ·) ht
        simpa using this
      have has : as <+: bs := by
        refine ⟨t, ?_⟩
        have := congrArg (List.tail ·) ht
        simpa using this
      simp only [commonPrefixLen, if_pos ha, List.length_cons, ih bs has]

theorem prefix_of_commonPrefixLen_eq (R T : List String)
    (h : commonPrefixLen R T = R.length) : R <+: T := by
  induction R generalizing T with
  | nil => simp
  | cons a as ih =>
    cases T with
    | nil => simp [commonPrefixLen] at h
    | cons b bs =>
      by_cases hab : a = b
      · subst hab
        simp only [commonPrefixLen, if_pos rfl, List.length_cons] at h
        have := ih bs (Nat.succ_injective h)
        exact List.cons_prefix_cons.mpr ⟨rfl, this⟩
      · simp [commonPrefixLen, if_neg hab] at h

theorem isPrefixOf_append (a b : List Char) : a.isPrefixOf (a ++ b) = true := by
  induction a with
  | nil => simp [List.isPrefixOf]
  | cons x xs ih => simp [List.isPrefixOf, ih]

theorem strStartsWith_joinParts_dotdot (rest : List String) :
    strStartsWith (joinParts (".." :: rest)) ".." = true := by
  cases rest with
  | nil =>
    show (String.data "..").isPrefixOf (String.data "..") = true
    have := isPrefixOf_append (String.data "..") []
    rwa [List.append_nil] at this
  | cons r rs =>
    show (String.data "..").isPrefixOf (String.data (".." ++ "/" ++ joinParts (r :: rs))) = true
    have hdata : (".." ++ "/" ++ joinParts (r :: rs)).data
        = (String.data "..") ++ ("/" ++ joinParts (r :: rs)).data := by
      rw [String.append_assoc, String.data_append]
    rw [hdata]
    exact isPrefixOf_append _ _

theorem validatePathSafe_escape (root target : String)
    (hr : isAbsolutePath root = true) (ht : isAbsolutePath target = true)
    (hesc : ¬ (absParts root <+: absParts target)) :
    validatePathSafe root target =
      Except.error ("Path traversal detected: " ++ target ++ " escapes root " ++ root) := by
  have hR := absParts_normalize root hr
  have hT := absParts_normalize target ht
  have hlt : commonPrefixLen (absParts root) (absParts target) < (absParts root).length := by
    rcases Nat.lt_or_ge (commonPrefixLen (absParts root) (absParts target))
        (absParts root).length with h | h
    · exact h
    · exact absurd
        (prefix_of_commonPrefixLen_eq _ _
          (Nat.le_antisymm (commonPrefixLen_le _ _) h)) hesc
  have hrep : List.replicate
        ((absParts root).length - commonPrefixLen (absParts root) (absParts target)) ".."
      = ".." :: List.replicate
        ((absParts root).length - commonPrefixLen (absParts root) (absParts target) - 1) ".." := by
    have hk : (absParts root).length - commonPrefixLen (absParts root) (absParts target)
        = ((absParts root).length - commonPrefixLen (absParts root) (absParts target) - 1) + 1 :=
      (Nat.succ_pred_eq_of_pos (Nat.sub_pos_of_lt hlt)).symm
    nth_rewrite 1 [hk]
    rw [List.replicate_succ]
  have hrel : pathRelative (pathNormalize root) (pathNormalize target)
      = joinParts (".." :: (List.replicate
          ((absParts root).length - commonPrefixLen (absParts root) (absParts target) - 1) ".."
          ++ (absParts target).drop (commonPrefixLen (absParts root) (absParts target)))) := by
    show joinParts (List.replicate ((absParts (pathNormalize root)).length
          - commonPrefixLen (absParts (pathNormalize root)) (absParts (pathNormalize target))) ".."
        ++ (absParts (pathNormalize target)).drop
          (commonPrefixLen (absParts (pathNormalize root)) (absParts (pathNormalize target)))) = _
    rw [hR, hT, hrep]
    simp
  unfold validatePathSafe
  rw [if_pos ?hcond]
  case hcond =>
    left
    rw [hrel]
    exact strStartsWith_joinParts_dotdot _

/-! ### Data model (src/types/index.ts)

The `AgentClientName` and `AssetType` string unions are modelled by `String`;
`Date` values are modelled by their millisecond timestamps (`Nat`). -/

/-- Source `AssetContent` (with `AssetLocation` fields inlined). -/
structure AssetContent where
  path : String
  name : String
  type : String
  client : String
  relativePath : String
  canonicalPath : Option String := none
  content : String
  hash : String
  modifiedAt : Option Nat := none
deriving DecidableEq, Repr

/-- Source `AssetPattern` (only `type` is consulted by the modelled core). -/
structure AssetPattern where
  type : String
  patterns : List String := []
  files : Option (List String) := none
deriving DecidableEq, Repr

/-- Source `ClientDefinition`. -/
structure ClientDefinition where
  name : String
  displayName : String := ""
  root : String
  assets : List AssetPattern
deriving DecidableEq, Repr

/-- Source `SyncOptions` (fields consulted by the modelled core). -/
structure SyncOptions where
  mode : String
  source : Option String := none
  clients : Option (List String) := none
  types : Option (List String) := none
  dryRun : Option Bool := none
  verbose : Option Bool := none
  priority : Option (List String) := none
  link : Option Bool := none
deriving DecidableEq, Repr

/-- Source `SyncPlanEntry`. -/
structure SyncPlanEntry where
  asset : AssetContent
  targetClient : String
  targetPath : String
  targetRelativePath : Option String := none
  action : String
  reason : Option String := none
deriving DecidableEq, Repr

/-! ### Insertion-ordered association lists

JavaScript `Map` objects (and plain objects used as string-keyed records) are
modelled as association lists in insertion order: `alSet` overwrites an
existing key in place and appends a new key at the end, exactly the JavaScript
assignment semantics. -/

/-- Lookup in an association list (JavaScript `map.get(k)` / `obj[k]`). -/
def alGet {β : Type} (m : List (String × β)) (k : String) : Option β :=
  match m with
  | [] => none
  | (k', v) :: rest => if k' = k then some v else alGet rest k

/-- Update in an association list (JavaScript `map.set(k, v)` / `obj[k] = v`). -/
def alSet {β : Type} (m : List (String × β)) (k : String) (v : β) : List (String × β) :=
  match m with
  | [] => [(k, v)]
  | (k', v') :: rest => if k' = k then (k, v) :: rest else (k', v') :: alSet rest k v

/-- JavaScript `map.has(k)`. -/
def alHas {β : Type} (m : List (String × β)) (k : String) : Bool :=
  (alGet m k).isSome

/-! ### paths.ts helpers used by the plan builder -/

/-- Source `normalizeRelativePath`: replace every backslash by a slash. -/
def normalizeRelativePath (relativePath : String) : String :=
  String.mk (relativePath.data.map fun c => if c = '\\' then '/' else c)

/-- Source `denormalizeRelativePath`. -/
def denormalizeRelativePath (client type_ canonicalPath : String) : String :=
  if type_ = "agents" ∧ client = "claude" ∧ canonicalPath = "AGENTS.md" then
    "CLAUDE.md"
  else canonicalPath

/-- Source `buildTargetAbsolutePath`: split the normalized relative path,
drop empty segments, and `path.join` them onto the root. -/
def buildTargetAbsolutePath (root relativePath : String) : String :=
  let segments := (splitSlash (normalizeRelativePath relativePath)).filter fun p => p ≠ ""
  pathJoin (root :: segments)

/-- Source `resolveTargetRelativePath`. -/
def resolveTargetRelativePath (targetClient : String) (asset : AssetContent) : String :=
  let canonical := asset.canonicalPath.getD (normalizeRelativePath asset.relativePath)
  if asset.client = targetClient then normalizeRelativePath asset.relativePath
  else denormalizeRelativePath targetClient asset.type canonical

/-- Join a list of strings with a separator (JavaScript `parts.join(sep)`). -/
def joinWith (sep : String) : List String → String
  | [] => ""
  | [p] => p
  | p :: rest => p ++ sep ++ joinWith sep rest

/-- Source `toPromptPath` (paths.ts): convert a canonical `commands/` path to
Codex's `prompts/` layout, joining nested segments with dashes. -/
def toPromptPath (relativePath : String) : String :=
  let segments := (splitSlash (normalizeRelativePath relativePath)).filter fun p => p ≠ ""
  match segments with
  | [] => "prompts/command.md"
  | s0 :: _ =>
    let nameSegments := if s0 = "commands" then segments.drop 1 else segments
    let fileName := joinWith "-" nameSegments
    normalizeRelativePath (pathJoin ["prompts", fileName])

/-- Source `remapRelativePathForTarget` (paths.ts). -/
def remapRelativePathForTarget (asset : AssetContent) (targetClient relativePath : String) :
    String :=
  let normalized := normalizeRelativePath relativePath
  if asset.type = "commands" ∧ targetClient = "codex" then toPromptPath normalized
  else normalized

/-! ### Stable sorting

JavaScript's `Array.prototype.sort` is required to be stable; for a comparator
inducing a total preorder its result is the unique stable sort.  It is
modelled by a structurally recursive stable insertion sort (`x` is inserted
before the first strictly-greater element, so ties keep their original
order). -/

/-- Stable insertion of `x` into a sorted list: `x` goes before the first
element `y` with `le x y` (ties keep `x`, the earlier element, first). -/
def insertSorted {α : Type} (le : α → α → Bool) (x : α) : List α → List α
  | [] => [x]
  | y :: ys => if le x y then x :: y :: ys else y :: insertSorted le x ys

/-- Stable sort by a boolean comparator (JavaScript `arr.slice().sort(cmp)`
with `cmp(a,b) ≤ 0` modelled as `le a b = true`). -/
def sortByStable {α : Type} (le : α → α → Bool) : List α → List α
  | [] => []
  | x :: xs => insertSorted le x (sortByStable le xs)

/-! ### Plan builder (buildSyncPlan and helpers) -/

/-- Source `CLIENT_ORDER` (src/clients/definitions.ts). -/
def CLIENT_ORDER : List String :=
  ["project", "codex", "claude", "claudeDesktop", "cursor", "windsurf", "cline",
   "roo", "gemini", "opencode", "vscode", "antigravity", "goose", "mcphub",
   "cherrystudio"]

/-- Source `makeAssetKey` (plan builder). -/
def makeAssetKey (type_ relativePath : String) : String :=
  type_ ++ "::" ++ normalizeRelativePath relativePath

/-- Source `getCanonicalRelative` (plan builder). -/
def getCanonicalRelative (asset : AssetContent) : String :=
  normalizeRelativePath (asset.canonicalPath.getD asset.relativePath)

/-- JavaScript `Array.prototype.indexOf` result used by the priority
comparator: index in the list, or `-1` when absent. -/
def priorityIndex (priority : List String) (c : String) : Int :=
  match List.indexOf? c priority with
  | some i => (i : Int)
  | none => -1

/-- Canonical-asset map of the plan builder: first (priority-sorted) asset per
`(type, canonicalRelative)` key wins, respecting the type filter. -/
def canonicalMapOf (typeFilter : List String) (sorted : List AssetContent) :
    List (String × AssetContent) :=
  sorted.foldl
    (fun canonical asset =>
      if typeFilter ≠ [] ∧ asset.type ∉ typeFilter then canonical
      else
        let key := makeAssetKey asset.type (getCanonicalRelative asset)
        if alHas canonical key then canonical else canonical ++ [(key, asset)])
    []

/-- The plan builder's `existingMap`: per client, the last discovered asset at
each canonical key. -/
def existingMapOf (assets : List AssetContent) :
    List (String × List (String × AssetContent)) :=
  assets.foldl
    (fun m asset =>
      let clientMap := (alGet m asset.client).getD []
      alSet m asset.client
        (alSet clientMap (makeAssetKey asset.type (getCanonicalRelative asset)) asset))
    []

/-- Inner loop of `buildSyncPlan`: for one target client definition, walk the
canonical assets in insertion order and emit skip/update/create entries,
propagating a `validatePathSafe` failure. -/
def planEntriesFor (options : SyncOptions)
    (existingMap : List (String × List (String × AssetContent)))
    (d : ClientDefinition) :
    List (String × AssetContent) → Except String (List SyncPlanEntry)
  | [] => Except.ok []
  | (key, desired) :: rest =>
    let supports := d.assets.map (·.type)
    if ¬ supports.contains desired.type then
      planEntriesFor options existingMap d rest
    else if d.name = desired.client ∧ options.mode ≠ "source" then
      planEntriesFor options existingMap d rest
    else
      let baseRelative := resolveTargetRelativePath d.name desired
      let targetRelative := remapRelativePathForTarget desired d.name baseRelative
      let targetPath := buildTargetAbsolutePath d.root targetRelative
      match validatePathSafe d.root targetPath with
      | Except.error e => Except.error e
      | Except.ok _ =>
        let existing := alGet ((alGet existingMap d.name).getD []) key
        let entry : SyncPlanEntry :=
          match existing with
          | some ex =>
            if ex.hash = desired.hash then
              { asset := desired, targetClient := d.name, targetPath := targetPath,
                action := "skip", reason := some "up-to-date" }
            else
              { asset := desired, targetClient := d.name, targetPath := targetPath,
                targetRelativePath := some targetRelative, action := "update" }
          | none =>
            { asset := desired, targetClient := d.name, targetPath := targetPath,
              targetRelativePath := some targetRelative, action := "create" }
        match planEntriesFor options existingMap d rest with
        | Except.error e => Except.error e
        | Except.ok entries => Except.ok (entry :: entries)

/-- Outer loop of `buildSyncPlan` over the client definitions, respecting the
client filter. -/
def buildPlanLoop (options : SyncOptions)
    (existingMap : List (String × List (String × AssetContent)))
    (canonical : List (String × AssetContent))
    (clientFilter : List String) :
    List ClientDefinition → Except String (List SyncPlanEntry)
  | [] => Except.ok []
  | d :: rest =>
    if clientFilter ≠ [] ∧ d.name ∉ clientFilter then
      buildPlanLoop options existingMap canonical clientFilter rest
    else
      match planEntriesFor options existingMap d canonical with
      | Except.error e => Except.error e
      | Except.ok entries =>
        match buildPlanLoop options existingMap canonical clientFilter rest with
        | Except.error e => Except.error e
        | Except.ok more => Except.ok (entries ++ more)

/-- Source `PlanResult`. -/
structure PlanResult where
  plan : List SyncPlanEntry
  desiredAssets : List (String × AssetContent)
deriving DecidableEq, Repr

/-- The plan builder's `filteredAssets`: in `source` mode, only assets of the
designated source client. -/
def planFilteredAssets (assets : List AssetContent) (options : SyncOptions) :
    List AssetContent :=
  if options.mode = "source" then
    assets.filter fun asset => some asset.client = options.source
  else assets

/-- The plan builder's `sorted` list: assets stably sorted by priority index. -/
def planSortedAssets (assets : List AssetContent) (options : SyncOptions) :
    List AssetContent :=
  sortByStable
    (fun a b =>
      priorityIndex (options.priority.getD CLIENT_ORDER) a.client ≤
        priorityIndex (options.priority.getD CLIENT_ORDER) b.client)
    (planFilteredAssets assets options)

/-- The plan builder's `canonical` map for the given inputs. -/
def planCanonical (assets : List AssetContent) (options : SyncOptions) :
    List (String × AssetContent) :=
  canonicalMapOf (options.types.getD []) (planSortedAssets assets options)

/-- Source `buildSyncPlan` (plan builder): filter and priority-sort the
discovered assets, collapse them to one canonical asset per key, and emit one
plan entry per (selected client definition, canonical asset) pair; a path-
safety violation aborts the whole construction with `Except.error`. -/
def buildSyncPlan (assets : List AssetContent) (defs : List ClientDefinition)
    (options : SyncOptions) : Except String PlanResult :=
  match buildPlanLoop options (existingMapOf assets) (planCanonical assets options)
      (options.clients.getD []) defs with
  | Except.error e => Except.error e
  | Except.ok plan =>
    Except.ok { plan := plan, desiredAssets := planCanonical assets options }

/-! ### Plan-builder lemmas -/

theorem planEntriesFor_ok_validate (options : SyncOptions)
    (em : List (String × List (String × AssetContent))) (d : ClientDefinition) :
    ∀ (canonical : List (String × AssetContent)) (entries : List SyncPlanEntry),
      planEntriesFor options em d canonical = Except.ok entries →
      ∀ e ∈ entries, e.targetClient = d.name ∧
        validatePathSafe d.root e.targetPath = Except.ok () := by
  intro canonical
  induction canonical with
  | nil =>
    intro entries h e he
    simp only [planEntriesFor] at h
    cases h
    simp at he
  | cons p rest ih =>
    obtain ⟨key, desired⟩ := p
    intro entries h e he
    simp only [planEntriesFor] at h
    split at h
    · exact ih entries h e he
    · split at h
      · exact ih entries h e he
      · split at h
        · exact absurd h (by simp)
        next hval =>
          split at h
          · exact absurd h (by simp)
          next entries' hrec =>
            cases h
            rcases List.mem_cons.mp he with h1 | h1
            · subst h1
              refine ⟨?_, ?_⟩
              · rcases alGet ((alGet em d.name).getD []) key with _ | ex
                · rfl
                · by_cases hh : ex.hash = desired.hash <;> simp [hh]
              · rcases alGet ((alGet em d.name).getD []) key with _ | ex
                · exact hval
                · by_cases hh : ex.hash = desired.hash <;> simp [hh] <;> exact hval
            · exact ih entries' hrec e h1

theorem buildPlanLoop_ok_validate (options : SyncOptions)
    (em : List (String × List (String × AssetContent)))
    (canonical : List (String × AssetContent)) (clientFilter : List String) :
    ∀ (defs : List ClientDefinition) (plan : List SyncPlanEntry),
      buildPlanLoop options em canonical clientFilter defs = Except.ok plan →
      ∀ e ∈ plan, ∃ d ∈ defs, d.name = e.targetClient ∧
        validatePathSafe d.root e.targetPath = Except.ok () := by
  intro defs
  induction defs with
  | nil =>
    intro plan h e he
    simp only [buildPlanLoop] at h
    cases h
    simp at he
  | cons d rest ih =>
    intro plan h e he
    simp only [buildPlanLoop] at h
    split at h
    · obtain ⟨d', hd', hprop⟩ := ih plan h e he
      exact ⟨d', by simp [hd'], hprop⟩
    · split at h
      · exact absurd h (by simp)
      next entries hentries =>
        split at h
        · exact absurd h (by simp)
        next more hmore =>
          cases h
          rcases List.mem_append.mp he with h1 | h1
          · obtain ⟨h2, h3⟩ := planEntriesFor_ok_validate options em d canonical entries hentries e h1
            exact ⟨d, by simp, h2.symm, h3⟩
          · obtain ⟨d', hd', hprop⟩ := ih more hmore e h1
            exact ⟨d', by simp [hd'], hprop⟩

/-- C1: for every target client root and destination path the plan builder
constructs, if the normalized destination is not a descendant of (or equal to)
the target client's root, `validatePathSafe` raises the path-traversal error —
and `buildSyncPlan` propagates this error instead of silently emitting or
dropping the entry, so every entry of a successfully built plan passed the
check against its client's root; a destination whose `..` segments normalize
back inside the root (root `/root`, target `/root/sub/../sub/file.txt`) is
accepted. -/
theorem c1_plan_destination_path_safety :
    (∀ root target : String, isAbsolutePath root = true → isAbsolutePath target = true →
        ¬ (absParts root <+: absParts target) →
        validatePathSafe root target =
          Except.error ("Path traversal detected: " ++ target ++ " escapes root " ++ root)) ∧
    validatePathSafe "/root" "/root/../etc/passwd" =
      Except.error "Path traversal detected: /root/../etc/passwd escapes root /root" ∧
    validatePathSafe "/root" "/root/sub/../sub/file.txt" = Except.ok () ∧
    (∀ (assets : List AssetContent) (defs : List ClientDefinition) (options : SyncOptions)
        (res : PlanResult), buildSyncPlan assets defs options = Except.ok res →
        ∀ e ∈ res.plan, ∃ d ∈ defs, d.name = e.targetClient ∧
          validatePathSafe d.root e.targetPath = Except.ok ()) := by
  refine ⟨validatePathSafe_escape, rfl, rfl, ?_⟩
  intro assets defs options res h e he
  unfold buildSyncPlan at h
  rcases hloop : buildPlanLoop options (existingMapOf assets) (planCanonical assets options)
      (options.clients.getD []) defs with err | plan
  · rw [hloop] at h; exact absurd h (by simp)
  · rw [hloop] at h
    cases h
    exact buildPlanLoop_ok_validate options (existingMapOf assets) _ _ defs plan hloop e he

/-- Witness for C1: the theorem applied at concrete inputs, with every
hypothesis discharged. -/
theorem c1_plan_destination_path_safety_witness :
    validatePathSafe "/root" "/etc/passwd" =
      Except.error "Path traversal detected: /etc/passwd escapes root /root" ∧
    (∀ e ∈ (PlanResult.plan { plan := [], desiredAssets := [] }),
        ∃ d ∈ ([] : List ClientDefinition), d.name = e.targetClient ∧
          validatePathSafe d.root e.targetPath = Except.ok ()) :=
  ⟨c1_plan_destination_path_safety.1 "/root" "/etc/passwd" rfl rfl (by decide),
   c1_plan_destination_path_safety.2.2.2 [] [] { mode := "merge" }
     { plan := [], desiredAssets := [] } rfl⟩

/-- The claim's action rule for one plan entry: looking up the target client's
existing asset at the entry's canonical key, an identical fingerprint forces a
`skip`/`up-to-date` entry, a different fingerprint forces `update`, and no
existing asset forces `create`. -/
def entryActionSpec (assets : List AssetContent) (e : SyncPlanEntry) : Prop :=
  match alGet ((alGet (existingMapOf assets) e.targetClient).getD [])
      (makeAssetKey e.asset.type (getCanonicalRelative e.asset)) with
  | some ex =>
    (ex.hash = e.asset.hash → e.action = "skip" ∧ e.reason = some "up-to-date") ∧
    (ex.hash ≠ e.asset.hash → e.action = "update")
  | none => e.action = "create"

theorem canonicalMapOf_aux (tf : List String) (l : List AssetContent) :
    ∀ acc : List (String × AssetContent),
      (∀ p ∈ acc, p.1 = makeAssetKey p.2.type (getCanonicalRelative p.2)) →
      ∀ p ∈ l.foldl
        (fun canonical asset =>
          if tf ≠ [] ∧ asset.type ∉ tf then canonical
          else
            let key := makeAssetKey asset.type (getCanonicalRelative asset)
            if alHas canonical key then canonical else canonical ++ [(key, asset)])
        acc,
        p.1 = makeAssetKey p.2.type (getCanonicalRelative p.2) := by
  induction l with
  | nil => intro acc hacc p hp; exact hacc p hp
  | cons a rest ih =>
    intro acc hacc p hp
    simp only [List.foldl_cons] at hp
    refine ih _ ?_ p hp
    intro q hq
    split at hq
    · exact hacc q hq
    · split at hq
      · exact hacc q hq
      · rcases List.mem_append.mp hq with h | h
        · exact hacc q h
        · have : q = (makeAssetKey a.type (getCanonicalRelative a), a) := by simpa using h
          subst this
          rfl

theorem canonicalMapOf_keys (tf : List String) (sorted : List AssetContent) :
    ∀ p ∈ canonicalMapOf tf sorted, p.1 = makeAssetKey p.2.type (getCanonicalRelative p.2) :=
  canonicalMapOf_aux tf sorted [] (by simp)

theorem planEntriesFor_ok_action (options : SyncOptions)
    (em : List (String × List (String × AssetContent))) (d : ClientDefinition) :
    ∀ (canonical : List (String × AssetContent)) (entries : List SyncPlanEntry),
      (∀ p ∈ canonical, p.1 = makeAssetKey p.2.type (getCanonicalRelative p.2)) →
      planEntriesFor options em d canonical = Except.ok entries →
      ∀ e ∈ entries,
        match alGet ((alGet em d.name).getD [])
            (makeAssetKey e.asset.type (getCanonicalRelative e.asset)) with
        | some ex =>
          (ex.hash = e.asset.hash → e.action = "skip" ∧ e.reason = some "up-to-date") ∧
          (ex.hash ≠ e.asset.hash → e.action = "update")
        | none => e.action = "create" := by
  intro canonical
  induction canonical with
  | nil =>
    intro entries _ h e he
    simp only [planEntriesFor] at h
    cases h
    simp at he
  | cons p rest ih =>
    obtain ⟨key, desired⟩ := p
    intro entries hkeys h e he
    have hrest : ∀ q ∈ rest, q.1 = makeAssetKey q.2.type (getCanonicalRelative q.2) :=
      fun q hq => hkeys q (by simp [hq])
    have hk : key = makeAssetKey desired.type (getCanonicalRelative desired) :=
      hkeys (key, desired) (by simp)
    simp only [planEntriesFor] at h
    split at h
    · exact ih entries hrest h e he
    · split at h
      · exact ih entries hrest h e he
      · split at h
        · exact absurd h (by simp)
        next hval =>
          split at h
          · exact absurd h (by simp)
          next entries' hrec =>
            cases h
            rcases List.mem_cons.mp he with h1 | h1
            · subst h1
              subst hk
              rcases halg : alGet ((alGet em d.name).getD [])
                  (makeAssetKey desired.type (getCanonicalRelative desired)) with _ | ex
              · simp [halg]
              · by_cases hh : ex.hash = desired.hash
                · simp [halg, hh]
                · simp [halg, hh]
            · exact ih entries' hrest hrec e h1

theorem planEntriesFor_emits (options : SyncOptions)
    (em : List (String × List (String × AssetContent))) (d : ClientDefinition) :
    ∀ (canonical : List (String × AssetContent)) (entries : List SyncPlanEntry),
      planEntriesFor options em d canonical = Except.ok entries →
      ∀ p ∈ canonical,
        (d.assets.map (fun a => a.type)).contains p.2.type = true →
        ¬(d.name = p.2.client ∧ options.mode ≠ "source") →
        ∃ e ∈ entries, e.targetClient = d.name ∧ e.asset = p.2 := by
  intro canonical
  induction canonical with
  | nil => intro entries _ p hp; simp at hp
  | cons q rest ih =>
    obtain ⟨key, desired⟩ := q
    intro entries h p hp hsup hself
    simp only [planEntriesFor] at h
    split at h
    next hns =>
      rcases List.mem_cons.mp hp with h1 | h1
      · subst h1; exact absurd hsup hns
      · exact ih entries h p h1 hsup hself
    · split at h
      next hsame =>
        rcases List.mem_cons.mp hp with h1 | h1
        · subst h1; exact absurd hsame hself
        · exact ih entries h p h1 hsup hself
      · split at h
        · exact absurd h (by simp)
        next hval =>
          split at h
          · exact absurd h (by simp)
          next entries' hrec =>
            cases h
            rcases List.mem_cons.mp hp with h1 | h1
            · subst h1
              refine ⟨_, List.mem_cons_self _ _, ?_, ?_⟩
              · rcases alGet ((alGet em d.name).getD []) key with _ | ex
                · rfl
                · by_cases hh : ex.hash = desired.hash <;> simp [hh]
              · rcases alGet ((alGet em d.name).getD []) key with _ | ex
                · rfl
                · by_cases hh : ex.hash = desired.hash <;> simp [hh]
            · obtain ⟨e, he, hprop⟩ := ih entries' hrec p h1 hsup hself
              exact ⟨e, by simp [he], hprop⟩

theorem buildPlanLoop_ok_action (options : SyncOptions) (assets : List AssetContent)
    (canonical : List (String × AssetContent)) (cf : List String)
    (hkeys : ∀ p ∈ canonical, p.1 = makeAssetKey p.2.type (getCanonicalRelative p.2)) :
    ∀ (defs : List ClientDefinition) (plan : List SyncPlanEntry),
      buildPlanLoop options (existingMapOf assets) canonical cf defs = Except.ok plan →
      ∀ e ∈ plan, entryActionSpec assets e := by
  intro defs
  induction defs with
  | nil =>
    intro plan h e he
    simp only [buildPlanLoop] at h
    cases h
    simp at he
  | cons d rest ih =>
    intro plan h e he
    simp only [buildPlanLoop] at h
    split at h
    · exact ih plan h e he
    · split at h
      · exact absurd h (by simp)
      next entries hentries =>
        split at h
        · exact absurd h (by simp)
        next more hmore =>
          cases h
          rcases List.mem_append.mp he with h1 | h1
          · have hact := planEntriesFor_ok_action options (existingMapOf assets) d canonical
              entries hkeys hentries e h1
            have hclient := (planEntriesFor_ok_validate options (existingMapOf assets) d
              canonical entries hentries e h1).1
            unfold entryActionSpec
            rw [hclient]
            exact hact
          · exact ih more hmore e h1

theorem buildPlanLoop_emits (options : SyncOptions) (assets : List AssetContent)
    (canonical : List (String × AssetContent)) (cf : List String) :
    ∀ (defs : List ClientDefinition) (plan : List SyncPlanEntry),
      buildPlanLoop options (existingMapOf assets) canonical cf defs = Except.ok plan →
      ∀ d ∈ defs, (cf ≠ [] → d.name ∈ cf) →
      ∀ p ∈ canonical,
        (d.assets.map (fun a => a.type)).contains p.2.type = true →
        ¬(d.name = p.2.client ∧ options.mode ≠ "source") →
        ∃ e ∈ plan, e.targetClient = d.name ∧ e.asset = p.2 := by
  intro defs
  induction defs with
  | nil => intro plan h d hd; simp at hd
  | cons dh rest ih =>
    intro plan h d hd hdf p hp hsup hself
    simp only [buildPlanLoop] at h
    split at h
    next hfilter =>
      rcases List.mem_cons.mp hd with h1 | h1
      · subst h1; exact absurd (hdf hfilter.1) hfilter.2
      · exact ih plan h d h1 hdf p hp hsup hself
    · split at h
      · exact absurd h (by simp)
      next entries hentries =>
        split at h
        · exact absurd h (by simp)
        next more hmore =>
          cases h
          rcases List.mem_cons.mp hd with h1 | h1
          · subst h1
            obtain ⟨e, he, hprop⟩ := planEntriesFor_emits options (existingMapOf assets) d
              canonical entries hentries p hp hsup hself
            exact ⟨e, List.mem_append.mpr (Or.inl he), hprop⟩
          · obtain ⟨e, he, hprop⟩ := ih more hmore d h1 hdf p hp hsup hself
            exact ⟨e, List.mem_append.mpr (Or.inr he), hprop⟩

/-- C7: for every target client and canonical (desired) asset the plan builder
considers, a target already holding the same canonical key with an identical
fingerprint still gets an emitted entry, with action `skip` and reason
`up-to-date`; otherwise the emitted entry's action is `update` when the target
holds any asset at that key and `create` when it holds none. -/
theorem c7_plan_entry_actions :
    ∀ (assets : List AssetContent) (defs : List ClientDefinition) (options : SyncOptions)
      (res : PlanResult), buildSyncPlan assets defs options = Except.ok res →
      (∀ e ∈ res.plan, entryActionSpec assets e) ∧
      (∀ d ∈ defs, (options.clients.getD [] ≠ [] → d.name ∈ options.clients.getD []) →
        ∀ p ∈ res.desiredAssets,
          (d.assets.map (fun a => a.type)).contains p.2.type = true →
          ¬(d.name = p.2.client ∧ options.mode ≠ "source") →
          ∃ e ∈ res.plan, e.targetClient = d.name ∧ e.asset = p.2 ∧
            entryActionSpec assets e) := by
  intro assets defs options res h
  unfold buildSyncPlan at h
  rcases hloop : buildPlanLoop options (existingMapOf assets) (planCanonical assets options)
      (options.clients.getD []) defs with err | plan
  · rw [hloop] at h; exact absurd h (by simp)
  · rw [hloop] at h
    cases h
    have hkeys := canonicalMapOf_keys (options.types.getD []) (planSortedAssets assets options)
    constructor
    · exact buildPlanLoop_ok_action options assets _ _ hkeys defs plan hloop
    · intro d hd hdf p hp hsup hself
      obtain ⟨e, he, h1, h2⟩ := buildPlanLoop_emits options assets _ _ defs plan hloop
        d hd hdf p hp hsup hself
      exact ⟨e, he, h1, h2,
        buildPlanLoop_ok_action options assets _ _ hkeys defs plan hloop e he⟩

/-- Sample discovery fixtures used by the plan-builder and conflict witnesses. -/
def wAssetA : AssetContent :=
  { path := "/proj/AGENTS.md", name := "AGENTS", type := "agents",
    client := "project", relativePath := "AGENTS.md", content := "foo", hash := "h1" }

/-- Byte-identical copy of `wAssetA` held by the claude client. -/
def wAssetB : AssetContent :=
  { path := "/hc/CLAUDE.md", name := "CLAUDE", type := "agents",
    client := "claude", relativePath := "CLAUDE.md", canonicalPath := some "AGENTS.md",
    content := "foo", hash := "h1" }

/-- Sample client definition for the claude client. -/
def wDefClaude : ClientDefinition :=
  { name := "claude", root := "/hc", assets := [{ type := "agents" }] }

/-- Sample merge-mode options. -/
def wOpts : SyncOptions := { mode := "merge" }

/-- The plan `buildSyncPlan [wAssetA, wAssetB] [wDefClaude] wOpts` computes. -/
def wPlanRes : PlanResult :=
  { plan := [{ asset := wAssetA, targetClient := "claude", targetPath := "/hc/CLAUDE.md",
               action := "skip", reason := some "up-to-date" }],
    desiredAssets := [("agents::AGENTS.md", wAssetA)] }

/-- Witness for C7: the theorem applied to a concrete two-asset discovery in
which the target already holds identical content, with the build hypothesis
discharged by computation. -/
theorem c7_plan_entry_actions_witness :
    (∀ e ∈ wPlanRes.plan, entryActionSpec [wAssetA, wAssetB] e) ∧
    (∀ d ∈ [wDefClaude], (wOpts.clients.getD [] ≠ [] → d.name ∈ wOpts.clients.getD []) →
      ∀ p ∈ wPlanRes.desiredAssets,
        (d.assets.map (fun a => a.type)).contains p.2.type = true →
        ¬(d.name = p.2.client ∧ wOpts.mode ≠ "source") →
        ∃ e ∈ wPlanRes.plan, e.targetClient = d.name ∧ e.asset = p.2 ∧
          entryActionSpec [wAssetA, wAssetB] e) :=
  c7_plan_entry_actions [wAssetA, wAssetB] [wDefClaude] wOpts wPlanRes rfl

/-! ### Similarity scorer (calculateSimilarity / tokenize)

JavaScript numbers produced here are exact small rationals (an integer
intersection size divided by an integer union size), so the score is modelled
in `ℚ`. -/

/-- JavaScript `text.split(/\s+/)`: split on maximal whitespace runs, keeping
an empty piece at the ends when the text starts or ends with whitespace. -/
def splitWsRuns : List Char → List (List Char)
  | [] => [[]]
  | x :: xs =>
    let r := splitWsRuns xs
    if isJsWhitespace x then
      match xs with
      | [] => [] :: r
      | y :: _ => if isJsWhitespace y then r else [] :: r
    else
      match r with
      | [] => [[x]]
      | h :: t => (x :: h) :: t

/-- Source `tokenize` (similarity.ts): lower-case, split on whitespace, strip
every character outside `[a-z0-9]`, and keep only tokens longer than two
characters. -/
def tokenize (text : String) : List String :=
  (((splitWsRuns (strToLower text).data).map
      (fun w => w.filter fun c => ('a' ≤ c ∧ c ≤ 'z') ∨ ('0' ≤ c ∧ c ≤ '9'))).map
    String.mk).filter fun w => 2 < w.length

/-- Source `calculateSimilarity` (similarity.ts): Jaccard index of the two
token sets, with the reference/value equality and empty-side short circuits. -/
def calculateSimilarity (a b : String) : ℚ :=
  if a = b then 1
  else if a = "" ∨ b = "" then 0
  else
    let wordsA := (tokenize a).toFinset
    let wordsB := (tokenize b).toFinset
    if wordsA.card = 0 ∧ wordsB.card = 0 then 1
    else if wordsA.card = 0 ∨ wordsB.card = 0 then 0
    else ((wordsA ∩ wordsB).card : ℚ) / ((wordsA ∪ wordsB).card : ℚ)

/-- C9: the similarity score is reflexive (`similarity(x,x) = 1`, including
both sides empty), scores `0` when exactly one side is empty, and always lies
in the closed interval `[0, 1]`. -/
theorem c9_similarity_bounds :
    (∀ x : String, calculateSimilarity x x = 1) ∧
    (∀ x : String, x ≠ "" → calculateSimilarity x "" = 0 ∧ calculateSimilarity "" x = 0) ∧
    calculateSimilarity "" "" = 1 ∧
    (∀ a b : String, 0 ≤ calculateSimilarity a b ∧ calculateSimilarity a b ≤ 1) := by
  have hrefl : ∀ x : String, calculateSimilarity x x = 1 := by
    intro x
    unfold calculateSimilarity
    rw [if_pos rfl]
  refine ⟨hrefl, ?_, hrefl "", ?_⟩
  · intro x hx
    constructor
    · unfold calculateSimilarity
      rw [if_neg (by simpa using hx), if_pos (Or.inr rfl)]
    · unfold calculateSimilarity
      rw [if_neg (by simpa using fun h => hx h.symm), if_pos (Or.inl rfl)]
  · intro a b
    by_cases hab : a = b
    · have h : calculateSimilarity a b = 1 := by unfold calculateSimilarity; rw [if_pos hab]
      rw [h]; norm_num
    · by_cases hemp : a = "" ∨ b = ""
      · have h : calculateSimilarity a b = 0 := by
          unfold calculateSimilarity; rw [if_neg hab, if_pos hemp]
        rw [h]; norm_num
      · by_cases h00 : (tokenize a).toFinset.card = 0 ∧ (tokenize b).toFinset.card = 0
        · have h : calculateSimilarity a b = 1 := by
            unfold calculateSimilarity
            rw [if_neg hab, if_neg hemp]
            simp only []
            rw [if_pos h00]
          rw [h]; norm_num
        · by_cases h0 : (tokenize a).toFinset.card = 0 ∨ (tokenize b).toFinset.card = 0
          · have h : calculateSimilarity a b = 0 := by
              unfold calculateSimilarity
              rw [if_neg hab, if_neg hemp]
              simp only []
              rw [if_neg h00, if_pos h0]
            rw [h]; norm_num
          · have h : calculateSimilarity a b =
                (((tokenize a).toFinset ∩ (tokenize b).toFinset).card : ℚ) /
                  (((tokenize a).toFinset ∪ (tokenize b).toFinset).card : ℚ) := by
              unfold calculateSimilarity
              rw [if_neg hab, if_neg hemp]
              simp only []
              rw [if_neg h00, if_neg h0]
            rw [h]
            have hA : (tokenize a).toFinset.card ≠ 0 := fun hc => h0 (Or.inl hc)
            have hU : 0 < (((tokenize a).toFinset ∪ (tokenize b).toFinset).card : ℚ) := by
              have h1 : (tokenize a).toFinset.card ≤
                  ((tokenize a).toFinset ∪ (tokenize b).toFinset).card :=
                Finset.card_le_card Finset.subset_union_left
              have h2 : 0 < ((tokenize a).toFinset ∪ (tokenize b).toFinset).card :=
                Nat.lt_of_lt_of_le (Nat.pos_of_ne_zero hA) h1
              exact_mod_cast h2
            constructor
            · positivity
            · rw [div_le_one hU]
              have hle : ((tokenize a).toFinset ∩ (tokenize b).toFinset).card ≤
                  ((tokenize a).toFinset ∪ (tokenize b).toFinset).card :=
                Finset.card_le_card Finset.inter_subset_union
              exact_mod_cast hle

/-- Witness for C9: the empty-side part applied at a concrete nonempty text. -/
theorem c9_similarity_bounds_witness :
    calculateSimilarity "alpha" "" = 0 ∧ calculateSimilarity "" "alpha" = 0 :=
  c9_similarity_bounds.2.1 "alpha" (by decide)

/-! ### Conflict detector (detectConflicts)

Source `detectConflicts` (interactive CLI): group discovered assets by
`type::canonicalPath` and, for every group holding more than one distinct
fingerprint, emit one conflict with the group's versions sorted by
modification time descending (`Date` values are modelled by millisecond
timestamps, a missing timestamp counting as `0`, exactly the code's
`modifiedAt?.getTime() ?? 0`). -/

/-- Source `AssetConflict` (fields consulted by the modelled core). -/
structure AssetConflict where
  canonicalKey : String
  type : String
  versions : List AssetContent
deriving DecidableEq, Repr

/-- The grouping key of `detectConflicts`:
`asset.type ++ "::" ++ (asset.canonicalPath ?? asset.relativePath)`. -/
def conflictKeyOf (asset : AssetContent) : String :=
  asset.type ++ "::" ++ (asset.canonicalPath.getD asset.relativePath)

/-- The `byKey` map of `detectConflicts`: insertion-ordered groups, each group
collecting its assets in discovery order. -/
def conflictGroups (assets : List AssetContent) : List (String × List AssetContent) :=
  assets.foldl
    (fun byKey asset =>
      let key := conflictKeyOf asset
      let existing := (alGet byKey key).getD []
      alSet byKey key (existing ++ [asset]))
    []

/-- The comparator of `detectConflicts`: `(a, b) => timeB - timeA`, i.e. `a`
sorts before `b` when `b`'s timestamp is at most `a`'s. -/
def newestFirst (x y : AssetContent) : Bool :=
  y.modifiedAt.getD 0 ≤ x.modifiedAt.getD 0

/-- One group's contribution to the conflict list. -/
def conflictOfGroup (kv : String × List AssetContent) : List AssetConflict :=
  if 1 < (kv.2.map (fun v => v.hash)).dedup.length then
    match kv.2 with
    | [] => []
    | v0 :: _ =>
      [{ canonicalKey := kv.1, type := v0.type,
         versions := sortByStable newestFirst kv.2 }]
  else []

/-- Source `detectConflicts`. -/
def detectConflicts (assets : List AssetContent) : List AssetConflict :=
  (conflictGroups assets).flatMap conflictOfGroup

/-! ### Association-list and sorting lemmas for the conflict detector -/

theorem alGet_alSet {β : Type} (m : List (String × β)) (k k' : String) (v : β) :
    alGet (alSet m k v) k' = if k = k' then some v else alGet m k' := by
  induction m with
  | nil => by_cases h : k = k' <;> simp [alSet, alGet, h]
  | cons p rest ih =>
    obtain ⟨pk, pv⟩ := p
    by_cases hpk : pk = k
    · by_cases h : k = k'
      · subst hpk; subst h; simp [alSet, alGet]
      · subst hpk; simp [alSet, alGet, h]
    · by_cases h : k = k'
      · subst h
        have hpk' : ¬ pk = k := hpk
        simp [alSet, alGet, hpk, hpk', ih]
      · by_cases hpk' : pk = k'
        · subst hpk'
          simp [alSet, alGet, hpk, h]
        · simp [alSet, alGet, hpk, h, hpk', ih]

theorem mem_keys_alSet {β : Type} (m : List (String × β)) (k : String) (v : β) :
    ∀ x ∈ (alSet m k v).map Prod.fst, x ∈ m.map Prod.fst ∨ x = k := by
  induction m with
  | nil => intro x hx; simp [alSet] at hx; simp [hx]
  | cons p rest ih =>
    obtain ⟨pk, pv⟩ := p
    intro x hx
    by_cases h : pk = k
    · subst h
      simp only [alSet, if_pos rfl, List.map_cons] at hx
      rcases List.mem_cons.mp hx with h1 | h1
      · exact Or.inr h1
      · exact Or.inl (by simp [h1])
    · simp only [alSet, if_neg h, List.map_cons] at hx
      rcases List.mem_cons.mp hx with h1 | h1
      · exact Or.inl (by simp [h1])
      · rcases ih x h1 with h2 | h2
        · exact Or.inl (by simp [h2])
        · exact Or.inr h2

theorem alSet_keys_nodup {β : Type} (m : List (String × β)) (k : String) (v : β)
    (h : (m.map Prod.fst).Nodup) : ((alSet m k v).map Prod.fst).Nodup := by
  induction m with
  | nil => simp [alSet]
  | cons p rest ih =>
    obtain ⟨pk, pv⟩ := p
    simp only [List.map_cons, List.nodup_cons] at h
    by_cases hk : pk = k
    · subst hk
      have hset : alSet ((pk, pv) :: rest) pk v = (pk, v) :: rest := by simp [alSet]
      rw [hset]
      simp only [List.map_cons, List.nodup_cons]
      exact h
    · simp only [alSet, if_neg hk, List.map_cons, List.nodup_cons]
      refine ⟨?_, ih h.2⟩
      intro hmem
      rcases mem_keys_alSet rest k v pk hmem with h1 | h1
      · exact h.1 h1
      · exact hk h1

theorem alGet_mem {β : Type} (m : List (String × β)) (k : String) (v : β)
    (h : alGet m k = some v) : (k, v) ∈ m := by
  induction m with
  | nil => simp [alGet] at h
  | cons p rest ih =>
    obtain ⟨pk, pv⟩ := p
    simp only [alGet] at h
    split at h
    next heq =>
      cases h
      subst heq
      simp
    · exact List.mem_cons.mpr (Or.inr (ih h))

theorem alGet_of_mem_nodup {β : Type} (m : List (String × β)) (k : String) (v : β)
    (hmem : (k, v) ∈ m) (hnd : (m.map Prod.fst).Nodup) : alGet m k = some v := by
  induction m with
  | nil => simp at hmem
  | cons p rest ih =>
    obtain ⟨pk, pv⟩ := p
    simp only [List.map_cons, List.nodup_cons] at hnd
    rcases List.mem_cons.mp hmem with h1 | h1
    · cases h1
      simp [alGet]
    · have hk : pk ≠ k := by
        intro hkk
        subst hkk
        exact hnd.1 (by simpa using List.mem_map_of_mem Prod.fst h1)
      simp only [alGet, if_neg hk]
      exact ih h1 hnd.2

theorem conflictGroups_lookup_aux (l : List AssetContent) :
    ∀ (acc : List (String × List AssetContent)) (k : String),
      (alGet (l.foldl
        (fun byKey asset =>
          let key := conflictKeyOf asset
          let existing := (alGet byKey key).getD []
          alSet byKey key (existing ++ [asset])) acc) k).getD []
      = (alGet acc k).getD [] ++ l.filter fun a => conflictKeyOf a = k := by
  induction l with
  | nil => intro acc k; simp
  | cons a rest ih =>
    intro acc k
    simp only [List.foldl_cons]
    rw [ih]
    by_cases hk : conflictKeyOf a = k
    · rw [List.filter_cons_of_pos (by simp [hk])]
      have : alGet (alSet acc (conflictKeyOf a) ((alGet acc (conflictKeyOf a)).getD [] ++ [a])) k
          = some ((alGet acc (conflictKeyOf a)).getD [] ++ [a]) := by
        rw [alGet_alSet, if_pos hk]
      rw [this, hk]
      simp
    · rw [List.filter_cons_of_neg (by simp [hk])]
      have : alGet (alSet acc (conflictKeyOf a) ((alGet acc (conflictKeyOf a)).getD [] ++ [a])) k
          = alGet acc k := by
        rw [alGet_alSet, if_neg hk]
      rw [this]

theorem conflictGroups_lookup (assets : List AssetContent) (k : String) :
    (alGet (conflictGroups assets) k).getD []
      = assets.filter fun a => conflictKeyOf a = k := by
  have := conflictGroups_lookup_aux assets [] k
  simpa [conflictGroups, alGet] using this

theorem conflictGroups_nodup_aux (l : List AssetContent) :
    ∀ acc : List (String × List AssetContent), (acc.map Prod.fst).Nodup →
      ((l.foldl
        (fun byKey asset =>
          let key := conflictKeyOf asset
          let existing := (alGet byKey key).getD []
          alSet byKey key (existing ++ [asset])) acc).map Prod.fst).Nodup := by
  induction l with
  | nil => intro acc h; exact h
  | cons a rest ih =>
    intro acc h
    simp only [List.foldl_cons]
    exact ih _ (alSet_keys_nodup _ _ _ h)

theorem conflictGroups_nodup (assets : List AssetContent) :
    ((conflictGroups assets).map Prod.fst).Nodup :=
  conflictGroups_nodup_aux assets [] (by simp)

/-! ### Stable-sort lemmas -/

theorem insertSorted_perm {α : Type} (le : α → α → Bool) (x : α) (l : List α) :
    (insertSorted le x l).Perm (x :: l) := by
  induction l with
  | nil => simp [insertSorted]
  | cons y ys ih =>
    simp only [insertSorted]
    split
    · exact List.Perm.refl _
    · exact (List.Perm.cons y ih).trans (List.Perm.swap x y ys)

theorem sortByStable_perm {α : Type} (le : α → α → Bool) (l : List α) :
    (sortByStable le l).Perm l := by
  induction l with
  | nil => simp [sortByStable]
  | cons x xs ih =>
    simp only [sortByStable]
    exact (insertSorted_perm le x (sortByStable le xs)).trans (List.Perm.cons x ih)

theorem insertSorted_pairwise {α : Type} (le : α → α → Bool)
    (htrans : ∀ a b c, le a b = true → le b c = true → le a c = true)
    (htotal : ∀ a b, le a b = true ∨ le b a = true) (x : α) (l : List α)
    (hl : List.Pairwise (fun a b => le a b = true) l) :
    List.Pairwise (fun a b => le a b = true) (insertSorted le x l) := by
  induction l with
  | nil => simp [insertSorted]
  | cons y ys ih =>
    simp only [insertSorted]
    split
    next hxy =>
      refine List.Pairwise.cons ?_ hl
      intro b hb
      rcases List.mem_cons.mp hb with h1 | h1
      · subst h1; exact hxy
      · exact htrans x y b hxy (List.rel_of_pairwise_cons hl h1)
    next hxy =>
      have hyx : le y x = true := by
        rcases htotal x y with h | h
        · exact absurd h hxy
        · exact h
      rcases hl with _ | ⟨hy, hys⟩
      refine List.Pairwise.cons ?_ (ih hys)
      intro b hb
      have := (insertSorted_perm le x ys).mem_iff.mp hb
      rcases List.mem_cons.mp this with h1 | h1
      · subst h1; exact hyx
      · exact hy b h1

theorem sortByStable_pairwise {α : Type} (le : α → α → Bool)
    (htrans : ∀ a b c, le a b = true → le b c = true → le a c = true)
    (htotal : ∀ a b, le a b = true ∨ le b a = true) (l : List α) :
    List.Pairwise (fun a b => le a b = true) (sortByStable le l) := by
  induction l with
  | nil => simp [sortByStable]
  | cons x xs ih =>
    simp only [sortByStable]
    exact insertSorted_pairwise le htrans htotal x _ ih

theorem alGet_eq_none {β : Type} (m : List (String × β)) (k : String)
    (h : k ∉ m.map Prod.fst) : alGet m k = none := by
  induction m with
  | nil => simp [alGet]
  | cons p rest ih =>
    obtain ⟨pk, pv⟩ := p
    simp only [List.map_cons, List.mem_cons] at h
    push_neg at h
    have hne : ¬ pk = k := fun hk => h.1 hk.symm
    simp only [alGet, if_neg hne]
    exact ih h.2

theorem conflict_countP (key : String) :
    ∀ groups : List (String × List AssetContent), (groups.map Prod.fst).Nodup →
      List.countP (fun c => c.canonicalKey = key) (groups.flatMap conflictOfGroup)
      = match alGet groups key with
        | some v => if 1 < (v.map (fun a => a.hash)).dedup.length then 1 else 0
        | none => 0 := by
  intro groups
  induction groups with
  | nil => intro _; simp [alGet]
  | cons p rest ih =>
    obtain ⟨k, v⟩ := p
    intro hnd
    simp only [List.map_cons, List.nodup_cons] at hnd
    rw [List.flatMap_cons, List.countP_append]
    by_cases hk : k = key
    · subst hk
      have hrest : alGet rest k = none := alGet_eq_none rest k hnd.1
      have hrest0 : List.countP (fun c => c.canonicalKey = k) (rest.flatMap conflictOfGroup)
          = 0 := by
        rw [ih hnd.2, hrest]
      rw [hrest0]
      have hhead : List.countP (fun c => c.canonicalKey = k) (conflictOfGroup (k, v))
          = if 1 < (v.map (fun a => a.hash)).dedup.length then 1 else 0 := by
        unfold conflictOfGroup
        by_cases hm : 1 < (v.map (fun a => a.hash)).dedup.length
        · rw [if_pos hm, if_pos hm]
          cases v with
          | nil => simp at hm
          | cons v0 vs => simp [List.countP_cons]
        · rw [if_neg hm, if_neg hm]
          simp
      rw [hhead]
      have : alGet ((k, v) :: rest) k = some v := by simp [alGet]
      rw [this]
      simp
    · have hhead : List.countP (fun c => c.canonicalKey = key) (conflictOfGroup (k, v))
          = 0 := by
        unfold conflictOfGroup
        split
        · cases v with
          | nil => simp
          | cons v0 vs => simp [List.countP_cons, hk]
        · simp
      rw [hhead]
      have : alGet ((k, v) :: rest) key = alGet rest key := by simp [alGet, hk]
      rw [this, ih hnd.2]
      simp

theorem detectConflicts_mem (assets : List AssetContent) (c : AssetConflict)
    (hc : c ∈ detectConflicts assets) :
    ∃ v, (c.canonicalKey, v) ∈ conflictGroups assets ∧
      1 < (v.map (fun a => a.hash)).dedup.length ∧
      c.versions = sortByStable newestFirst v := by
  unfold detectConflicts at hc
  obtain ⟨⟨k, v⟩, hkv, hcg⟩ := List.mem_flatMap.mp hc
  unfold conflictOfGroup at hcg
  split at hcg
  next hm =>
    cases v with
    | nil => simp at hcg
    | cons v0 vs =>
      have heq : c = AssetConflict.mk k v0.type (sortByStable newestFirst (v0 :: vs)) := by
        simpa using hcg
      subst heq
      exact ⟨v0 :: vs, hkv, hm, rfl⟩
  · simp at hcg

theorem newestFirst_trans (a b c : AssetContent)
    (h1 : newestFirst a b = true) (h2 : newestFirst b c = true) :
    newestFirst a c = true := by
  simp only [newestFirst, decide_eq_true_eq] at h1 h2 ⊢
  omega

theorem newestFirst_total (a b : AssetContent) :
    newestFirst a b = true ∨ newestFirst b a = true := by
  simp only [newestFirst, decide_eq_true_eq]
  omega

/-- C6: grouping discovered assets by `(type, canonicalPath)`, every group
with more than one distinct fingerprint yields exactly one conflict whose
versions are exactly that group's assets sorted by modification time
descending (missing timestamps sorting as oldest), and a group with a single
distinct fingerprint yields none. -/
theorem c6_conflict_detection :
    ∀ (assets : List AssetContent) (key : String),
      List.countP (fun c => c.canonicalKey = key) (detectConflicts assets)
        = (if 1 < ((assets.filter fun a => conflictKeyOf a = key).map
            (fun a => a.hash)).dedup.length then 1 else 0) ∧
      (∀ c ∈ detectConflicts assets, c.canonicalKey = key →
        c.versions = sortByStable newestFirst (assets.filter fun a => conflictKeyOf a = key) ∧
        c.versions.Perm (assets.filter fun a => conflictKeyOf a = key) ∧
        List.Pairwise (fun x y => newestFirst x y = true) c.versions) := by
  intro assets key
  constructor
  · rw [show detectConflicts assets = (conflictGroups assets).flatMap conflictOfGroup from rfl]
    rw [conflict_countP key (conflictGroups assets) (conflictGroups_nodup assets)]
    rcases hg : alGet (conflictGroups assets) key with _ | v
    · have hf : assets.filter (fun a => conflictKeyOf a = key) = [] := by
        have hlook := conflictGroups_lookup assets key
        rw [hg] at hlook
        simpa using hlook.symm
      rw [hf]
      simp
    · have hv : v = assets.filter fun a => conflictKeyOf a = key := by
        have hlook := conflictGroups_lookup assets key
        rw [hg] at hlook
        simpa using hlook
      rw [← hv]
  · intro c hc hckey
    obtain ⟨v, hmem, hm, hver⟩ := detectConflicts_mem assets c hc
    have hnd := conflictGroups_nodup assets
    have hget := alGet_of_mem_nodup _ _ _ hmem hnd
    rw [hckey] at hget
    have hv : v = assets.filter fun a => conflictKeyOf a = key := by
      have hlook := conflictGroups_lookup assets key
      rw [hget] at hlook
      simpa using hlook
    rw [hv] at hver
    refine ⟨hver, ?_, ?_⟩
    · rw [hver]
      exact sortByStable_perm newestFirst _
    · rw [hver]
      exact sortByStable_pairwise newestFirst newestFirst_trans newestFirst_total _

/-- Conflicting fixture: the project copy, modified at time 100. -/
def wConfA : AssetContent :=
  { path := "/proj/AGENTS.md", name := "AGENTS", type := "agents",
    client := "project", relativePath := "AGENTS.md", content := "foo", hash := "h1",
    modifiedAt := some 100 }

/-- Conflicting fixture: the claude copy with different content and no
timestamp. -/
def wConfB : AssetContent :=
  { path := "/hc/CLAUDE.md", name := "CLAUDE", type := "agents",
    client := "claude", relativePath := "CLAUDE.md", canonicalPath := some "AGENTS.md",
    content := "bar", hash := "h2" }

/-- Witness for C6: the theorem applied to a concrete two-asset conflict. -/
theorem c6_conflict_detection_witness :
    List.countP (fun c => c.canonicalKey = "agents::AGENTS.md")
        (detectConflicts [wConfA, wConfB])
      = (if 1 < (([wConfA, wConfB].filter
          fun a => conflictKeyOf a = "agents::AGENTS.md").map
            (fun a => a.hash)).dedup.length then 1 else 0) ∧
    (∀ c ∈ detectConflicts [wConfA, wConfB], c.canonicalKey = "agents::AGENTS.md" →
      c.versions = sortByStable newestFirst
        ([wConfA, wConfB].filter fun a => conflictKeyOf a = "agents::AGENTS.md") ∧
      c.versions.Perm ([wConfA, wConfB].filter
        fun a => conflictKeyOf a = "agents::AGENTS.md") ∧
      List.Pairwise (fun x y => newestFirst x y = true) c.versions) :=
  c6_conflict_detection [wConfA, wConfB] "agents::AGENTS.md"

/-! ### JSON value model (mcp.ts config codec)

Parsed configs are modelled by `JValue`, the JavaScript value shape produced
by `JSON.parse` and by the hand-written TOML/YAML parsers.  JavaScript
numbers are modelled by their decimal literals (`num lit`), preserved through
parse and print; double rounding and the exponent re-notation JavaScript
applies to extreme magnitudes are not modelled.  Objects are insertion-ordered
field lists; duplicate keys in a JSON text follow JavaScript assignment
semantics (`alSet`). -/

inductive JValue where
  | null
  | bool (b : Bool)
  | num (lit : String)
  | str (s : String)
  | arr (elems : List JValue)
  | obj (fields : List (String × JValue))
deriving Repr

mutual

/-- Structural equality test for `JValue`. -/
def JValue.beq : JValue → JValue → Bool
  | JValue.null, JValue.null => true
  | JValue.bool a, JValue.bool b => a == b
  | JValue.num a, JValue.num b => a == b
  | JValue.str a, JValue.str b => a == b
  | JValue.arr a, JValue.arr b => JValue.beqList a b
  | JValue.obj a, JValue.obj b => JValue.beqFields a b
  | _, _ => false

/-- Structural equality test for `JValue` lists. -/
def JValue.beqList : List JValue → List JValue → Bool
  | [], [] => true
  | x :: xs, y :: ys => JValue.beq x y && JValue.beqList xs ys
  | _, _ => false

/-- Structural equality test for `JValue` field lists. -/
def JValue.beqFields : List (String × JValue) → List (String × JValue) → Bool
  | [], [] => true
  | (k1, v1) :: xs, (k2, v2) :: ys =>
    k1 == k2 && JValue.beq v1 v2 && JValue.beqFields xs ys
  | _, _ => false

end

mutual

theorem JValue.beq_eq : ∀ a b : JValue, JValue.beq a b = true → a = b
  | JValue.null, JValue.null, _ => rfl
  | JValue.bool a, JValue.bool b, h => by
    simp only [JValue.beq, beq_iff_eq] at h
    rw [h]
  | JValue.num a, JValue.num b, h => by
    simp only [JValue.beq, beq_iff_eq] at h
    rw [h]
  | JValue.str a, JValue.str b, h => by
    simp only [JValue.beq, beq_iff_eq] at h
    rw [h]
  | JValue.arr a, JValue.arr b, h => by
    rw [JValue.beqList_eq a b (by simpa [JValue.beq] using h)]
  | JValue.obj a, JValue.obj b, h => by
    rw [JValue.beqFields_eq a b (by simpa [JValue.beq] using h)]

theorem JValue.beqList_eq : ∀ a b : List JValue, JValue.beqList a b = true → a = b
  | [], [], _ => rfl
  | x :: xs, y :: ys, h => by
    simp only [JValue.beqList, Bool.and_eq_true] at h
    rw [JValue.beq_eq x y h.1, JValue.beqList_eq xs ys h.2]

theorem JValue.beqFields_eq :
    ∀ a b : List (String × JValue), JValue.beqFields a b = true → a = b
  | [], [], _ => rfl
  | (k1, v1) :: xs, (k2, v2) :: ys, h => by
    simp only [JValue.beqFields, Bool.and_eq_true, beq_iff_eq] at h
    rw [h.1.1, JValue.beq_eq v1 v2 h.1.2, JValue.beqFields_eq xs ys h.2]

end

mutual

theorem JValue.beq_refl : ∀ a : JValue, JValue.beq a a = true
  | JValue.null => rfl
  | JValue.bool a => by simp [JValue.beq]
  | JValue.num a => by simp [JValue.beq]
  | JValue.str a => by simp [JValue.beq]
  | JValue.arr a => by simp [JValue.beq, JValue.beqList_refl a]
  | JValue.obj a => by simp [JValue.beq, JValue.beqFields_refl a]

theorem JValue.beqList_refl : ∀ a : List JValue, JValue.beqList a a = true
  | [] => rfl
  | x :: xs => by simp [JValue.beqList, JValue.beq_refl x, JValue.beqList_refl xs]

theorem JValue.beqFields_refl : ∀ a : List (String × JValue), JValue.beqFields a a = true
  | [] => rfl
  | (k, v) :: xs => by
    simp [JValue.beqFields, JValue.beq_refl v, JValue.beqFields_refl xs]

end

instance : DecidableEq JValue := fun a b =>
  decidable_of_iff (JValue.beq a b = true)
    ⟨JValue.beq_eq a b, fun h => h ▸ JValue.beq_refl a⟩

/-- Lower-case hexadecimal digit. -/
def hexDigit (n : Nat) : Char :=
  if n < 10 then Char.ofNat (48 + n) else Char.ofNat (97 + n - 10)

/-- JSON.stringify escaping of one string character. -/
def escChar (c : Char) : List Char :=
  if c = '"' then ['\\', '"']
  else if c = '\\' then ['\\', '\\']
  else if c = '\n' then ['\\', 'n']
  else if c = '\r' then ['\\', 'r']
  else if c = '\t' then ['\\', 't']
  else if c = Char.ofNat 8 then ['\\', 'b']
  else if c = Char.ofNat 12 then ['\\', 'f']
  else if c.toNat < 32 then
    ['\\', 'u', '0', '0', hexDigit (c.toNat / 16), hexDigit (c.toNat % 16)]
  else [c]

/-- JSON string quoting (JSON.stringify on a string). -/
def quoteString (s : String) : String :=
  "\"" ++ String.mk (s.data.flatMap escChar) ++ "\""

/-- Indentation prefix for pretty JSON at nesting `level` (two spaces per
level, the `indent = 2` default of `serializeMcpConfig`). -/
def indentSp (level : Nat) : String :=
  String.mk (List.replicate (2 * level) ' ')

mutual

/-- JSON.stringify(value, null, 2) at nesting `level`. -/
def jStringify (level : Nat) : JValue → String
  | JValue.null => "null"
  | JValue.bool b => if b then "true" else "false"
  | JValue.num lit => lit
  | JValue.str s => quoteString s
  | JValue.arr es =>
    match es with
    | [] => "[]"
    | _ :: _ =>
      "[\n" ++ joinWith ",\n" (jStringifyItems (level + 1) es) ++ "\n" ++ indentSp level ++ "]"
  | JValue.obj fs =>
    match fs with
    | [] => "\x7b\x7d"
    | _ :: _ =>
      "\x7b\n" ++ joinWith ",\n" (jStringifyFields (level + 1) fs) ++ "\n" ++ indentSp level ++ "\x7d"

/-- Pretty-printed array items, each on its own indented line. -/
def jStringifyItems (level : Nat) : List JValue → List String
  | [] => []
  | v :: vs => (indentSp level ++ jStringify level v) :: jStringifyItems level vs

/-- Pretty-printed object fields, each on its own indented line. -/
def jStringifyFields (level : Nat) : List (String × JValue) → List String
  | [] => []
  | (k, v) :: fs =>
    (indentSp level ++ quoteString k ++ ": " ++ jStringify level v) :: jStringifyFields level fs

end

mutual

/-- Compact JSON.stringify(value) (no indent argument), used by the TOML and
YAML value serializers for object-typed values. -/
def jStringifyC : JValue → String
  | JValue.null => "null"
  | JValue.bool b => if b then "true" else "false"
  | JValue.num lit => lit
  | JValue.str s => quoteString s
  | JValue.arr es => "[" ++ joinWith "," (jStringifyCItems es) ++ "]"
  | JValue.obj fs => "\x7b" ++ joinWith "," (jStringifyCFields fs) ++ "\x7d"

/-- Compact array items. -/
def jStringifyCItems : List JValue → List String
  | [] => []
  | v :: vs => jStringifyC v :: jStringifyCItems vs

/-- Compact object fields. -/
def jStringifyCFields : List (String × JValue) → List String
  | [] => []
  | (k, v) :: fs => (quoteString k ++ ":" ++ jStringifyC v) :: jStringifyCFields fs

end

/-! ### JSON parser (JSON.parse)

A fueled recursive-descent parser for the JSON grammar.  Number literals are
kept as their source text.  The only divergence from JavaScript: `\uXXXX`
escapes in the surrogate range are rejected (Lean strings hold Unicode scalar
values only); the pretty printer never produces such escapes. -/

/-- JSON whitespace skipping. -/
def skipWsChars (l : List Char) : List Char :=
  l.dropWhile isJsWhitespace

/-- Hexadecimal digit value. -/
def hexVal (c : Char) : Option Nat :=
  if '0' ≤ c ∧ c ≤ '9' then some (c.toNat - 48)
  else if 'a' ≤ c ∧ c ≤ 'f' then some (c.toNat - 97 + 10)
  else if 'A' ≤ c ∧ c ≤ 'F' then some (c.toNat - 65 + 10)
  else none

/-- Translation of a single-character JSON escape. -/
def escValue (e : Char) : Option Char :=
  if e = '"' then some '"'
  else if e = '\\' then some '\\'
  else if e = '/' then some '/'
  else if e = 'b' then some (Char.ofNat 8)
  else if e = 'f' then some (Char.ofNat 12)
  else if e = 'n' then some '\n'
  else if e = 'r' then some '\r'
  else if e = 't' then some '\t'
  else none

/-- Parse the remainder of a JSON string (opening quote already consumed),
returning the decoded characters and the rest of the input. -/
def parseJStringChars : List Char → Option (List Char × List Char)
  | [] => none
  | c :: rest =>
    if c = '"' then some ([], rest)
    else if c = '\\' then
      match rest with
      | [] => none
      | e :: rest2 =>
        if e = 'u' then
          match rest2 with
          | h1 :: h2 :: h3 :: h4 :: rest3 =>
            match hexVal h1, hexVal h2, hexVal h3, hexVal h4 with
            | some a, some b, some c', some d =>
              let code := ((a * 16 + b) * 16 + c') * 16 + d
              if 55296 ≤ code ∧ code ≤ 57343 then none
              else
                (parseJStringChars rest3).map fun p => (Char.ofNat code :: p.1, p.2)
            | _, _, _, _ => none
          | _ => none
        else
          match escValue e with
          | some ch => (parseJStringChars rest2).map fun p => (ch :: p.1, p.2)
          | none => none
    else if c.toNat < 32 then none
    else (parseJStringChars rest).map fun p => (c :: p.1, p.2)

/-- Digit test. -/
def isDigitCh (c : Char) : Bool :=
  '0' ≤ c ∧ c ≤ '9'

/-- Integer part of a JSON number: `0`, or a nonzero digit followed by
digits. -/
def parseIntPart : List Char → Option (List Char × List Char)
  | [] => none
  | c :: r =>
    if c = '0' then some (['0'], r)
    else if isDigitCh c then
      let p := r.span isDigitCh
      some (c :: p.1, p.2)
    else none

/-- Optional fraction part (`.` followed by one or more digits). -/
def parseFracPart : List Char → Option (List Char × List Char)
  | [] => some ([], [])
  | c :: r =>
    if c = '.' then
      match r.span isDigitCh with
      | ([], _) => none
      | (ds, r') => some ('.' :: ds, r')
    else some ([], c :: r)

/-- Optional exponent part (`e`/`E`, optional sign, one or more digits). -/
def parseExpPart : List Char → Option (List Char × List Char)
  | [] => some ([], [])
  | c :: r =>
    if c = 'e' ∨ c = 'E' then
      let sp :=
        match r with
        | s :: r' => if s = '+' ∨ s = '-' then ([s], r') else (([] : List Char), r)
        | [] => ([], [])
      match sp.2.span isDigitCh with
      | ([], _) => none
      | (ds, r') => some (c :: (sp.1 ++ ds), r')
    else some ([], c :: r)

/-- Parse a JSON number literal, returning its source text and the rest. -/
def parseJNumber (l : List Char) : Option (List Char × List Char) :=
  let sp :=
    match l with
    | c :: r => if c = '-' then (([c] : List Char), r) else (([] : List Char), l)
    | [] => (([] : List Char), l)
  match parseIntPart sp.2 with
  | none => none
  | some (ip, l2) =>
    match parseFracPart l2 with
    | none => none
    | some (fp, l3) =>
      match parseExpPart l3 with
      | none => none
      | some (ep, l4) => some (sp.1 ++ ip ++ fp ++ ep, l4)

mutual

/-- Fueled JSON value parser. -/
def parseJValue : Nat → List Char → Option (JValue × List Char)
  | 0, _ => none
  | Nat.succ fuel, l0 =>
    match skipWsChars l0 with
    | [] => none
    | c :: rest =>
      if c = '{' then
        match skipWsChars rest with
        | '}' :: r2 => some (JValue.obj [], r2)
        | l2 => parseJObjectBody fuel l2 []
      else if c = '[' then
        match skipWsChars rest with
        | ']' :: r2 => some (JValue.arr [], r2)
        | l2 => parseJArrayBody fuel l2 []
      else if c = '"' then
        (parseJStringChars rest).map fun p => (JValue.str (String.mk p.1), p.2)
      else if c = 't' then
        match rest with
        | 'r' :: 'u' :: 'e' :: r => some (JValue.bool true, r)
        | _ => none
      else if c = 'f' then
        match rest with
        | 'a' :: 'l' :: 's' :: 'e' :: r => some (JValue.bool false, r)
        | _ => none
      else if c = 'n' then
        match rest with
        | 'u' :: 'l' :: 'l' :: r => some (JValue.null, r)
        | _ => none
      else
        (parseJNumber (c :: rest)).map fun p => (JValue.num (String.mk p.1), p.2)

/-- Fueled parser for the members of a nonempty JSON array. -/
def parseJArrayBody : Nat → List Char → List JValue → Option (JValue × List Char)
  | 0, _, _ => none
  | Nat.succ fuel, l, acc =>
    match parseJValue fuel l with
    | none => none
    | some (v, r) =>
      match skipWsChars r with
      | ',' :: r2 => parseJArrayBody fuel r2 (acc ++ [v])
      | ']' :: r2 => some (JValue.arr (acc ++ [v]), r2)
      | _ => none

/-- Fueled parser for the members of a nonempty JSON object (duplicate keys
follow JavaScript assignment semantics via `alSet`). -/
def parseJObjectBody : Nat → List Char → List (String × JValue) →
    Option (JValue × List Char)
  | 0, _, _ => none
  | Nat.succ fuel, l, acc =>
    match l with
    | '"' :: r =>
      match parseJStringChars r with
      | none => none
      | some (kcs, r1) =>
        match skipWsChars r1 with
        | ':' :: r2 =>
          match parseJValue fuel r2 with
          | none => none
          | some (v, r3) =>
            match skipWsChars r3 with
            | ',' :: r4 => parseJObjectBody fuel (skipWsChars r4) (alSet acc (String.mk kcs) v)
            | '}' :: r4 => some (JValue.obj (alSet acc (String.mk kcs) v), r4)
            | _ => none
        | _ => none
    | _ => none

end

/-- JavaScript `JSON.parse`: parse one value and require only whitespace to
remain. -/
def jsonParse (text : String) : Option JValue :=
  match parseJValue (2 * text.data.length + 2) text.data with
  | some (v, rest) => if skipWsChars rest = [] then some v else none
  | none => none

/-! ### Comment stripping (parseJsonWithComments)

The source strips `//` line comments (each match runs to end of line) and
then lazily-matched `/* ... */` block comments, textually and without any
string-literal awareness — which is exactly the behaviour under scrutiny in
the round-trip claim. -/

mutual

/-- One pass removing `//` line comments (`/\/\/.*$/gm`), outside a
comment. -/
def stripLineOut : List Char → List Char
  | [] => []
  | '/' :: '/' :: rest2 => stripLineIn rest2
  | c :: rest => c :: stripLineOut rest

/-- Line-comment stripping while inside a comment (runs to end of line). -/
def stripLineIn : List Char → List Char
  | [] => []
  | '\n' :: rest => '\n' :: stripLineOut rest
  | _ :: rest => stripLineIn rest

end

/-- Whether `*/` occurs ahead (the lazy block-comment regex only matches
closed comments). -/
def hasBlockEnd : List Char → Bool
  | [] => false
  | '*' :: '/' :: _ => true
  | _ :: rest => hasBlockEnd rest

mutual

/-- One pass removing closed `/* ... */` block comments
(`/\/\*[\s\S]*?\*\//g`), outside a comment.  An unclosed `/*` is not a match:
its two characters are emitted and scanning resumes after them (a later `/*`
could not close either, as `hasBlockEnd` is monotone along suffixes). -/
def stripBlockOut : List Char → List Char
  | [] => []
  | '/' :: '*' :: rest2 =>
    if hasBlockEnd rest2 then stripBlockIn rest2
    else '/' :: '*' :: stripBlockOut rest2
  | c :: rest => c :: stripBlockOut rest

/-- Block-comment stripping while inside a comment (runs to the first
`*/`). -/
def stripBlockIn : List Char → List Char
  | [] => []
  | '*' :: '/' :: rest2 => stripBlockOut rest2
  | _ :: rest => stripBlockIn rest

end

/-- The comment stripping performed by `parseJsonWithComments`: line comments
first, then block comments. -/
def stripJsonComments (s : String) : String :=
  String.mk (stripBlockOut (stripLineOut s.data))

/-- Source `parseJsonWithComments` (mcp.ts): strip comments textually, then
`JSON.parse`; a parse error becomes `none`. -/
def parseJsonWithComments (content : String) : Option JValue :=
  jsonParse (stripJsonComments content)

/-! ### JavaScript value helpers for the config codec -/

/-- Split a string on a character (JavaScript `s.split(c)`). -/
def splitStr (c : Char) (s : String) : List String :=
  (splitOnChar c s.data).map fun l => String.mk l

/-- Property access `v[k]` for a string key (objects only; every other value
has no such property). -/
def jGet (v : JValue) (k : String) : Option JValue :=
  match v with
  | JValue.obj fs => alGet fs k
  | _ => none

/-- Property assignment `o[k] = x` on an object value. -/
def setJField (o : JValue) (k : String) (x : JValue) : JValue :=
  match o with
  | JValue.obj fs => JValue.obj (alSet fs k x)
  | other => other

/-- JavaScript `Object.entries(v)`: fields of an object, index entries of an
array or string, nothing for primitives. -/
def jEntries : JValue → List (String × JValue)
  | JValue.obj fs => fs
  | JValue.arr es => ((List.range es.length).zip es).map fun p => (toString p.1, p.2)
  | JValue.str s =>
    ((List.range s.data.length).zip s.data).map fun p => (toString p.1, JValue.str (String.mk [p.2]))
  | _ => []

/-- Whether a number literal denotes zero (mantissa all zero digits). -/
def numIsZero (lit : String) : Bool :=
  let l := match lit.data with
    | '-' :: r => r
    | l => l
  let m := l.takeWhile fun c => c ≠ 'e' ∧ c ≠ 'E'
  m.all fun c => c = '0' ∨ c = '.'

/-- JavaScript truthiness of a value. -/
def jTruthy : JValue → Bool
  | JValue.null => false
  | JValue.bool b => b
  | JValue.num lit => ¬ numIsZero lit
  | JValue.str s => s ≠ ""
  | JValue.arr _ => true
  | JValue.obj _ => true

mutual

/-- JavaScript `String(v)` coercion. -/
def jToString : JValue → String
  | JValue.null => "null"
  | JValue.bool b => if b then "true" else "false"
  | JValue.num lit => lit
  | JValue.str s => s
  | JValue.arr es => joinWith "," (jToStringItems es)
  | JValue.obj _ => "[object Object]"

/-- Array-join coercion of elements (`null` joins as the empty string). -/
def jToStringItems : List JValue → List String
  | [] => []
  | JValue.null :: es => "" :: jToStringItems es
  | e :: es => jToString e :: jToStringItems es

end

/-! ### TOML codec (parseToml / serializeToml) -/

/-- Word-character test (`\w`). -/
def isWordCh (c : Char) : Bool :=
  ('a' ≤ c ∧ c ≤ 'z') ∨ ('A' ≤ c ∧ c ≤ 'Z') ∨ ('0' ≤ c ∧ c ≤ '9') ∨ c = '_'

/-- JavaScript `s.slice(1, -1)`. -/
def sliceDrop (s : String) : String :=
  String.mk ((s.data.drop 1).dropLast)

/-- The `/^-?\d+(\.\d+)?$/` decimal-literal test shared by the TOML and YAML
value grammars. -/
def decimalLit (s : String) : Bool :=
  let l := match s.data with
    | '-' :: r => r
    | l => l
  match l.span isDigitCh with
  | ([], _) => false
  | (_, []) => true
  | (_, '.' :: r2) => decide (r2 ≠ []) && r2.all isDigitCh
  | (_, _) => false

/-- Source `parseTomlValue` (fueled: the fuel strictly exceeds the nesting
depth whenever it is at least the text length, so the fallback is
unreachable on real inputs). -/
def parseTomlValue : Nat → String → JValue
  | fuel, value0 =>
    let value := strTrim value0
    if strStartsWith value "\"" ∧ strEndsWith value "\"" then
      JValue.str (sliceDrop value)
    else if strStartsWith value "[" ∧ strEndsWith value "]" then
      match fuel with
      | 0 => JValue.str value
      | Nat.succ fuel' =>
        JValue.arr ((splitStr ',' (sliceDrop value)).map (parseTomlValue fuel'))
    else if value = "true" then JValue.bool true
    else if value = "false" then JValue.bool false
    else if decimalLit value then JValue.num value
    else JValue.str value

/-- The `/^\[mcpServers\.(.+)\]$/` section-header match. -/
def tomlSectionName (s : String) : Option String :=
  let l := s.data
  if ("[mcpServers.".data).isPrefixOf l ∧ l.getLast? = some ']' ∧ 14 ≤ l.length then
    some (String.mk ((l.drop 12).dropLast))
  else none

/-- The `/^(\w+)\s*=\s*(.+)$/` key-value match. -/
def tomlKv (s : String) : Option (String × String) :=
  let p := s.data.span isWordCh
  if p.1 = [] then none
  else
    match p.2.dropWhile isJsWhitespace with
    | '=' :: r3 =>
      let r4 := r3.dropWhile isJsWhitespace
      if r4 = [] then none else some (String.mk p.1, String.mk r4)
    | _ => none

/-- The per-line body of source `parseToml`. -/
def tomlLineStep (st : List (String × List (String × JValue)) × Option String)
    (line0 : String) : List (String × List (String × JValue)) × Option String :=
  let line := strTrim line0
  if line = "" ∨ strStartsWith line "#" then st
  else
    match tomlSectionName line with
    | some name => (alSet st.1 name [], some name)
    | none =>
      match tomlKv line, st.2 with
      | some (k, v), some cur =>
        (alSet st.1 cur (alSet ((alGet st.1 cur).getD []) k (parseTomlValue v.length v)),
         st.2)
      | _, _ => st

/-- Source `parseToml` (mcp.ts): line-based recognition of
`[mcpServers.name]` sections and `key = value` pairs; anything else is
skipped. -/
def parseToml (content : String) : JValue :=
  let final := (splitStr '\n' content).foldl tomlLineStep ([], none)
  JValue.obj [("mcpServers", JValue.obj (final.1.map fun p => (p.1, JValue.obj p.2)))]

mutual

/-- Source `serializeTomlValue`. -/
def serializeTomlValue : JValue → String
  | JValue.str s => "\"" ++ s ++ "\""
  | JValue.arr es => "[" ++ joinWith ", " (serializeTomlValueList es) ++ "]"
  | JValue.obj fs => jStringifyC (JValue.obj fs)
  | JValue.null => "null"
  | JValue.num lit => lit
  | JValue.bool b => if b then "true" else "false"

/-- TOML serialization of the elements of an array value. -/
def serializeTomlValueList : List JValue → List String
  | [] => []
  | e :: es => serializeTomlValue e :: serializeTomlValueList es

end

/-- Source `serializeToml` (the `indent` parameter is accepted and unused,
as in the source). -/
def serializeToml (config : JValue) (indent : Nat) : String :=
  let _ := indent
  let body :=
    match jGet config "mcpServers" with
    | some m =>
      if jTruthy m then
        joinWith ""
          ((jEntries m).map fun p =>
            "[mcpServers." ++ p.1 ++ "]\n" ++
            joinWith "" ((jEntries p.2).map fun q =>
              q.1 ++ " = " ++ serializeTomlValue q.2 ++ "\n") ++ "\n")
      else ""
    | none => ""
  strTrim body

/-! ### YAML codec (parseYaml / serializeYaml) -/

/-- Strip one leading and one trailing quote character
(`.replace(/^["']|["']$/g, "")`). -/
def stripEdgeQuotes (s : String) : String :=
  let l1 := match s.data with
    | c :: r => if c = '"' ∨ c = '\'' then r else c :: r
    | [] => []
  let l2 := match l1.getLast? with
    | some c => if c = '"' ∨ c = '\'' then l1.dropLast else l1
    | none => l1
  String.mk l2

/-- The `/^(\w+):\s*(.*)$/` key-value match of the YAML parser. -/
def yamlKv (s : String) : Option (String × String) :=
  let p := s.data.span isWordCh
  if p.1 = [] then none
  else
    match p.2 with
    | ':' :: r3 => some (String.mk p.1, String.mk (r3.dropWhile isJsWhitespace))
    | _ => none

/-- Source `parseYamlValue`. -/
def parseYamlValue (value0 : String) : JValue :=
  let value := strTrim value0
  if value = "" then JValue.str ""
  else if strStartsWith value "[" ∧ strEndsWith value "]" then
    JValue.arr ((splitStr ',' (sliceDrop value)).map fun piece =>
      JValue.str (stripEdgeQuotes (strTrim piece)))
  else if (strStartsWith value "\"" ∧ strEndsWith value "\"") ∨
      (strStartsWith value "'" ∧ strEndsWith value "'") then
    JValue.str (sliceDrop value)
  else if value = "true" then JValue.bool true
  else if value = "false" then JValue.bool false
  else if decimalLit value then JValue.num value
  else JValue.str value

/-- The per-line body of source `parseYaml`. -/
def yamlLineStep
    (st : List (String × List (String × JValue)) × Option String × Nat)
    (line0 : String) : List (String × List (String × JValue)) × Option String × Nat :=
  if strTrim line0 = "" ∨ strStartsWith (strTrim line0) "#" then st
  else
    let leadingSpaces := line0.data.length - (line0.data.dropWhile isJsWhitespace).length
    let line := strTrim line0
    if line = "mcpServers:" then (st.1, st.2.1, leadingSpaces)
    else if leadingSpaces = st.2.2 + 2 ∧ strEndsWith line ":" then
      let name := String.mk line.data.dropLast
      (alSet st.1 name [], some name, st.2.2)
    else
      match yamlKv line, st.2.1 with
      | some (k, v), some cur =>
        (alSet st.1 cur (alSet ((alGet st.1 cur).getD []) k (parseYamlValue v)),
         st.2.1, st.2.2)
      | _, _ => st

/-- Source `parseYaml` (mcp.ts): recognizes a `mcpServers:` line, server
names two spaces deeper, and `key: value` scalar properties beneath. -/
def parseYaml (content : String) : JValue :=
  let final := (splitStr '\n' content).foldl yamlLineStep ([], none, 0)
  JValue.obj [("mcpServers", JValue.obj (final.1.map fun p => (p.1, JValue.obj p.2)))]

/-- Source `serializeYamlValue`. -/
def serializeYamlValue : JValue → String
  | JValue.str s => "\"" ++ s ++ "\""
  | JValue.arr es => "[" ++ joinWith ", " (es.map fun e => "\"" ++ jToString e ++ "\"") ++ "]"
  | JValue.obj fs => jStringifyC (JValue.obj fs)
  | JValue.null => "null"
  | JValue.num lit => lit
  | JValue.bool b => if b then "true" else "false"

/-- Source `serializeYaml`. -/
def serializeYaml (config : JValue) (indent : Nat) : String :=
  let _ := indent
  "mcpServers:\n" ++
    (match jGet config "mcpServers" with
     | some m =>
       if jTruthy m then
         joinWith ""
           ((jEntries m).map fun p =>
             "  " ++ p.1 ++ ":\n" ++
             joinWith "" ((jEntries p.2).map fun q =>
               "    " ++ q.1 ++ ": " ++ serializeYamlValue q.2 ++ "\n"))
       else ""
     | none => "")

/-! ### Format detection, parse and serialize dispatch, merging (mcp.ts) -/

/-- Source `McpFormat`. -/
inductive McpFormat where
  | json
  | jsonc
  | toml
  | yaml
  | unknown
deriving DecidableEq, Repr

/-- Source `detectMcpFormat`. -/
def detectMcpFormat (filePath : String) : McpFormat :=
  let lower := strToLower filePath
  if strEndsWith lower ".json" then McpFormat.json
  else if strEndsWith lower ".jsonc" then McpFormat.jsonc
  else if strEndsWith lower ".toml" then McpFormat.toml
  else if strEndsWith lower ".yaml" ∨ strEndsWith lower ".yml" then McpFormat.yaml
  else McpFormat.unknown

/-- Source `parseMcpConfig`: empty content parses to an empty server map; a
JSON parse error or an unknown format yields `none` (the thrown/`null`
result). -/
def parseMcpConfig (content : String) (format : McpFormat) : Option JValue :=
  if strTrim content = "" then some (JValue.obj [("mcpServers", JValue.obj [])])
  else
    match format with
    | McpFormat.json => parseJsonWithComments content
    | McpFormat.jsonc => parseJsonWithComments content
    | McpFormat.toml => some (parseToml content)
    | McpFormat.yaml => some (parseYaml content)
    | McpFormat.unknown => none

/-- Source `serializeMcpConfig` (with the default `indent = 2`). -/
def serializeMcpConfig (config : JValue) (format : McpFormat) : String :=
  match format with
  | McpFormat.json => jStringify 0 config
  | McpFormat.jsonc => jStringify 0 config
  | McpFormat.toml => serializeToml config 2
  | McpFormat.yaml => serializeYaml config 2
  | McpFormat.unknown => jStringify 0 config

/-- The body of the `for (const config of configs)` loop of
`mergeMcpConfigs`: spread the config's servers over the accumulated ones,
then assign every other top-level key. -/
def mergeConfigStep (merged config : JValue) : JValue :=
  let merged1 :=
    match jGet config "mcpServers" with
    | some m =>
      if jTruthy m then
        setJField merged "mcpServers"
          (JValue.obj
            ((jEntries m).foldl (fun fs p => alSet fs p.1 p.2)
              (jEntries ((jGet merged "mcpServers").getD (JValue.obj [])))))
      else merged
    | none => merged
  (jEntries config).foldl
    (fun acc p => if p.1 = "mcpServers" then acc else setJField acc p.1 p.2)
    merged1

/-- Source `mergeMcpConfigs`: later configs override earlier ones, server
mappings by whole-server spread, other top-level keys by assignment. -/
def mergeMcpConfigs (configs : List JValue) : JValue :=
  configs.foldl mergeConfigStep (JValue.obj [("mcpServers", JValue.obj [])])

/-- The body of the parse-and-keep loop of `mergeMcpAssets`: a truthy parse
is appended to the kept configs, and the detected format of the first kept
asset is remembered as the target format. -/
def mcpParseStep (st : List JValue × McpFormat) (asset : AssetContent) :
    List JValue × McpFormat :=
  let format := detectMcpFormat asset.path
  match parseMcpConfig asset.content format with
  | some parsed =>
    if jTruthy parsed then
      ((st.1 ++ [parsed]), if st.1.length = 0 then format else st.2)
    else st
  | none => st

/-- The parse-and-keep loop of `mergeMcpAssets` over all assets. -/
def mcpParseFold (assets : List AssetContent) : List JValue × McpFormat :=
  assets.foldl mcpParseStep ([], McpFormat.json)

/-- Source `mergeMcpAssets`: parse every asset in its detected format, keep
the truthy results, remember the detected format of the first kept one,
merge, and serialize; when nothing was kept, fall back to joining the raw
texts with a visible `---` delimiter. -/
def mergeMcpAssets (assets : List AssetContent) : Option String :=
  match assets with
  | [] => none
  | [a] => some a.content
  | _ =>
    let st := mcpParseFold assets
    if st.1 = [] then
      some (joinWith "\n\n---\n\n" (assets.map fun a => a.content))
    else
      some (serializeMcpConfig (mergeMcpConfigs st.1) st.2)

/-! ### Merge lemmas (mergeMcpConfigs) -/

/-- The whole-server entries a config contributes to the merge: the entries
of its `mcpServers` field when that field is present and truthy. -/
def serverEntriesOf (config : JValue) : List (String × JValue) :=
  match jGet config "mcpServers" with
  | some m => if jTruthy m then jEntries m else []
  | none => []

/-- The merged accumulator's `mcpServers` association list (defined exactly
when the accumulator is an object whose `mcpServers` field is an object). -/
def mcpServersOf (v : JValue) : Option (List (String × JValue)) :=
  match jGet v "mcpServers" with
  | some (JValue.obj ms) => some ms
  | _ => none

theorem alGet_foldl_alSet {β : Type} (name : String) :
    ∀ entries : List (String × β), (entries.map Prod.fst).Nodup →
      ∀ ms : List (String × β),
        alGet (entries.foldl (fun fs p => alSet fs p.1 p.2) ms) name
          = (alGet entries name).or (alGet ms name) := by
  intro entries
  induction entries with
  | nil => intro _ ms; simp [alGet]
  | cons p rest ih =>
    obtain ⟨k, v⟩ := p
    intro hnd ms
    simp only [List.map_cons, List.nodup_cons] at hnd
    simp only [List.foldl_cons]
    rw [ih hnd.2 (alSet ms k v)]
    by_cases h : k = name
    · subst h
      have hrest : alGet rest k = none := alGet_eq_none rest k hnd.1
      simp [alGet, hrest, alGet_alSet]
    · have hcons : alGet ((k, v) :: rest) name = alGet rest name := by
        simp [alGet, h]
      rw [hcons, alGet_alSet, if_neg h]

theorem mcpServersOf_topAssign :
    ∀ (entries : List (String × JValue)) (acc : JValue)
      (ms : List (String × JValue)), mcpServersOf acc = some ms →
      mcpServersOf (entries.foldl
        (fun a p => if p.1 = "mcpServers" then a else setJField a p.1 p.2) acc)
        = some ms := by
  intro entries
  induction entries with
  | nil => intro acc ms h; exact h
  | cons p rest ih =>
    intro acc ms h
    simp only [List.foldl_cons]
    apply ih
    by_cases hk : p.1 = "mcpServers"
    · simpa [hk] using h
    · cases acc with
      | obj fs =>
        simp only [mcpServersOf, jGet] at h
        simp only [if_neg hk, setJField, mcpServersOf, jGet]
        rw [alGet_alSet, if_neg hk]
        exact h
      | null => simp [mcpServersOf, jGet] at h
      | bool b => simp [mcpServersOf, jGet] at h
      | num lit => simp [mcpServersOf, jGet] at h
      | str s => simp [mcpServersOf, jGet] at h
      | arr es => simp [mcpServersOf, jGet] at h

theorem mergeConfigStep_servers (config acc : JValue)
    (ms : List (String × JValue)) (h : mcpServersOf acc = some ms) :
    mcpServersOf (mergeConfigStep acc config)
      = some ((serverEntriesOf config).foldl (fun fs p => alSet fs p.1 p.2) ms) := by
  have hstep : mergeConfigStep acc config
      = (jEntries config).foldl
          (fun a p => if p.1 = "mcpServers" then a else setJField a p.1 p.2)
          (match jGet config "mcpServers" with
           | some m =>
             if jTruthy m then
               setJField acc "mcpServers"
                 (JValue.obj
                   ((jEntries m).foldl (fun fs p => alSet fs p.1 p.2)
                     (jEntries ((jGet acc "mcpServers").getD (JValue.obj [])))))
             else acc
           | none => acc) := rfl
  rw [hstep]
  rcases hm : jGet config "mcpServers" with _ | m
  · have hse : serverEntriesOf config = [] := by simp [serverEntriesOf, hm]
    rw [hse]
    exact mcpServersOf_topAssign (jEntries config) acc ms h
  · by_cases ht : jTruthy m
    · have hse : serverEntriesOf config = jEntries m := by
        simp [serverEntriesOf, hm, ht]
      rw [hse]
      cases acc with
      | obj fs =>
        simp only [mcpServersOf, jGet] at h
        rcases hms : alGet fs "mcpServers" with _ | mv
        · rw [hms] at h; exact absurd h (by simp)
        · rw [hms] at h
          cases mv with
          | obj ms0 =>
            have hms0 : ms0 = ms := by
              by_contra hne
              simp [hne] at h
            subst hms0
            apply mcpServersOf_topAssign
            simp only [ht, if_pos, jGet, hms, setJField, Option.getD, jEntries,
              mcpServersOf]
            rw [alGet_alSet]
            simp
          | null => simp at h
          | bool b => simp at h
          | num lit => simp at h
          | str s => simp at h
          | arr es => simp at h
      | null => simp [mcpServersOf, jGet] at h
      | bool b => simp [mcpServersOf, jGet] at h
      | num lit => simp [mcpServersOf, jGet] at h
      | str s => simp [mcpServersOf, jGet] at h
      | arr es => simp [mcpServersOf, jGet] at h
    · have hse : serverEntriesOf config = [] := by simp [serverEntriesOf, hm, ht]
      rw [hse]
      simp only [ht, if_neg, Bool.false_eq_true]
      exact mcpServersOf_topAssign (jEntries config) acc ms h

theorem mergeFold_servers (name : String) :
    ∀ configs : List JValue,
      (∀ c ∈ configs, ((serverEntriesOf c).map Prod.fst).Nodup) →
      ∀ (acc : JValue) (ms : List (String × JValue)), mcpServersOf acc = some ms →
        ∃ ms', mcpServersOf (configs.foldl mergeConfigStep acc) = some ms' ∧
          alGet ms' name
            = (configs.reverse.findSome? fun c => alGet (serverEntriesOf c) name).or
                (alGet ms name) := by
  intro configs
  induction configs with
  | nil => intro _ acc ms h; exact ⟨ms, h, by simp⟩
  | cons c rest ih =>
    intro hnd acc ms h
    simp only [List.foldl_cons]
    have hstep := mergeConfigStep_servers c acc ms h
    obtain ⟨ms', hms', hget⟩ := ih (fun x hx => hnd x (List.mem_cons_of_mem _ hx))
      (mergeConfigStep acc c) _ hstep
    refine ⟨ms', hms', ?_⟩
    rw [hget, alGet_foldl_alSet name (serverEntriesOf c)
      (hnd c (List.mem_cons_self c rest)) ms]
    rw [List.reverse_cons, List.findSome?_append]
    cases hrev : rest.reverse.findSome? fun x => alGet (serverEntriesOf x) name with
    | some v => simp [Option.or]
    | none =>
      simp only [Option.or, List.findSome?]
      cases alGet (serverEntriesOf c) name <;> rfl

/-- **C8**: merging parsed MCP configs is last-write-wins at whole-server
granularity: for every server name, the merged config's `mcpServers` entry
for that name is the entire server definition contributed by the last
config in the list that defines the name (and `none` when no config
defines it); in particular for `configs = pre ++ [last]`, whenever the
last config defines a name, the merged entry equals that definition,
regardless of the earlier configs. -/
theorem c8_merge_last_write_wins (configs : List JValue) (name : String)
    (hnd : ∀ c ∈ configs, ((serverEntriesOf c).map Prod.fst).Nodup) :
    (∃ ms, mcpServersOf (mergeMcpConfigs configs) = some ms ∧
      alGet ms name
        = configs.reverse.findSome? fun c => alGet (serverEntriesOf c) name) ∧
    ∀ (srv : JValue) (pre : List JValue) (last : JValue),
      configs = pre ++ [last] →
      alGet (serverEntriesOf last) name = some srv →
      ∃ ms, mcpServersOf (mergeMcpConfigs configs) = some ms ∧
        alGet ms name = some srv := by
  have hbase : mcpServersOf (JValue.obj [("mcpServers", JValue.obj [])])
      = some [] := by
    simp [mcpServersOf, jGet, alGet]
  obtain ⟨ms, hms, hget⟩ := mergeFold_servers name configs hnd _ [] hbase
  have hget' : alGet ms name
      = configs.reverse.findSome? fun c => alGet (serverEntriesOf c) name := by
    rw [hget]
    cases configs.reverse.findSome? fun c => alGet (serverEntriesOf c) name <;>
      simp [alGet, Option.or]
  refine ⟨⟨ms, hms, hget'⟩, ?_⟩
  intro srv pre last hsplit hlast
  refine ⟨ms, hms, ?_⟩
  rw [hget', hsplit, List.reverse_append, List.reverse_singleton,
    List.singleton_append, List.findSome?_cons, hlast]

/-- Witness for C8 at a concrete merge: the second config's definition of
server `b` fully replaces the first config's. -/
theorem c8_merge_last_write_wins_witness :
    ∃ ms,
      mcpServersOf (mergeMcpConfigs
        [JValue.obj [("mcpServers",
           JValue.obj [("a", JValue.str "1"), ("b", JValue.str "2")])],
         JValue.obj [("mcpServers", JValue.obj [("b", JValue.str "3")]),
           ("extra", JValue.num "1")]]) = some ms ∧
      alGet ms "b" = some (JValue.str "3") := by
  obtain ⟨ms, h1, h2⟩ :=
    (c8_merge_last_write_wins
      [JValue.obj [("mcpServers",
         JValue.obj [("a", JValue.str "1"), ("b", JValue.str "2")])],
       JValue.obj [("mcpServers", JValue.obj [("b", JValue.str "3")]),
         ("extra", JValue.num "1")]] "b" (by decide)).1
  refine ⟨ms, h1, ?_⟩
  rw [h2]
  rfl

/-! ### Characterization of the mergeMcpAssets parse-and-keep loop -/

/-- The parsed config an asset contributes to `mergeMcpAssets`: its parse in
its detected format when that parse succeeds and is JavaScript-truthy. -/
def mcpKeepParse (a : AssetContent) : Option JValue :=
  match parseMcpConfig a.content (detectMcpFormat a.path) with
  | some v => if jTruthy v then some v else none
  | none => none

theorem mcpParseFold_fst :
    ∀ (assets : List AssetContent) (acc : List JValue) (fmt : McpFormat),
      (assets.foldl mcpParseStep (acc, fmt)).1
        = acc ++ assets.filterMap mcpKeepParse := by
  intro assets
  induction assets with
  | nil => intro acc fmt; simp
  | cons a rest ih =>
    intro acc fmt
    simp only [List.foldl_cons, List.filterMap_cons]
    rcases hp : parseMcpConfig a.content (detectMcpFormat a.path) with _ | v
    · have hstep : mcpParseStep (acc, fmt) a = (acc, fmt) := by
        simp [mcpParseStep, hp]
      have hk : mcpKeepParse a = none := by simp [mcpKeepParse, hp]
      rw [hstep, hk, ih]
    · by_cases ht : jTruthy v
      · have hstep : mcpParseStep (acc, fmt) a
            = (acc ++ [v],
               if acc.length = 0 then detectMcpFormat a.path else fmt) := by
          simp [mcpParseStep, hp, ht]
        have hk : mcpKeepParse a = some v := by simp [mcpKeepParse, hp, ht]
        rw [hstep, hk, ih]
        simp
      · have hstep : mcpParseStep (acc, fmt) a = (acc, fmt) := by
          simp [mcpParseStep, hp, ht]
        have hk : mcpKeepParse a = none := by simp [mcpKeepParse, hp, ht]
        rw [hstep, hk, ih]

theorem mcpParseFold_snd_ne :
    ∀ (assets : List AssetContent) (acc : List JValue) (fmt : McpFormat),
      acc ≠ [] → (assets.foldl mcpParseStep (acc, fmt)).2 = fmt := by
  intro assets
  induction assets with
  | nil => intro acc fmt _; rfl
  | cons a rest ih =>
    intro acc fmt hne
    simp only [List.foldl_cons]
    rcases hp : parseMcpConfig a.content (detectMcpFormat a.path) with _ | v
    · have hstep : mcpParseStep (acc, fmt) a = (acc, fmt) := by
        simp [mcpParseStep, hp]
      rw [hstep]; exact ih acc fmt hne
    · by_cases ht : jTruthy v
      · have hlen : ¬ acc.length = 0 := by
          simpa [List.length_eq_zero] using hne
        have hstep : mcpParseStep (acc, fmt) a = (acc ++ [v], fmt) := by
          simp [mcpParseStep, hp, ht, hlen]
        rw [hstep]
        exact ih (acc ++ [v]) fmt (by simp)
      · have hstep : mcpParseStep (acc, fmt) a = (acc, fmt) := by
          simp [mcpParseStep, hp, ht]
        rw [hstep]; exact ih acc fmt hne

theorem mcpParseFold_snd :
    ∀ (assets : List AssetContent) (fmt : McpFormat),
      (assets.foldl mcpParseStep ([], fmt)).2
        = match assets.find? (fun a => (mcpKeepParse a).isSome) with
          | some a => detectMcpFormat a.path
          | none => fmt := by
  intro assets
  induction assets with
  | nil => intro fmt; rfl
  | cons a rest ih =>
    intro fmt
    simp only [List.foldl_cons]
    rcases hk : mcpKeepParse a with _ | v
    · have hfind : (a :: rest).find? (fun x => (mcpKeepParse x).isSome)
          = rest.find? fun x => (mcpKeepParse x).isSome := by
        rw [List.find?_cons_of_neg]
        simp [hk]
      rw [hfind]
      have hstep : mcpParseStep ([], fmt) a = ([], fmt) := by
        simp only [mcpKeepParse] at hk
        rcases hp : parseMcpConfig a.content (detectMcpFormat a.path) with _ | v
        · simp [mcpParseStep, hp]
        · rw [hp] at hk
          by_cases ht : jTruthy v
          · simp [ht] at hk
          · simp [mcpParseStep, hp, ht]
      rw [hstep, ih]
    · have hfind : (a :: rest).find? (fun x => (mcpKeepParse x).isSome) = some a := by
        rw [List.find?_cons_of_pos]
        simp [hk]
      rw [hfind]
      have hstep : mcpParseStep ([], fmt) a = ([v], detectMcpFormat a.path) := by
        simp only [mcpKeepParse] at hk
        rcases hp : parseMcpConfig a.content (detectMcpFormat a.path) with _ | w
        · simp [hp] at hk
        · rw [hp] at hk
          by_cases ht : jTruthy w
          · simp only [ht, if_pos] at hk
            cases hk
            simp [mcpParseStep, hp, ht]
          · simp [ht] at hk
      rw [hstep]
      exact mcpParseFold_snd_ne rest [v] (detectMcpFormat a.path) (by simp)

/-! ### C5 and C10: mergeMcpAssets output format and exclusion behavior -/

/-- Reduction of `mergeMcpAssets` on a list of at least two assets. -/
theorem mergeMcpAssets_ge2 (a b : AssetContent) (rest : List AssetContent) :
    mergeMcpAssets (a :: b :: rest)
      = if (mcpParseFold (a :: b :: rest)).1 = [] then
          some (joinWith "\n\n---\n\n" ((a :: b :: rest).map fun x => x.content))
        else
          some (serializeMcpConfig
            (mergeMcpConfigs (mcpParseFold (a :: b :: rest)).1)
            (mcpParseFold (a :: b :: rest)).2) := rfl

/-- Fixture: a JSON asset whose content is the single digit `0` — it parses
successfully (to the number 0) but the parse result is JavaScript-falsy. -/
def c10AssetZero : AssetContent :=
  { path := "/a/a.json", name := "a", type := "mcp", client := "claude",
    relativePath := "a.json", content := "0", hash := "hz" }

/-- Fixture: a JSON asset whose content `{` fails to parse. -/
def c10AssetBad : AssetContent :=
  { path := "/b/b.json", name := "b", type := "mcp", client := "cursor",
    relativePath := "b.json", content := "\x7b", hash := "hb" }

/-- Fixture: a JSON asset that parses to a truthy (object) config. -/
def c10AssetGood : AssetContent :=
  { path := "/g/g.json", name := "g", type := "mcp", client := "claude",
    relativePath := "g.json",
    content := "\x7b\"mcpServers\": \x7b\"s\": \x7b\"command\": \"x\"\x7d\x7d\x7d", hash := "hg" }

/-- **C10 (counterexample)**: two assets, the first of which parses
successfully (its content `0` parses to the number 0) and the second of
which fails to parse — exactly the claim's hypotheses — yet `mergeMcpAssets`
takes the `---` concatenation fallback, because the loop keeps only
JavaScript-truthy parse results, not all successful parses. -/
theorem c10_counterexample :
    2 ≤ ([c10AssetZero, c10AssetBad] : List AssetContent).length ∧
    (parseMcpConfig c10AssetZero.content
      (detectMcpFormat c10AssetZero.path)).isSome = true ∧
    parseMcpConfig c10AssetBad.content (detectMcpFormat c10AssetBad.path) = none ∧
    mergeMcpAssets [c10AssetZero, c10AssetBad]
      = some (joinWith "\n\n---\n\n"
          ([c10AssetZero, c10AssetBad].map fun x => x.content)) := by
  refine ⟨by decide, rfl, rfl, rfl⟩

/-- **C10 (amended)**: for two or more assets of which at least one parses
to a JavaScript-truthy config, every asset whose parse fails — and also
every asset whose parse is falsy — is silently excluded: no error is
surfaced, the `---` fallback is not taken, and the result is the
serialization of the merge of exactly the kept (truthy) parses in input
order. -/
theorem c10_unparseable_excluded (assets : List AssetContent)
    (hlen : 2 ≤ assets.length)
    (htruthy : ∃ a ∈ assets, (mcpKeepParse a).isSome = true) :
    (∀ a ∈ assets,
      parseMcpConfig a.content (detectMcpFormat a.path) = none →
      mcpKeepParse a = none) ∧
    mergeMcpAssets assets
      = some (serializeMcpConfig
          (mergeMcpConfigs (assets.filterMap mcpKeepParse))
          (mcpParseFold assets).2) := by
  constructor
  · intro a _ hp
    simp [mcpKeepParse, hp]
  · match assets, hlen with
    | a :: b :: rest, _ =>
      rw [mergeMcpAssets_ge2]
      have hfst : (mcpParseFold (a :: b :: rest)).1
          = (a :: b :: rest).filterMap mcpKeepParse := by
        have := mcpParseFold_fst (a :: b :: rest) [] McpFormat.json
        simpa [mcpParseFold] using this
      have hne : (a :: b :: rest).filterMap mcpKeepParse ≠ [] := by
        obtain ⟨x, hx, hxs⟩ := htruthy
        intro hnil
        rcases hv : mcpKeepParse x with _ | v
        · rw [hv] at hxs; simp at hxs
        · have : v ∈ (a :: b :: rest).filterMap mcpKeepParse :=
            List.mem_filterMap.mpr ⟨x, hx, hv⟩
          rw [hnil] at this
          exact absurd this (List.not_mem_nil v)
      rw [hfst, if_neg hne]

/-- Witness for the amended C10 on a concrete pair: one truthy JSON asset
and one unparseable asset. -/
theorem c10_unparseable_excluded_witness :
    (∀ a ∈ [c10AssetGood, c10AssetBad],
      parseMcpConfig a.content (detectMcpFormat a.path) = none →
      mcpKeepParse a = none) ∧
    mergeMcpAssets [c10AssetGood, c10AssetBad]
      = some (serializeMcpConfig
          (mergeMcpConfigs ([c10AssetGood, c10AssetBad].filterMap mcpKeepParse))
          (mcpParseFold [c10AssetGood, c10AssetBad]).2) :=
  c10_unparseable_excluded [c10AssetGood, c10AssetBad] (by decide)
    ⟨c10AssetGood, by simp, by rfl⟩

/-- Fixture: a JSON-named asset whose content `{` does not parse. -/
def c5AssetBadJson : AssetContent :=
  { path := "/a/a.json", name := "a", type := "mcp", client := "claude",
    relativePath := "a.json", content := "\x7b", hash := "h5a" }

/-- Fixture: a YAML asset declaring one server. -/
def c5AssetYaml : AssetContent :=
  { path := "/b/b.yaml", name := "b", type := "mcp", client := "cursor",
    relativePath := "b.yaml",
    content := "mcpServers:\n  s:\n    command: \"x\"\n", hash := "h5b" }

/-- **C5 (counterexample)**: with an unparseable first asset detected as
JSON and a parseable second asset in YAML, `mergeMcpAssets` serializes the
merge in YAML — the format of the first asset that parsed — not in the
first asset's detected JSON format as claimed. -/
theorem c5_counterexample :
    detectMcpFormat c5AssetBadJson.path = McpFormat.json ∧
    mergeMcpAssets [c5AssetBadJson, c5AssetYaml]
      = some (serializeMcpConfig
          (mergeMcpConfigs ([c5AssetBadJson, c5AssetYaml].filterMap mcpKeepParse))
          McpFormat.yaml) ∧
    mergeMcpAssets [c5AssetBadJson, c5AssetYaml]
      ≠ some (serializeMcpConfig
          (mergeMcpConfigs ([c5AssetBadJson, c5AssetYaml].filterMap mcpKeepParse))
          (detectMcpFormat c5AssetBadJson.path)) := by
  refine ⟨rfl, rfl, by decide⟩

/-- **C5 (amended)**: for two or more assets, the merged result is
serialized in the detected format of the first asset whose parse yields a
JavaScript-truthy config (not necessarily the first asset of the list);
when no asset parses to a truthy config, the result is the raw texts
joined with a visible `---` delimiter — never a failure. -/
theorem c5_merge_output_format (assets : List AssetContent)
    (hlen : 2 ≤ assets.length) :
    (∀ a, assets.find? (fun x => (mcpKeepParse x).isSome) = some a →
      mergeMcpAssets assets
        = some (serializeMcpConfig
            (mergeMcpConfigs (assets.filterMap mcpKeepParse))
            (detectMcpFormat a.path))) ∧
    (assets.find? (fun x => (mcpKeepParse x).isSome) = none →
      mergeMcpAssets assets
        = some (joinWith "\n\n---\n\n" (assets.map fun x => x.content))) := by
  match assets, hlen with
  | a :: b :: rest, _ =>
    have hfst : (mcpParseFold (a :: b :: rest)).1
        = (a :: b :: rest).filterMap mcpKeepParse := by
      have := mcpParseFold_fst (a :: b :: rest) [] McpFormat.json
      simpa [mcpParseFold] using this
    have hsnd := mcpParseFold_snd (a :: b :: rest) McpFormat.json
    constructor
    · intro x hx
      rw [mergeMcpAssets_ge2]
      have hne : (a :: b :: rest).filterMap mcpKeepParse ≠ [] := by
        have hxmem := List.mem_of_find?_eq_some hx
        have hxs : (mcpKeepParse x).isSome = true := by
          have := List.find?_some hx
          simpa using this
        rcases hv : mcpKeepParse x with _ | v
        · rw [hv] at hxs; simp at hxs
        · intro hnil
          have : v ∈ (a :: b :: rest).filterMap mcpKeepParse :=
            List.mem_filterMap.mpr ⟨x, hxmem, hv⟩
          rw [hnil] at this
          exact absurd this (List.not_mem_nil v)
      rw [hfst, if_neg hne]
      have hfmt : (mcpParseFold (a :: b :: rest)).2 = detectMcpFormat x.path := by
        unfold mcpParseFold
        rw [hsnd, hx]
      rw [hfmt]
    · intro hnone
      rw [mergeMcpAssets_ge2]
      have hall : ∀ x ∈ a :: b :: rest, mcpKeepParse x = none := by
        intro x hxmem
        have := List.find?_eq_none.mp hnone x hxmem
        rcases hv : mcpKeepParse x with _ | v
        · rfl
        · rw [hv] at this; simp at this
      have hnil : (a :: b :: rest).filterMap mcpKeepParse = [] :=
        List.filterMap_eq_nil_iff.mpr hall
      rw [hfst, hnil]
      simp

/-- Witness for the amended C5 on a concrete pair: the first asset fails to
parse, so the output format is the second (YAML) asset's. -/
theorem c5_merge_output_format_witness :
    mergeMcpAssets [c5AssetBadJson, c5AssetYaml]
      = some (serializeMcpConfig
          (mergeMcpConfigs ([c5AssetBadJson, c5AssetYaml].filterMap mcpKeepParse))
          (detectMcpFormat c5AssetYaml.path)) :=
  (c5_merge_output_format [c5AssetBadJson, c5AssetYaml] (by decide)).1
    c5AssetYaml (by rfl)

/-! ### C2: round-trip behaviour of the MCP codecs -/

/-- **C2 (counterexample)**: a well-formed JSON config whose `command`
string contains `//` (entered through the legal JSON escape `\/`) parses
successfully, but parsing its own serialization fails: the serializer
emits the two slashes verbatim and `parseJsonWithComments` strips
everything from `//` to the end of the line before parsing, truncating
the serialized document into invalid JSON. -/
theorem c2_counterexample :
    parseMcpConfig "\x7b\"mcpServers\": \x7b\"s\": \x7b\"command\": \"a\\/\\/b\"\x7d\x7d\x7d"
      McpFormat.json
      = some (JValue.obj [("mcpServers", JValue.obj [("s",
          JValue.obj [("command", JValue.str "a//b")])])]) ∧
    parseMcpConfig
      (serializeMcpConfig
        (JValue.obj [("mcpServers", JValue.obj [("s",
          JValue.obj [("command", JValue.str "a//b")])])]) McpFormat.json)
      McpFormat.json = none := by
  exact ⟨rfl, rfl⟩

/-! #### Well-formedness of parsed JSON values -/

/-- Shape of the integer part of a JSON number literal. -/
def intPartShape : List Char → Bool
  | [] => false
  | c :: ds => if c = '0' then decide (ds = []) else isDigitCh c && ds.all isDigitCh

/-- Shape of the (optional) fraction part of a JSON number literal. -/
def fracPartShape : List Char → Bool
  | [] => true
  | c :: ds => decide (c = '.') && decide (ds ≠ []) && ds.all isDigitCh

/-- Shape of the tail of an exponent part (optional sign, then digits). -/
def expTailShape : List Char → Bool
  | [] => false
  | c :: ds =>
    if c = '+' ∨ c = '-' then decide (ds ≠ []) && ds.all isDigitCh
    else (c :: ds).all isDigitCh

/-- Shape of the (optional) exponent part of a JSON number literal. -/
def expPartShape : List Char → Bool
  | [] => true
  | e :: r => (decide (e = 'e') || decide (e = 'E')) && expTailShape r

/-- A character list that is exactly one JSON number literal. -/
def NumShape (l : List Char) : Prop :=
  ∃ sg ip fp ep, l = sg ++ ip ++ fp ++ ep ∧ (sg = [] ∨ sg = ['-']) ∧
    intPartShape ip = true ∧ fracPartShape fp = true ∧ expPartShape ep = true

mutual

/-- Well-formedness of a parsed JSON value: object keys are duplicate-free
and number literals have the JSON number shape, recursively. -/
def JWf : JValue → Prop
  | JValue.null => True
  | JValue.bool _ => True
  | JValue.num lit => NumShape lit.data
  | JValue.str _ => True
  | JValue.arr es => JWfList es
  | JValue.obj fs => (fs.map Prod.fst).Nodup ∧ JWfFields fs

/-- Well-formedness of array elements. -/
def JWfList : List JValue → Prop
  | [] => True
  | v :: vs => JWf v ∧ JWfList vs

/-- Well-formedness of object field values. -/
def JWfFields : List (String × JValue) → Prop
  | [] => True
  | (_, v) :: fs => JWf v ∧ JWfFields fs

end

mutual

/-- Fuel sufficient for `parseJValue` on the printed form of a value. -/
def jFuel : JValue → Nat
  | JValue.arr [] => 1
  | JValue.arr (e :: es) => 1 + jFuelList (e :: es)
  | JValue.obj [] => 1
  | JValue.obj (f :: fs) => 1 + jFuelFields (f :: fs)
  | _ => 1

/-- Fuel sufficient for `parseJArrayBody` on printed array items. -/
def jFuelList : List JValue → Nat
  | [] => 0
  | v :: vs => 1 + jFuel v + jFuelList vs

/-- Fuel sufficient for `parseJObjectBody` on printed object fields. -/
def jFuelFields : List (String × JValue) → Nat
  | [] => 0
  | (_, v) :: fs => 1 + jFuel v + jFuelFields fs

end

/-- The character after a printed number must not extend the literal. -/
def numStopL (l : List Char) : Prop :=
  ∀ d, l.head? = some d →
    isDigitCh d = false ∧ d ≠ '.' ∧ d ≠ 'e' ∧ d ≠ 'E'

/-! #### Whitespace and span lemmas -/

theorem skipWsChars_append (pre l : List Char)
    (h : pre.all isJsWhitespace = true) :
    skipWsChars (pre ++ l) = skipWsChars l := by
  induction pre with
  | nil => rfl
  | cons c cs ih =>
    simp only [List.all_cons, Bool.and_eq_true] at h
    simp only [List.cons_append, skipWsChars, List.dropWhile_cons, h.1, if_pos]
    exact ih h.2

theorem skipWsChars_nows (l : List Char)
    (h : ∀ d, l.head? = some d → isJsWhitespace d = false) :
    skipWsChars l = l := by
  cases l with
  | nil => rfl
  | cons c cs =>
    have := h c rfl
    simp [skipWsChars, List.dropWhile_cons, this]

theorem parseJValue_ws (fuel : Nat) (pre l : List Char)
    (h : pre.all isJsWhitespace = true) :
    parseJValue fuel (pre ++ l) = parseJValue fuel l := by
  cases fuel with
  | zero => rfl
  | succ f => simp only [parseJValue, skipWsChars_append pre l h]

theorem takeWhile_append_all {p : Char → Bool} (a : List Char) :
    ∀ b : List Char, a.all p = true →
      (∀ d, b.head? = some d → p d = false) →
      (a ++ b).takeWhile p = a := by
  induction a with
  | nil =>
    intro b _ hb
    cases b with
    | nil => rfl
    | cons d bs => simp [List.takeWhile_cons, hb d rfl]
  | cons c cs ih =>
    intro b ha hb
    simp only [List.all_cons, Bool.and_eq_true] at ha
    simp [List.takeWhile_cons, ha.1, ih b ha.2 hb]

theorem dropWhile_append_all {p : Char → Bool} (a : List Char) :
    ∀ b : List Char, a.all p = true →
      (∀ d, b.head? = some d → p d = false) →
      (a ++ b).dropWhile p = b := by
  induction a with
  | nil =>
    intro b _ hb
    cases b with
    | nil => rfl
    | cons d bs => simp [List.dropWhile_cons, hb d rfl]
  | cons c cs ih =>
    intro b ha hb
    simp only [List.all_cons, Bool.and_eq_true] at ha
    simp [List.dropWhile_cons, ha.1, ih b ha.2 hb]

theorem span_append_all {p : Char → Bool} (a b : List Char)
    (ha : a.all p = true) (hb : ∀ d, b.head? = some d → p d = false) :
    (a ++ b).span p = (a, b) := by
  rw [List.span_eq_take_drop, takeWhile_append_all a b ha hb,
    dropWhile_append_all a b ha hb]

theorem alSet_append_fresh {β : Type} (m : List (String × β)) (k : String)
    (v : β) (h : k ∉ m.map Prod.fst) : alSet m k v = m ++ [(k, v)] := by
  induction m with
  | nil => rfl
  | cons q rest ih =>
    obtain ⟨qk, qv⟩ := q
    simp only [List.map_cons, List.mem_cons] at h
    push_neg at h
    have hne : ¬ qk = k := fun e => h.1 e.symm
    simp [alSet, hne, ih h.2]

/-! #### JSON number lemmas -/

theorem digit_ne (c x : Char) (h : isDigitCh c = true)
    (hx : isDigitCh x = false) : c ≠ x := by
  intro he
  rw [he, hx] at h
  simp at h

theorem isDigitCh_not_ws (c : Char) (h : isDigitCh c = true) :
    isJsWhitespace c = false := by
  by_contra hws
  rw [Bool.not_eq_false] at hws
  have hc : c = ' ' ∨ c = '\t' ∨ c = '\n' ∨ c = '\r' := by
    simpa [isJsWhitespace] using hws
  rcases hc with h1 | h1 | h1 | h1 <;> rw [h1] at h <;> exact absurd h (by decide)

theorem parseIntPart_ext (ip rest : List Char) (h : intPartShape ip = true)
    (hrest : ∀ d, rest.head? = some d → isDigitCh d = false) :
    parseIntPart (ip ++ rest) = some (ip, rest) := by
  cases ip with
  | nil => simp [intPartShape] at h
  | cons c ds =>
    by_cases hc : c = '0'
    · subst hc
      have hds : ds = [] := by simpa [intPartShape] using h
      subst hds
      simp [parseIntPart]
    · have h2 : isDigitCh c = true ∧ ds.all isDigitCh = true := by
        simpa [intPartShape, hc] using h
      have htake := takeWhile_append_all ds rest h2.2 hrest
      have hdrop := dropWhile_append_all ds rest h2.2 hrest
      simp [parseIntPart, hc, h2.1, List.span_eq_take_drop, htake, hdrop]

theorem parseFracPart_ext (fp rest : List Char) (h : fracPartShape fp = true)
    (hrest : ∀ d, rest.head? = some d → isDigitCh d = false ∧ d ≠ '.') :
    parseFracPart (fp ++ rest) = some (fp, rest) := by
  cases fp with
  | nil =>
    cases rest with
    | nil => rfl
    | cons d bs =>
      have hd := hrest d rfl
      simp [parseFracPart, hd.2]
  | cons c ds =>
    have h2 : (c = '.' ∧ ds ≠ []) ∧ ds.all isDigitCh = true := by
      simpa [fracPartShape] using h
    obtain ⟨⟨hc, hne⟩, hall⟩ := h2
    subst hc
    have htake := takeWhile_append_all ds rest hall fun d hd => (hrest d hd).1
    have hdrop := dropWhile_append_all ds rest hall fun d hd => (hrest d hd).1
    cases ds with
    | nil => exact absurd rfl hne
    | cons d0 ds0 =>
      simp only [List.cons_append] at htake hdrop
      simp [parseFracPart, List.span_eq_take_drop, htake, hdrop]

theorem parseExpPart_ext (ep rest : List Char) (h : expPartShape ep = true)
    (hrest : ∀ d, rest.head? = some d →
      isDigitCh d = false ∧ d ≠ 'e' ∧ d ≠ 'E') :
    parseExpPart (ep ++ rest) = some (ep, rest) := by
  cases ep with
  | nil =>
    cases rest with
    | nil => rfl
    | cons d bs =>
      have hd := hrest d rfl
      simp [parseExpPart, hd.2.1, hd.2.2]
  | cons e r =>
    have h2 : (e = 'e' ∨ e = 'E') ∧ expTailShape r = true := by
      simpa [expPartShape] using h
    obtain ⟨he, ht⟩ := h2
    cases r with
    | nil => simp [expTailShape] at ht
    | cons c ds =>
      by_cases hsgn : c = '+' ∨ c = '-'
      · have h3 : ds ≠ [] ∧ ds.all isDigitCh = true := by
          simpa [expTailShape, hsgn] using ht
        obtain ⟨hne, hall⟩ := h3
        have htake := takeWhile_append_all ds rest hall fun d hd => (hrest d hd).1
        have hdrop := dropWhile_append_all ds rest hall fun d hd => (hrest d hd).1
        cases ds with
        | nil => exact absurd rfl hne
        | cons d0 ds0 =>
          simp only [List.cons_append] at htake hdrop
          simp [parseExpPart, he, hsgn, List.span_eq_take_drop, htake, hdrop]
      · have hall : (c :: ds).all isDigitCh = true := by
          simpa [expTailShape, hsgn] using ht
        have htake := takeWhile_append_all (c :: ds) rest hall
          fun d hd => (hrest d hd).1
        have hdrop := dropWhile_append_all (c :: ds) rest hall
          fun d hd => (hrest d hd).1
        simp only [List.cons_append] at htake hdrop
        simp [parseExpPart, he, hsgn, List.span_eq_take_drop, htake, hdrop]

theorem intPartShape_digit (c : Char) (ds : List Char)
    (h : intPartShape (c :: ds) = true) : isDigitCh c = true := by
  by_cases hc : c = '0'
  · rw [hc]; decide
  · exact (by simpa [intPartShape, hc] using h : _ ∧ _).1

theorem parseJNumber_ext (lit rest : List Char) (h : NumShape lit)
    (hrest : numStopL rest) :
    parseJNumber (lit ++ rest) = some (lit, rest) := by
  obtain ⟨sg, ip, fp, ep, heq, hsg, hip, hfp, hep⟩ := h
  subst heq
  have hAfterInt : ∀ d, (fp ++ (ep ++ rest)).head? = some d →
      isDigitCh d = false := by
    intro d hd
    cases fp with
    | nil =>
      simp only [List.nil_append] at hd
      cases ep with
      | nil => exact (hrest d hd).1
      | cons e r =>
        simp only [List.cons_append, List.head?_cons, Option.some.injEq] at hd
        subst hd
        have h2 : (e = 'e' ∨ e = 'E') ∧ expTailShape r = true := by
          simpa [expPartShape] using hep
        rcases h2.1 with he | he <;> rw [he] <;> decide
    | cons c0 ds =>
      have h2 : (c0 = '.' ∧ ds ≠ []) ∧ ds.all isDigitCh = true := by
        simpa [fracPartShape] using hfp
      simp only [List.cons_append, List.head?_cons, Option.some.injEq] at hd
      subst hd
      rw [h2.1.1]; decide
  have hAfterFrac : ∀ d, (ep ++ rest).head? = some d →
      isDigitCh d = false ∧ d ≠ '.' := by
    intro d hd
    cases ep with
    | nil =>
      simp only [List.nil_append] at hd
      exact ⟨(hrest d hd).1, (hrest d hd).2.1⟩
    | cons e r =>
      simp only [List.cons_append, List.head?_cons, Option.some.injEq] at hd
      subst hd
      have h2 : (e = 'e' ∨ e = 'E') ∧ expTailShape r = true := by
        simpa [expPartShape] using hep
      rcases h2.1 with he | he <;> rw [he] <;> exact ⟨by decide, by decide⟩
  have hAfterExp : ∀ d, rest.head? = some d →
      isDigitCh d = false ∧ d ≠ 'e' ∧ d ≠ 'E' :=
    fun d hd => ⟨(hrest d hd).1, (hrest d hd).2.2.1, (hrest d hd).2.2.2⟩
  have hint := parseIntPart_ext ip (fp ++ (ep ++ rest)) hip hAfterInt
  have hfrac := parseFracPart_ext fp (ep ++ rest) hfp hAfterFrac
  have hexp := parseExpPart_ext ep rest hep hAfterExp
  rcases hsg with h0 | h1
  · subst h0
    cases ip with
    | nil => simp [intPartShape] at hip
    | cons c ds =>
      have hcne : ¬ c = '-' :=
        digit_ne c '-' (intPartShape_digit c ds hip) (by decide)
      simp only [List.nil_append, List.append_assoc, List.cons_append]
      simp only [List.cons_append] at hint
      simp [parseJNumber, hcne, hint, hfrac, hexp]
  · subst h1
    simp only [List.cons_append, List.nil_append, List.append_assoc]
    simp [parseJNumber, hint, hfrac, hexp]

/-! #### JSON string lemmas -/

theorem hexVal_hexDigit (n : Nat) (h : n < 16) : hexVal (hexDigit n) = some n := by
  interval_cases n <;> decide

theorem parseJStringChars_print (s : List Char) :
    ∀ rest, parseJStringChars (s.flatMap escChar ++ '"' :: rest)
      = some (s, rest) := by
  induction s with
  | nil =>
    intro rest
    rw [parseJStringChars.eq_def]
    simp
  | cons c cs ih =>
    intro rest
    simp only [List.flatMap_cons, List.append_assoc]
    by_cases h1 : c = '"'
    · subst h1
      have he9 : escChar '"' = ['\\', '"'] := by decide
      rw [he9]
      rw [List.cons_append, List.cons_append, parseJStringChars.eq_def]
      simp [escValue, ih rest]
    · by_cases h2 : c = '\\'
      · subst h2
        have he9 : escChar '\\' = ['\\', '\\'] := by decide
        rw [he9]
        rw [List.cons_append, List.cons_append, parseJStringChars.eq_def]
        simp [escValue, ih rest]
      · by_cases h3 : c = '\n'
        · subst h3
          have he9 : escChar '\n' = ['\\', 'n'] := by decide
          rw [he9]
          rw [List.cons_append, List.cons_append, parseJStringChars.eq_def]
          simp [escValue, ih rest]
        · by_cases h4 : c = '\r'
          · subst h4
            have he9 : escChar '\r' = ['\\', 'r'] := by decide
            rw [he9]
            rw [List.cons_append, List.cons_append, parseJStringChars.eq_def]
            simp [escValue, ih rest]
          · by_cases h5 : c = '\t'
            · subst h5
              have he9 : escChar '\t' = ['\\', 't'] := by decide
              rw [he9]
              rw [List.cons_append, List.cons_append, parseJStringChars.eq_def]
              simp [escValue, ih rest]
            · by_cases h6 : c = Char.ofNat 8
              · subst h6
                have he9 : escChar (Char.ofNat 8) = ['\\', 'b'] := by decide
                rw [he9]
                rw [List.cons_append, List.cons_append, parseJStringChars.eq_def]
                simp [escValue, ih rest]
              · by_cases h7 : c = Char.ofNat 12
                · subst h7
                  have he9 : escChar (Char.ofNat 12) = ['\\', 'f'] := by decide
                  rw [he9]
                  rw [List.cons_append, List.cons_append, parseJStringChars.eq_def]
                  simp [escValue, ih rest]
                · by_cases h8 : c.toNat < 32
                  · have hesc : escChar c
                        = ['\\', 'u', '0', '0', hexDigit (c.toNat / 16),
                           hexDigit (c.toNat % 16)] := by
                      simp [escChar, h1, h2, h3, h4, h5, h6, h7, h8]
                    rw [hesc]
                    have hhi : hexVal (hexDigit (c.toNat / 16))
                        = some (c.toNat / 16) :=
                      hexVal_hexDigit _ (by omega)
                    have hlo : hexVal (hexDigit (c.toNat % 16))
                        = some (c.toNat % 16) :=
                      hexVal_hexDigit _ (by omega)
                    have h00 : hexVal '0' = some 0 := rfl
                    have hcode : ((0 * 16 + 0) * 16 + c.toNat / 16) * 16
                        + c.toNat % 16 = c.toNat := by omega
                    have hsur : ¬ (55296 ≤ ((0 * 16 + 0) * 16 + c.toNat / 16) * 16
                        + c.toNat % 16 ∧ ((0 * 16 + 0) * 16 + c.toNat / 16) * 16
                        + c.toNat % 16 ≤ 57343) := by omega
                    simp only [List.cons_append]
                    rw [parseJStringChars.eq_def]
                    simp only []
                    simp [h00, hhi, hlo, ih rest]
                    constructor
                    · intro hge
                      omega
                    · have hc : c.toNat / 16 * 16 + c.toNat % 16 = c.toNat := by
                        omega
                      rw [hc]
                      exact Char.ofNat_toNat c
                  · have hesc : escChar c = [c] := by
                      simp [escChar, h1, h2, h3, h4, h5, h6, h7, h8]
                    rw [hesc]
                    simp only [List.cons_append, List.nil_append]
                    rw [parseJStringChars.eq_def]
                    simp [h1, h2, h8, ih rest]

/-! #### JSON printer head and layout lemmas -/

theorem string_data_append (a b : String) : (a ++ b).data = a.data ++ b.data := by
  cases a; cases b; rfl

theorem indentSp_all_ws (level : Nat) :
    (indentSp level).data.all isJsWhitespace = true := by
  simp only [indentSp, List.all_eq_true]
  intro c hc
  rw [List.eq_of_mem_replicate hc]
  decide

theorem numStopL_nil : numStopL [] := by
  intro d hd
  simp at hd

theorem numStopL_of (c : Char) (l : List Char) (h1 : isDigitCh c = false)
    (h2 : c ≠ '.') (h3 : c ≠ 'e') (h4 : c ≠ 'E') : numStopL (c :: l) := by
  intro d hd
  simp only [List.head?_cons, Option.some.injEq] at hd
  subst hd
  exact ⟨h1, h2, h3, h4⟩

theorem numShape_head (l : List Char) (h : NumShape l) :
    ∃ c cs, l = c :: cs ∧ (c = '-' ∨ isDigitCh c = true) := by
  obtain ⟨sg, ip, fp, ep, heq, hsg, hip, _, _⟩ := h
  rcases hsg with h0 | h1
  · subst h0
    cases ip with
    | nil => simp [intPartShape] at hip
    | cons c ds =>
      subst heq
      exact ⟨c, ds ++ fp ++ ep, by simp, Or.inr (intPartShape_digit c ds hip)⟩
  · subst h1
    subst heq
    exact ⟨'-', ip ++ fp ++ ep, by simp, Or.inl rfl⟩

theorem numHead_route (c : Char) (hc : c = '-' ∨ isDigitCh c = true) :
    isJsWhitespace c = false ∧ ¬ c = '{' ∧ ¬ c = '[' ∧ ¬ c = '"' ∧
    ¬ c = 't' ∧ ¬ c = 'f' ∧ ¬ c = 'n' ∧ c ≠ ']' ∧ c ≠ '}' := by
  rcases hc with h | h
  · subst h
    refine ⟨by decide, by decide, by decide, by decide, by decide, by decide,
      by decide, by decide, by decide⟩
  · exact ⟨isDigitCh_not_ws c h, digit_ne c '{' h (by decide),
      digit_ne c '[' h (by decide), digit_ne c '"' h (by decide),
      digit_ne c 't' h (by decide), digit_ne c 'f' h (by decide),
      digit_ne c 'n' h (by decide), digit_ne c ']' h (by decide),
      digit_ne c '}' h (by decide)⟩

theorem jStringify_head (v : JValue) (level : Nat) (h : JWf v) :
    ∃ c cs, (jStringify level v).data = c :: cs ∧ isJsWhitespace c = false ∧
      c ≠ ']' ∧ c ≠ '}' := by
  cases v with
  | null => exact ⟨'n', ['u', 'l', 'l'], rfl, by decide, by decide, by decide⟩
  | bool b =>
    cases b
    · exact ⟨'f', ['a', 'l', 's', 'e'], rfl, by decide, by decide, by decide⟩
    · exact ⟨'t', ['r', 'u', 'e'], rfl, by decide, by decide, by decide⟩
  | num lit =>
    have hs : NumShape lit.data := h
    obtain ⟨c, cs, hl, hc⟩ := numShape_head lit.data hs
    have hr := numHead_route c hc
    exact ⟨c, cs, by simpa [jStringify] using hl, hr.1, hr.2.2.2.2.2.2.2.1,
      hr.2.2.2.2.2.2.2.2⟩
  | str s =>
    refine ⟨'"', s.data.flatMap escChar ++ ['"'], ?_, by decide, by decide,
      by decide⟩
    simp [jStringify, quoteString, string_data_append]
  | arr es =>
    cases es with
    | nil => exact ⟨'[', [']'], rfl, by decide, by decide, by decide⟩
    | cons e es0 =>
      have h1 : (jStringify level (JValue.arr (e :: es0))).data
          = ['[', '\n']
            ++ ((joinWith ",\n" (jStringifyItems (level + 1) (e :: es0))).data
              ++ ('\n' :: ((indentSp level).data ++ [']']))) := by
        show ("[\n" ++ joinWith ",\n" (jStringifyItems (level + 1) (e :: es0))
            ++ "\n" ++ indentSp level ++ "]").data = _
        simp [string_data_append]
      exact ⟨'[', _, h1, by decide, by decide, by decide⟩
  | obj fs =>
    cases fs with
    | nil => exact ⟨'{', ['}'], rfl, by decide, by decide, by decide⟩
    | cons f fs0 =>
      have h1 : (jStringify level (JValue.obj (f :: fs0))).data
          = ['{', '\n']
            ++ ((joinWith ",\n" (jStringifyFields (level + 1) (f :: fs0))).data
              ++ ('\n' :: ((indentSp level).data ++ ['}']))) := by
        show ("\x7b\n" ++ joinWith ",\n" (jStringifyFields (level + 1) (f :: fs0))
            ++ "\n" ++ indentSp level ++ "\x7d").data = _
        simp [string_data_append]
      exact ⟨'{', _, h1, by decide, by decide, by decide⟩

/-- The characters of pretty-printed array items after the first item's
indentation. -/
def itemsChars (level : Nat) : List JValue → List Char
  | [] => []
  | [v] => (jStringify level v).data
  | v :: vs => (jStringify level v).data
      ++ ',' :: '\n' :: ((indentSp level).data ++ itemsChars level vs)

/-- The characters of pretty-printed object fields after the first field's
indentation. -/
def fieldsChars (level : Nat) : List (String × JValue) → List Char
  | [] => []
  | [(k, v)] => (quoteString k).data ++ ':' :: ' ' :: (jStringify level v).data
  | (k, v) :: fs => (quoteString k).data ++ ':' :: ' ' :: (jStringify level v).data
      ++ ',' :: '\n' :: ((indentSp level).data ++ fieldsChars level fs)

theorem itemsChars_eq (level : Nat) :
    ∀ es : List JValue, es ≠ [] →
      (joinWith ",\n" (jStringifyItems level es)).data
        = (indentSp level).data ++ itemsChars level es := by
  intro es
  induction es with
  | nil => intro hne; exact absurd rfl hne
  | cons v vs ih =>
    intro _
    cases vs with
    | nil => simp [jStringifyItems, joinWith, itemsChars, string_data_append]
    | cons w ws =>
      have hjoin : joinWith ",\n" (jStringifyItems level (v :: w :: ws))
          = (indentSp level ++ jStringify level v) ++ ",\n"
            ++ joinWith ",\n" (jStringifyItems level (w :: ws)) := by
        simp [jStringifyItems, joinWith]
      rw [hjoin]
      simp only [string_data_append, ih (by simp), itemsChars]
      simp [string_data_append]

theorem fieldsChars_eq (level : Nat) :
    ∀ fs : List (String × JValue), fs ≠ [] →
      (joinWith ",\n" (jStringifyFields level fs)).data
        = (indentSp level).data ++ fieldsChars level fs := by
  intro fs
  induction fs with
  | nil => intro hne; exact absurd rfl hne
  | cons f gs ih =>
    intro _
    obtain ⟨k, v⟩ := f
    cases gs with
    | nil => simp [jStringifyFields, joinWith, fieldsChars, string_data_append]
    | cons g gs0 =>
      have hjoin : joinWith ",\n" (jStringifyFields level ((k, v) :: g :: gs0))
          = (indentSp level ++ quoteString k ++ ": " ++ jStringify level v)
            ++ ",\n" ++ joinWith ",\n" (jStringifyFields level (g :: gs0)) := by
        simp [jStringifyFields, joinWith]
      rw [hjoin]
      simp only [string_data_append, ih (by simp)]
      obtain ⟨g1, g2⟩ := g
      simp [fieldsChars, string_data_append]

theorem itemsChars_cons2 (level : Nat) (v w : JValue) (ws : List JValue) :
    itemsChars level (v :: w :: ws)
      = (jStringify level v).data
        ++ ',' :: '\n' :: ((indentSp level).data ++ itemsChars level (w :: ws)) := by
  simp [itemsChars]

theorem fieldsChars_cons2 (level : Nat) (k : String) (v : JValue)
    (g : String × JValue) (gs : List (String × JValue)) :
    fieldsChars level ((k, v) :: g :: gs)
      = (quoteString k).data ++ ':' :: ' ' :: (jStringify level v).data
        ++ ',' :: '\n' :: ((indentSp level).data ++ fieldsChars level (g :: gs)) := by
  simp [fieldsChars]

theorem fieldsChars_head (level : Nat) (fs : List (String × JValue))
    (hne : fs ≠ []) :
    ∃ cs, fieldsChars level fs = '"' :: cs := by
  match fs, hne with
  | [(k, v)], _ =>
    refine ⟨k.data.flatMap escChar
      ++ '"' :: ':' :: ' ' :: (jStringify level v).data, ?_⟩
    simp [fieldsChars, quoteString, string_data_append]
  | (k, v) :: g :: gs, _ =>
    refine ⟨k.data.flatMap escChar ++ '"' :: ':' :: ' '
      :: ((jStringify level v).data ++ ',' :: '\n'
        :: ((indentSp level).data ++ fieldsChars level (g :: gs))), ?_⟩
    simp [fieldsChars, quoteString, string_data_append]

theorem skipWsChars_cons (c : Char) (l : List Char)
    (h : isJsWhitespace c = false) : skipWsChars (c :: l) = c :: l := by
  simp [skipWsChars, List.dropWhile_cons, h]

theorem parseJValue_num_step (f : Nat) (c : Char) (xs : List Char)
    (hws : isJsWhitespace c = false) (h1 : ¬ c = '{') (h2 : ¬ c = '[')
    (h3 : ¬ c = '"') (h4 : ¬ c = 't') (h5 : ¬ c = 'f') (h6 : ¬ c = 'n') :
    parseJValue (f + 1) (c :: xs)
      = (parseJNumber (c :: xs)).map fun p => (JValue.num (String.mk p.1), p.2) := by
  have hsk : skipWsChars (c :: xs) = c :: xs := skipWsChars_cons c xs hws
  rw [parseJValue.eq_def]
  simp only [hsk]
  rw [if_neg h1, if_neg h2, if_neg h3, if_neg h4, if_neg h5, if_neg h6]

theorem parseJValue_arr_step (f : Nat) (pre l2 : List Char) (c0 : Char)
    (ys : List Char) (hpre : pre.all isJsWhitespace = true)
    (hl2 : l2 = c0 :: ys) (hc0ws : isJsWhitespace c0 = false)
    (hc0 : c0 ≠ ']') :
    parseJValue (f + 1) ('[' :: (pre ++ l2)) = parseJArrayBody f l2 [] := by
  subst hl2
  have hsk : skipWsChars ('[' :: (pre ++ c0 :: ys)) = '[' :: (pre ++ c0 :: ys) :=
    skipWsChars_cons _ _ (by decide)
  have hsk2 : skipWsChars (pre ++ c0 :: ys) = c0 :: ys := by
    rw [skipWsChars_append pre _ hpre]
    exact skipWsChars_cons _ _ hc0ws
  rw [parseJValue.eq_def]
  simp only [hsk, hsk2]
  rw [if_neg (show ¬ ('[' : Char) = '{' by decide), if_pos trivial]
  split
  next heq =>
    injection heq with ha hb
    exact absurd ha hc0
  next => rfl

theorem parseJValue_obj_step (f : Nat) (pre l2 : List Char) (c0 : Char)
    (ys : List Char) (hpre : pre.all isJsWhitespace = true)
    (hl2 : l2 = c0 :: ys) (hc0ws : isJsWhitespace c0 = false)
    (hc0 : c0 ≠ '}') :
    parseJValue (f + 1) ('{' :: (pre ++ l2)) = parseJObjectBody f l2 [] := by
  subst hl2
  have hsk : skipWsChars ('{' :: (pre ++ c0 :: ys)) = '{' :: (pre ++ c0 :: ys) :=
    skipWsChars_cons _ _ (by decide)
  have hsk2 : skipWsChars (pre ++ c0 :: ys) = c0 :: ys := by
    rw [skipWsChars_append pre _ hpre]
    exact skipWsChars_cons _ _ hc0ws
  rw [parseJValue.eq_def]
  simp only [hsk, hsk2]
  rw [if_pos trivial]
  split
  next heq =>
    injection heq with ha hb
    exact absurd ha hc0
  next => rfl

theorem nlIndent_all_ws (level : Nat) :
    ('\n' :: (indentSp level).data).all isJsWhitespace = true := by
  rw [List.all_cons, indentSp_all_ws]
  decide

theorem skipWs_nl_indent (level : Nat) (c : Char) (rest : List Char)
    (hc : isJsWhitespace c = false) :
    skipWsChars ('\n' :: ((indentSp level).data ++ c :: rest)) = c :: rest := by
  have h1 : '\n' :: ((indentSp level).data ++ c :: rest)
      = ('\n' :: (indentSp level).data) ++ (c :: rest) := by simp
  rw [h1, skipWsChars_append _ _ (nlIndent_all_ws level),
    skipWsChars_cons c rest hc]

theorem parseJArrayBody_last (f : Nat) (l : List Char) (acc : List JValue)
    (v : JValue) (r r2 : List Char) (hv : parseJValue f l = some (v, r))
    (hr : skipWsChars r = ']' :: r2) :
    parseJArrayBody (f + 1) l acc = some (JValue.arr (acc ++ [v]), r2) := by
  rw [parseJArrayBody.eq_def]
  simp only [hv, hr]

theorem parseJArrayBody_cont (f : Nat) (l : List Char) (acc : List JValue)
    (v : JValue) (r r2 : List Char) (hv : parseJValue f l = some (v, r))
    (hr : skipWsChars r = ',' :: r2) :
    parseJArrayBody (f + 1) l acc = parseJArrayBody f r2 (acc ++ [v]) := by
  rw [parseJArrayBody.eq_def]
  simp only [hv, hr]

theorem parseJObjectBody_last (f : Nat) (r r1 r2 r3 r4 : List Char)
    (acc : List (String × JValue)) (kcs : List Char) (v : JValue)
    (hk : parseJStringChars r = some (kcs, r1))
    (hc : skipWsChars r1 = ':' :: r2)
    (hv : parseJValue f r2 = some (v, r3))
    (hr : skipWsChars r3 = '}' :: r4) :
    parseJObjectBody (f + 1) ('"' :: r) acc
      = some (JValue.obj (alSet acc (String.mk kcs) v), r4) := by
  rw [parseJObjectBody.eq_def]
  simp only [hk, hc, hv, hr]

theorem parseJObjectBody_cont (f : Nat) (r r1 r2 r3 r4 : List Char)
    (acc : List (String × JValue)) (kcs : List Char) (v : JValue)
    (hk : parseJStringChars r = some (kcs, r1))
    (hc : skipWsChars r1 = ':' :: r2)
    (hv : parseJValue f r2 = some (v, r3))
    (hr : skipWsChars r3 = ',' :: r4) :
    parseJObjectBody (f + 1) ('"' :: r) acc
      = parseJObjectBody f (skipWsChars r4) (alSet acc (String.mk kcs) v) := by
  rw [parseJObjectBody.eq_def]
  simp only [hk, hc, hv, hr]

mutual

theorem print_parse : ∀ (v : JValue) (level fuel : Nat) (rest : List Char),
    JWf v → jFuel v ≤ fuel → numStopL rest →
    parseJValue fuel ((jStringify level v).data ++ rest) = some (v, rest)
  | JValue.null, _, fuel, rest, _, hfuel, _ => by
    cases fuel with
    | zero => exact absurd hfuel (by decide)
    | succ f => rfl
  | JValue.bool b, _, fuel, rest, _, hfuel, _ => by
    cases fuel with
    | zero =>
      have hj : jFuel (JValue.bool b) = 1 := rfl
      rw [hj] at hfuel
      omega
    | succ f => cases b <;> rfl
  | JValue.num lit, level, fuel, rest, hwf, hfuel, hrest => by
    cases fuel with
    | zero =>
      have hj : jFuel (JValue.num lit) = 1 := rfl
      rw [hj] at hfuel
      omega
    | succ f =>
      have hs : NumShape lit.data := hwf
      obtain ⟨c, cs, hl, hc⟩ := numShape_head lit.data hs
      have hr := numHead_route c hc
      have hdata : (jStringify level (JValue.num lit)).data ++ rest
          = c :: (cs ++ rest) := by
        show lit.data ++ rest = c :: (cs ++ rest)
        rw [hl]
        rfl
      rw [hdata, parseJValue_num_step f c (cs ++ rest) hr.1 hr.2.1 hr.2.2.1
        hr.2.2.2.1 hr.2.2.2.2.1 hr.2.2.2.2.2.1 hr.2.2.2.2.2.2.1]
      have he : c :: (cs ++ rest) = lit.data ++ rest := by
        rw [hl]
        rfl
      rw [he, parseJNumber_ext lit.data rest hs hrest]
      rfl
  | JValue.str s, level, fuel, rest, _, hfuel, _ => by
    cases fuel with
    | zero =>
      have hj : jFuel (JValue.str s) = 1 := rfl
      rw [hj] at hfuel
      omega
    | succ f =>
      have hdata : (jStringify level (JValue.str s)).data ++ rest
          = '"' :: (s.data.flatMap escChar ++ '"' :: rest) := by
        show (quoteString s).data ++ rest = _
        simp [quoteString, string_data_append]
      rw [hdata]
      have hstep : parseJValue (f + 1)
          ('"' :: (s.data.flatMap escChar ++ '"' :: rest))
          = (parseJStringChars (s.data.flatMap escChar ++ '"' :: rest)).map
              fun p => (JValue.str (String.mk p.1), p.2) := rfl
      rw [hstep, parseJStringChars_print s.data rest]
      rfl
  | JValue.arr [], _, fuel, rest, _, hfuel, _ => by
    cases fuel with
    | zero => exact absurd hfuel (by decide)
    | succ f => rfl
  | JValue.arr (e :: es), level, fuel, rest, hwf, hfuel, hrest => by
    cases fuel with
    | zero =>
      have hj : jFuel (JValue.arr (e :: es)) = 1 + jFuelList (e :: es) := rfl
      rw [hj] at hfuel
      omega
    | succ f =>
      have hj : jFuel (JValue.arr (e :: es)) = 1 + jFuelList (e :: es) := rfl
      rw [hj] at hfuel
      have hwf2 : JWf e ∧ JWfList es := hwf
      obtain ⟨c0, cs0, hc0, hc0ws, hc0br, hc0bc⟩ :=
        jStringify_head e (level + 1) hwf2.1
      have hitems : ∃ ys, itemsChars (level + 1) (e :: es) = c0 :: ys := by
        cases es with
        | nil => exact ⟨cs0, hc0⟩
        | cons w ws =>
          refine ⟨cs0 ++ ',' :: '\n'
            :: ((indentSp (level + 1)).data ++ itemsChars (level + 1) (w :: ws)),
            ?_⟩
          rw [itemsChars_cons2 (level + 1) e w ws, hc0]
          rfl
      obtain ⟨ys, hys⟩ := hitems
      have hdata : (jStringify level (JValue.arr (e :: es))).data ++ rest
          = '[' :: (('\n' :: (indentSp (level + 1)).data)
            ++ (itemsChars (level + 1) (e :: es)
              ++ ('\n' :: ((indentSp level).data ++ ']' :: rest)))) := by
        show ("[\n" ++ joinWith ",\n" (jStringifyItems (level + 1) (e :: es))
            ++ "\n" ++ indentSp level ++ "]").data ++ rest = _
        simp only [string_data_append,
          itemsChars_eq (level + 1) (e :: es) (by simp)]
        simp
      rw [hdata, parseJValue_arr_step f ('\n' :: (indentSp (level + 1)).data)
        (itemsChars (level + 1) (e :: es)
          ++ ('\n' :: ((indentSp level).data ++ ']' :: rest)))
        c0 (ys ++ ('\n' :: ((indentSp level).data ++ ']' :: rest)))
        (nlIndent_all_ws (level + 1))
        (by rw [hys]; rfl) hc0ws hc0br]
      have hres := print_parse_items (e :: es) [] level f [] rest rfl hwf
        (by omega) (by simp)
      simpa using hres
  | JValue.obj [], _, fuel, rest, _, hfuel, _ => by
    cases fuel with
    | zero => exact absurd hfuel (by decide)
    | succ f => rfl
  | JValue.obj (fd :: fs), level, fuel, rest, hwf, hfuel, hrest => by
    cases fuel with
    | zero =>
      have hj : jFuel (JValue.obj (fd :: fs)) = 1 + jFuelFields (fd :: fs) := rfl
      rw [hj] at hfuel
      omega
    | succ f =>
      have hj : jFuel (JValue.obj (fd :: fs)) = 1 + jFuelFields (fd :: fs) := rfl
      rw [hj] at hfuel
      have hwf2 : ((fd :: fs).map Prod.fst).Nodup ∧ JWfFields (fd :: fs) := hwf
      obtain ⟨cs0, hcs0⟩ := fieldsChars_head (level + 1) (fd :: fs) (by simp)
      have hdata : (jStringify level (JValue.obj (fd :: fs))).data ++ rest
          = '{' :: (('\n' :: (indentSp (level + 1)).data)
            ++ (fieldsChars (level + 1) (fd :: fs)
              ++ ('\n' :: ((indentSp level).data ++ '}' :: rest)))) := by
        show ("\x7b\n" ++ joinWith ",\n" (jStringifyFields (level + 1) (fd :: fs))
            ++ "\n" ++ indentSp level ++ "\x7d").data ++ rest = _
        simp only [string_data_append,
          fieldsChars_eq (level + 1) (fd :: fs) (by simp)]
        simp
      rw [hdata, parseJValue_obj_step f ('\n' :: (indentSp (level + 1)).data)
        (fieldsChars (level + 1) (fd :: fs)
          ++ ('\n' :: ((indentSp level).data ++ '}' :: rest)))
        '"' (cs0 ++ ('\n' :: ((indentSp level).data ++ '}' :: rest)))
        (nlIndent_all_ws (level + 1))
        (by rw [hcs0]; rfl) (by decide) (by decide)]
      have hres := print_parse_fields (fd :: fs) level f [] rest hwf2.2 hwf2.1
        (by intro key hkey; simp) (by omega) (by simp)
      simpa using hres

theorem print_parse_items : ∀ (es : List JValue) (pre : List Char)
    (level fuel : Nat) (acc : List JValue) (rest : List Char),
    pre.all isJsWhitespace = true → JWfList es → jFuelList es ≤ fuel →
    es ≠ [] →
    parseJArrayBody fuel
      (pre ++ itemsChars (level + 1) es
        ++ ('\n' :: ((indentSp level).data ++ ']' :: rest))) acc
      = some (JValue.arr (acc ++ es), rest)
  | [], _, _, _, _, _, _, _, _, hne => absurd rfl hne
  | [v], pre, level, fuel, acc, rest, hpre, hwf, hfuel, _ => by
    cases fuel with
    | zero =>
      have hj : jFuelList [v] = 1 + jFuel v + jFuelList [] := rfl
      rw [hj] at hfuel
      omega
    | succ f =>
      have hwf1 : JWf v ∧ JWfList [] := hwf
      have hj : jFuelList [v] = 1 + jFuel v + jFuelList [] := rfl
      rw [hj] at hfuel
      have hval : parseJValue f ((pre ++ itemsChars (level + 1) [v])
          ++ ('\n' :: ((indentSp level).data ++ ']' :: rest)))
          = some (v, '\n' :: ((indentSp level).data ++ ']' :: rest)) := by
        rw [List.append_assoc, parseJValue_ws f pre _ hpre]
        show parseJValue f ((jStringify (level + 1) v).data
            ++ ('\n' :: ((indentSp level).data ++ ']' :: rest))) = _
        exact print_parse v (level + 1) f _ hwf1.1 (by omega)
          (numStopL_of '\n' _ (by decide) (by decide) (by decide) (by decide))
      rw [parseJArrayBody_last f _ acc v _ rest hval
        (skipWs_nl_indent level ']' rest (by decide))]
  | v :: w :: ws, pre, level, fuel, acc, rest, hpre, hwf, hfuel, _ => by
    cases fuel with
    | zero =>
      have hj : jFuelList (v :: w :: ws) = 1 + jFuel v + jFuelList (w :: ws) := rfl
      rw [hj] at hfuel
      omega
    | succ f =>
      have hj : jFuelList (v :: w :: ws) = 1 + jFuel v + jFuelList (w :: ws) := rfl
      rw [hj] at hfuel
      have hwf2 : JWf v ∧ JWfList (w :: ws) := hwf
      have hsplit : (pre ++ itemsChars (level + 1) (v :: w :: ws))
          ++ ('\n' :: ((indentSp level).data ++ ']' :: rest))
          = pre ++ ((jStringify (level + 1) v).data
            ++ (',' :: '\n' :: ((indentSp (level + 1)).data
              ++ (itemsChars (level + 1) (w :: ws)
                ++ ('\n' :: ((indentSp level).data ++ ']' :: rest)))))) := by
        rw [itemsChars_cons2 (level + 1) v w ws]
        simp
      rw [hsplit]
      have hval : parseJValue f (pre ++ ((jStringify (level + 1) v).data
          ++ (',' :: '\n' :: ((indentSp (level + 1)).data
            ++ (itemsChars (level + 1) (w :: ws)
              ++ ('\n' :: ((indentSp level).data ++ ']' :: rest)))))))
          = some (v, ',' :: '\n' :: ((indentSp (level + 1)).data
            ++ (itemsChars (level + 1) (w :: ws)
              ++ ('\n' :: ((indentSp level).data ++ ']' :: rest))))) := by
        rw [parseJValue_ws f pre _ hpre]
        exact print_parse v (level + 1) f _ hwf2.1 (by omega)
          (numStopL_of ',' _ (by decide) (by decide) (by decide) (by decide))
      rw [parseJArrayBody_cont f _ acc v _ _ hval
        (skipWsChars_cons ',' _ (by decide))]
      have heq2 : '\n' :: ((indentSp (level + 1)).data
          ++ (itemsChars (level + 1) (w :: ws)
            ++ ('\n' :: ((indentSp level).data ++ ']' :: rest))))
          = ('\n' :: (indentSp (level + 1)).data)
            ++ itemsChars (level + 1) (w :: ws)
            ++ ('\n' :: ((indentSp level).data ++ ']' :: rest)) := by
        simp
      rw [heq2]
      rw [print_parse_items (w :: ws) ('\n' :: (indentSp (level + 1)).data)
        level f (acc ++ [v]) rest (nlIndent_all_ws (level + 1)) hwf2.2
        (by omega) (by simp)]
      simp

theorem print_parse_fields : ∀ (fs : List (String × JValue))
    (level fuel : Nat) (acc : List (String × JValue)) (rest : List Char),
    JWfFields fs → ((fs.map Prod.fst).Nodup) →
    (∀ key ∈ fs.map Prod.fst, key ∉ acc.map Prod.fst) →
    jFuelFields fs ≤ fuel → fs ≠ [] →
    parseJObjectBody fuel
      (fieldsChars (level + 1) fs
        ++ ('\n' :: ((indentSp level).data ++ '}' :: rest))) acc
      = some (JValue.obj (acc ++ fs), rest)
  | [], _, _, _, _, _, _, _, _, hne => absurd rfl hne
  | [(k, v)], level, fuel, acc, rest, hwf, hnd, hfresh, hfuel, _ => by
    cases fuel with
    | zero =>
      have hj : jFuelFields [(k, v)] = 1 + jFuel v + jFuelFields [] := rfl
      rw [hj] at hfuel
      omega
    | succ f =>
      have hwf1 : JWf v ∧ JWfFields [] := hwf
      have hj : jFuelFields [(k, v)] = 1 + jFuel v + jFuelFields [] := rfl
      rw [hj] at hfuel
      have hk : k ∉ acc.map Prod.fst := hfresh k (by simp)
      have hin : fieldsChars (level + 1) [(k, v)]
          ++ ('\n' :: ((indentSp level).data ++ '}' :: rest))
          = '"' :: (k.data.flatMap escChar
            ++ '"' :: (':' :: ' ' :: ((jStringify (level + 1) v).data
              ++ ('\n' :: ((indentSp level).data ++ '}' :: rest))))) := by
        show ((quoteString k).data
            ++ ':' :: ' ' :: (jStringify (level + 1) v).data)
            ++ ('\n' :: ((indentSp level).data ++ '}' :: rest)) = _
        simp [quoteString, string_data_append]
      rw [hin]
      have hv : parseJValue f (' ' :: ((jStringify (level + 1) v).data
          ++ ('\n' :: ((indentSp level).data ++ '}' :: rest))))
          = some (v, '\n' :: ((indentSp level).data ++ '}' :: rest)) := by
        have h1 : ' ' :: ((jStringify (level + 1) v).data
            ++ ('\n' :: ((indentSp level).data ++ '}' :: rest)))
            = ([' '] : List Char) ++ ((jStringify (level + 1) v).data
              ++ ('\n' :: ((indentSp level).data ++ '}' :: rest))) := rfl
        rw [h1, parseJValue_ws f [' '] _ (by decide)]
        exact print_parse v (level + 1) f _ hwf1.1 (by omega)
          (numStopL_of '\n' _ (by decide) (by decide) (by decide) (by decide))
      rw [parseJObjectBody_last f _ _ _ _ rest acc k.data v
        (parseJStringChars_print k.data _)
        (skipWsChars_cons ':' _ (by decide))
        hv (skipWs_nl_indent level '}' rest (by decide))]
      show some (JValue.obj (alSet acc k v), rest)
          = some (JValue.obj (acc ++ [(k, v)]), rest)
      rw [alSet_append_fresh acc k v hk]
  | (k, v) :: g :: gs, level, fuel, acc, rest, hwf, hnd, hfresh, hfuel, _ => by
    cases fuel with
    | zero =>
      have hj : jFuelFields ((k, v) :: g :: gs)
          = 1 + jFuel v + jFuelFields (g :: gs) := rfl
      rw [hj] at hfuel
      omega
    | succ f =>
      have hj : jFuelFields ((k, v) :: g :: gs)
          = 1 + jFuel v + jFuelFields (g :: gs) := rfl
      rw [hj] at hfuel
      have hwf2 : JWf v ∧ JWfFields (g :: gs) := hwf
      have hk : k ∉ acc.map Prod.fst := hfresh k (by simp)
      have hnd2 : k ∉ (g :: gs).map Prod.fst ∧ ((g :: gs).map Prod.fst).Nodup := by
        simpa using hnd
      have hin : fieldsChars (level + 1) ((k, v) :: g :: gs)
          ++ ('\n' :: ((indentSp level).data ++ '}' :: rest))
          = '"' :: (k.data.flatMap escChar
            ++ '"' :: (':' :: ' ' :: ((jStringify (level + 1) v).data
              ++ (',' :: '\n' :: ((indentSp (level + 1)).data
                ++ (fieldsChars (level + 1) (g :: gs)
                  ++ ('\n' :: ((indentSp level).data ++ '}' :: rest)))))))) := by
        rw [fieldsChars_cons2 (level + 1) k v g gs]
        simp [quoteString, string_data_append]
      rw [hin]
      have hv2 : parseJValue f (' ' :: ((jStringify (level + 1) v).data
          ++ (',' :: '\n' :: ((indentSp (level + 1)).data
            ++ (fieldsChars (level + 1) (g :: gs)
              ++ ('\n' :: ((indentSp level).data ++ '}' :: rest)))))))
          = some (v, ',' :: '\n' :: ((indentSp (level + 1)).data
            ++ (fieldsChars (level + 1) (g :: gs)
              ++ ('\n' :: ((indentSp level).data ++ '}' :: rest))))) := by
        have h1 : ' ' :: ((jStringify (level + 1) v).data
            ++ (',' :: '\n' :: ((indentSp (level + 1)).data
              ++ (fieldsChars (level + 1) (g :: gs)
                ++ ('\n' :: ((indentSp level).data ++ '}' :: rest))))))
            = ([' '] : List Char) ++ ((jStringify (level + 1) v).data
              ++ (',' :: '\n' :: ((indentSp (level + 1)).data
                ++ (fieldsChars (level + 1) (g :: gs)
                  ++ ('\n' :: ((indentSp level).data ++ '}' :: rest)))))) := rfl
        rw [h1, parseJValue_ws f [' '] _ (by decide)]
        exact print_parse v (level + 1) f _ hwf2.1 (by omega)
          (numStopL_of ',' _ (by decide) (by decide) (by decide) (by decide))
      rw [parseJObjectBody_cont f _ _ _ _ _ acc k.data v
        (parseJStringChars_print k.data _)
        (skipWsChars_cons ':' _ (by decide))
        hv2 (skipWsChars_cons ',' _ (by decide))]
      obtain ⟨cs1, hcs1⟩ := fieldsChars_head (level + 1) (g :: gs) (by simp)
      have hskipNext : skipWsChars ('\n' :: ((indentSp (level + 1)).data
          ++ (fieldsChars (level + 1) (g :: gs)
            ++ ('\n' :: ((indentSp level).data ++ '}' :: rest)))))
          = fieldsChars (level + 1) (g :: gs)
            ++ ('\n' :: ((indentSp level).data ++ '}' :: rest)) := by
        have h1 : '\n' :: ((indentSp (level + 1)).data
            ++ (fieldsChars (level + 1) (g :: gs)
              ++ ('\n' :: ((indentSp level).data ++ '}' :: rest))))
            = ('\n' :: (indentSp (level + 1)).data)
              ++ (fieldsChars (level + 1) (g :: gs)
                ++ ('\n' :: ((indentSp level).data ++ '}' :: rest))) := by
          simp
        rw [h1, skipWsChars_append _ _ (nlIndent_all_ws (level + 1))]
        apply skipWsChars_nows
        intro d hd
        rw [hcs1] at hd
        simp only [List.cons_append, List.head?_cons, Option.some.injEq] at hd
        subst hd
        decide
      rw [hskipNext]
      show parseJObjectBody f
          (fieldsChars (level + 1) (g :: gs)
            ++ ('\n' :: ((indentSp level).data ++ '}' :: rest)))
          (alSet acc k v)
          = some (JValue.obj (acc ++ ((k, v) :: g :: gs)), rest)
      rw [alSet_append_fresh acc k v hk]
      rw [print_parse_fields (g :: gs) level f (acc ++ [(k, v)]) rest
        hwf2.2 hnd2.2
        (by
          intro key hkey
          simp only [List.map_append, List.mem_append, List.map_cons,
            List.map_nil, List.mem_cons, List.not_mem_nil, or_false, not_or]
          refine ⟨hfresh key ?_, fun he => hnd2.1 (he ▸ hkey)⟩
          simp only [List.map_cons, List.mem_cons] at hkey ⊢
          exact Or.inr hkey)
        (by omega) (by simp)]
      simp

end

mutual

theorem jFuel_le : ∀ (v : JValue) (level : Nat),
    jFuel v ≤ (jStringify level v).data.length + 1
  | JValue.null, level => by
    have hj : jFuel JValue.null = 1 := rfl
    rw [hj]
    omega
  | JValue.bool b, level => by
    have hj : jFuel (JValue.bool b) = 1 := rfl
    rw [hj]
    omega
  | JValue.num lit, level => by
    have hj : jFuel (JValue.num lit) = 1 := rfl
    rw [hj]
    omega
  | JValue.str s, level => by
    have hj : jFuel (JValue.str s) = 1 := rfl
    rw [hj]
    omega
  | JValue.arr [], level => by
    have hj : jFuel (JValue.arr []) = 1 := rfl
    rw [hj]
    omega
  | JValue.arr (e :: es), level => by
    have h2 := jFuelList_le (e :: es) (level + 1) (by simp)
    have hj : jFuel (JValue.arr (e :: es)) = 1 + jFuelList (e :: es) := rfl
    have hdata : (jStringify level (JValue.arr (e :: es))).data
        = '[' :: '\n' :: (((indentSp (level + 1)).data
            ++ itemsChars (level + 1) (e :: es))
          ++ ('\n' :: ((indentSp level).data ++ [']']))) := by
      show ("[\n" ++ joinWith ",\n" (jStringifyItems (level + 1) (e :: es))
          ++ "\n" ++ indentSp level ++ "]").data = _
      simp only [string_data_append,
        itemsChars_eq (level + 1) (e :: es) (by simp)]
      simp
    rw [hj, hdata]
    simp only [List.length_cons, List.length_append]
    omega
  | JValue.obj [], level => by
    have hj : jFuel (JValue.obj []) = 1 := rfl
    rw [hj]
    omega
  | JValue.obj (fd :: fs), level => by
    have h2 := jFuelFields_le (fd :: fs) (level + 1) (by simp)
    have hj : jFuel (JValue.obj (fd :: fs)) = 1 + jFuelFields (fd :: fs) := rfl
    have hdata : (jStringify level (JValue.obj (fd :: fs))).data
        = '{' :: '\n' :: (((indentSp (level + 1)).data
            ++ fieldsChars (level + 1) (fd :: fs))
          ++ ('\n' :: ((indentSp level).data ++ ['}']))) := by
      show ("\x7b\n" ++ joinWith ",\n" (jStringifyFields (level + 1) (fd :: fs))
          ++ "\n" ++ indentSp level ++ "\x7d").data = _
      simp only [string_data_append,
        fieldsChars_eq (level + 1) (fd :: fs) (by simp)]
      simp
    rw [hj, hdata]
    simp only [List.length_cons, List.length_append]
    omega

theorem jFuelList_le : ∀ (es : List JValue) (level : Nat), es ≠ [] →
    jFuelList es ≤ (itemsChars level es).length + 2
  | [], _, hne => absurd rfl hne
  | [v], level, _ => by
    have h1 := jFuel_le v level
    have hj : jFuelList [v] = 1 + jFuel v + jFuelList [] := rfl
    have hj0 : jFuelList ([] : List JValue) = 0 := rfl
    have hl : itemsChars level [v] = (jStringify level v).data := rfl
    rw [hj, hj0, hl]
    omega
  | v :: w :: ws, level, _ => by
    have h1 := jFuel_le v level
    have h2 := jFuelList_le (w :: ws) level (by simp)
    have hj : jFuelList (v :: w :: ws) = 1 + jFuel v + jFuelList (w :: ws) := rfl
    rw [hj, itemsChars_cons2 level v w ws]
    simp only [List.length_append, List.length_cons]
    omega

theorem jFuelFields_le : ∀ (fs : List (String × JValue)) (level : Nat),
    fs ≠ [] → jFuelFields fs ≤ (fieldsChars level fs).length + 2
  | [], _, hne => absurd rfl hne
  | [(k, v)], level, _ => by
    have h1 := jFuel_le v level
    have hj : jFuelFields [(k, v)] = 1 + jFuel v + jFuelFields [] := rfl
    have hj0 : jFuelFields ([] : List (String × JValue)) = 0 := rfl
    have hl : fieldsChars level [(k, v)]
        = (quoteString k).data ++ ':' :: ' ' :: (jStringify level v).data := rfl
    rw [hj, hj0, hl]
    simp only [List.length_append, List.length_cons]
    omega
  | (k, v) :: g :: gs, level, _ => by
    have h1 := jFuel_le v level
    have h2 := jFuelFields_le (g :: gs) level (by simp)
    have hj : jFuelFields ((k, v) :: g :: gs)
        = 1 + jFuel v + jFuelFields (g :: gs) := rfl
    rw [hj, fieldsChars_cons2 level k v g gs]
    simp only [List.length_append, List.length_cons]
    omega

end

theorem jsonParse_print (v : JValue) (h : JWf v) :
    jsonParse (jStringify 0 v) = some v := by
  have hb : jFuel v ≤ 2 * (jStringify 0 v).data.length + 2 := by
    have := jFuel_le v 0
    omega
  have hp := print_parse v 0 (2 * (jStringify 0 v).data.length + 2) [] h hb
    numStopL_nil
  rw [List.append_nil] at hp
  unfold jsonParse
  rw [hp]
  rfl

/-! #### Parsed JSON values are well-formed -/

theorem takeWhile_all {p : Char → Bool} (l : List Char) :
    (l.takeWhile p).all p = true := by
  induction l with
  | nil => rfl
  | cons c cs ih =>
    by_cases hc : p c
    · simp [List.takeWhile_cons, hc, ih]
    · simp [List.takeWhile_cons, hc]

theorem parseIntPart_shape (l ip r : List Char)
    (h : parseIntPart l = some (ip, r)) : intPartShape ip = true := by
  cases l with
  | nil => simp [parseIntPart] at h
  | cons c r0 =>
    by_cases hc : c = '0'
    · subst hc
      simp only [parseIntPart, if_pos] at h
      simp only [Option.some.injEq, Prod.mk.injEq] at h
      rw [← h.1]
      rfl
    · by_cases hd : isDigitCh c = true
      · simp only [parseIntPart, if_neg hc, hd, if_pos] at h
        simp only [Option.some.injEq, Prod.mk.injEq] at h
        rw [← h.1]
        simp [intPartShape, hc, hd, List.span_eq_take_drop, takeWhile_all]
      · simp [parseIntPart, hc, hd] at h

theorem parseFracPart_shape (l fp r : List Char)
    (h : parseFracPart l = some (fp, r)) : fracPartShape fp = true := by
  cases l with
  | nil =>
    simp only [parseFracPart, Option.some.injEq, Prod.mk.injEq] at h
    rw [← h.1]
    rfl
  | cons c r0 =>
    by_cases hc : c = '.'
    · subst hc
      simp only [parseFracPart, if_pos] at h
      rw [List.span_eq_take_drop] at h
      cases htake : r0.takeWhile isDigitCh with
      | nil => rw [htake] at h; simp at h
      | cons d ds =>
        rw [htake] at h
        simp only [Option.some.injEq, Prod.mk.injEq] at h
        rw [← h.1]
        have hall : (d :: ds).all isDigitCh = true := by
          rw [← htake]
          exact takeWhile_all r0
        simp [fracPartShape, hall]
    · simp only [parseFracPart, if_neg hc, Option.some.injEq,
        Prod.mk.injEq] at h
      rw [← h.1]
      rfl

theorem parseExpPart_shape (l ep r : List Char)
    (h : parseExpPart l = some (ep, r)) : expPartShape ep = true := by
  cases l with
  | nil =>
    simp only [parseExpPart, Option.some.injEq, Prod.mk.injEq] at h
    rw [← h.1]
    rfl
  | cons c r0 =>
    by_cases hc : c = 'e' ∨ c = 'E'
    · simp only [parseExpPart, if_pos hc] at h
      cases r0 with
      | nil => simp at h
      | cons s r1 =>
        by_cases hs : s = '+' ∨ s = '-'
        · simp only [if_pos hs] at h
          rw [List.span_eq_take_drop] at h
          cases htake : r1.takeWhile isDigitCh with
          | nil => rw [htake] at h; simp at h
          | cons d ds =>
            rw [htake] at h
            simp only [Option.some.injEq, Prod.mk.injEq] at h
            rw [← h.1]
            have hall : (d :: ds).all isDigitCh = true := by
              rw [← htake]
              exact takeWhile_all r1
            have hne : (d :: ds) ≠ [] := by simp
            rcases hc with h2 | h2 <;> subst h2 <;>
              simp [expPartShape, expTailShape, hs, hall]
        · simp only [if_neg hs] at h
          rw [List.span_eq_take_drop] at h
          cases htake : (s :: r1).takeWhile isDigitCh with
          | nil => rw [htake] at h; simp at h
          | cons d ds =>
            rw [htake] at h
            simp only [Option.some.injEq, Prod.mk.injEq] at h
            rw [← h.1]
            have hall : (d :: ds).all isDigitCh = true := by
              rw [← htake]
              exact takeWhile_all (s :: r1)
            have hd : isDigitCh d = true := by
              have h3 := hall
              simp only [List.all_cons, Bool.and_eq_true] at h3
              exact h3.1
            have hdpm : ¬ (d = '+' ∨ d = '-') := by
              rintro (h1 | h1) <;> rw [h1] at hd <;> exact absurd hd (by decide)
            rcases hc with h2 | h2 <;> subst h2 <;>
              simp [expPartShape, expTailShape, hdpm, hall]
    · simp only [parseExpPart, if_neg hc, Option.some.injEq,
        Prod.mk.injEq] at h
      rw [← h.1]
      rfl

theorem parseJNumber_shape (l p1 p2 : List Char)
    (h : parseJNumber l = some (p1, p2)) : NumShape p1 := by
  have hsp : ∃ sg r0, (sg = [] ∨ sg = ['-'])
      ∧ (match l with
         | c :: r => if c = '-' then (([c] : List Char), r) else ([], l)
         | [] => (([] : List Char), l)) = (sg, r0) := by
    cases l with
    | nil => exact ⟨[], [], Or.inl rfl, rfl⟩
    | cons c r =>
      by_cases hc : c = '-'
      · subst hc
        exact ⟨['-'], r, Or.inr rfl, by simp⟩
      · exact ⟨[], c :: r, Or.inl rfl, by simp [hc]⟩
  obtain ⟨sg, r0, hsg, hmatch⟩ := hsp
  unfold parseJNumber at h
  rw [hmatch] at h
  simp only at h
  rcases hint : parseIntPart r0 with _ | ⟨ip, l2⟩
  · simp [hint] at h
  · rcases hfrac : parseFracPart l2 with _ | ⟨fp, l3⟩
    · simp [hint, hfrac] at h
    · rcases hexp : parseExpPart l3 with _ | ⟨ep, l4⟩
      · simp [hint, hfrac, hexp] at h
      · simp only [hint, hfrac, hexp, Option.some.injEq, Prod.mk.injEq] at h
        refine ⟨sg, ip, fp, ep, ?_, hsg,
          parseIntPart_shape r0 ip l2 hint,
          parseFracPart_shape l2 fp l3 hfrac,
          parseExpPart_shape l3 ep l4 hexp⟩
        rw [← h.1]

theorem JWfList_append (acc : List JValue) (v : JValue)
    (h1 : JWfList acc) (h2 : JWf v) : JWfList (acc ++ [v]) := by
  induction acc with
  | nil => exact ⟨h2, trivial⟩
  | cons x xs ih =>
    have h3 : JWf x ∧ JWfList xs := h1
    exact ⟨h3.1, ih h3.2⟩

theorem JWfFields_alSet (acc : List (String × JValue)) (k : String)
    (v : JValue) (h1 : JWfFields acc) (h2 : JWf v) :
    JWfFields (alSet acc k v) := by
  induction acc with
  | nil => exact ⟨h2, trivial⟩
  | cons x xs ih =>
    obtain ⟨xk, xv⟩ := x
    have h3 : JWf xv ∧ JWfFields xs := h1
    by_cases hk : xk = k
    · subst hk
      show JWfFields (if xk = xk then (xk, v) :: xs else (xk, xv) :: alSet xs xk v)
      rw [if_pos rfl]
      exact ⟨h2, h3.2⟩
    · show JWfFields (if xk = k then (k, v) :: xs else (xk, xv) :: alSet xs k v)
      rw [if_neg hk]
      exact ⟨h3.1, ih h3.2⟩

mutual

theorem parse_wf : ∀ (fuel : Nat) (l : List Char) (v : JValue) (r : List Char),
    parseJValue fuel l = some (v, r) → JWf v
  | 0, l, v, r, h => by
    rw [parseJValue.eq_def] at h
    exact absurd h (by simp)
  | Nat.succ fuel, l, v, r, h => by
    rw [parseJValue.eq_def] at h
    simp only at h
    split at h
    · exact absurd h (by simp)
    · rename_i c rest heq9
      split at h
      · split at h
        · simp only [Option.some.injEq, Prod.mk.injEq] at h
          rw [← h.1]
          exact ⟨List.nodup_nil, trivial⟩
        · exact parseObj_wf fuel _ [] v r h ⟨List.nodup_nil, trivial⟩
      · split at h
        · split at h
          · simp only [Option.some.injEq, Prod.mk.injEq] at h
            rw [← h.1]
            exact trivial
          · exact parseArr_wf fuel _ [] v r h trivial
        · split at h
          · rcases hps : parseJStringChars rest with _ | ⟨p1, p2⟩
            · rw [hps] at h
              simp at h
            · rw [hps] at h
              simp only [Option.map_some', Option.some.injEq,
                Prod.mk.injEq] at h
              rw [← h.1]
              exact trivial
          · split at h
            · split at h
              · simp only [Option.some.injEq, Prod.mk.injEq] at h
                rw [← h.1]
                exact trivial
              · exact absurd h (by simp)
            · split at h
              · split at h
                · simp only [Option.some.injEq, Prod.mk.injEq] at h
                  rw [← h.1]
                  exact trivial
                · exact absurd h (by simp)
              · split at h
                · split at h
                  · simp only [Option.some.injEq, Prod.mk.injEq] at h
                    rw [← h.1]
                    exact trivial
                  · exact absurd h (by simp)
                · rcases hpn : parseJNumber (c :: rest) with _ | ⟨p1, p2⟩
                  · rw [hpn] at h
                    simp at h
                  · rw [hpn] at h
                    simp only [Option.map_some', Option.some.injEq,
                      Prod.mk.injEq] at h
                    rw [← h.1]
                    exact parseJNumber_shape (c :: rest) p1 p2 hpn

theorem parseArr_wf : ∀ (fuel : Nat) (l : List Char) (acc : List JValue)
    (v : JValue) (r : List Char),
    parseJArrayBody fuel l acc = some (v, r) → JWfList acc → JWf v
  | 0, l, acc, v, r, h, hacc => by
    rw [parseJArrayBody.eq_def] at h
    exact absurd h (by simp)
  | Nat.succ fuel, l, acc, v, r, h, hacc => by
    rw [parseJArrayBody.eq_def] at h
    simp only at h
    rcases hpv : parseJValue fuel l with _ | ⟨v0, r0⟩
    · simp [hpv] at h
    · simp only [hpv] at h
      have hwf0 : JWf v0 := parse_wf fuel l v0 r0 hpv
      split at h
      · exact parseArr_wf fuel _ (acc ++ [v0]) v r h
          (JWfList_append acc v0 hacc hwf0)
      · simp only [Option.some.injEq, Prod.mk.injEq] at h
        rw [← h.1]
        exact JWfList_append acc v0 hacc hwf0
      · exact absurd h (by simp)

theorem parseObj_wf : ∀ (fuel : Nat) (l : List Char)
    (acc : List (String × JValue)) (v : JValue) (r : List Char),
    parseJObjectBody fuel l acc = some (v, r) →
    (acc.map Prod.fst).Nodup ∧ JWfFields acc → JWf v
  | 0, l, acc, v, r, h, hacc => by
    rw [parseJObjectBody.eq_def] at h
    exact absurd h (by simp)
  | Nat.succ fuel, l, acc, v, r, h, hacc => by
    rw [parseJObjectBody.eq_def] at h
    simp only at h
    split at h
    · rename_i r0
      rcases hk : parseJStringChars r0 with _ | ⟨kcs, r1⟩
      · simp [hk] at h
      · simp only [hk] at h
        split at h
        · rename_i r2 heq7
          rcases hv0 : parseJValue fuel r2 with _ | ⟨v0, r3⟩
          · simp [hv0] at h
          · simp only [hv0] at h
            have hwf0 : JWf v0 := parse_wf fuel _ v0 r3 hv0
            split at h
            · exact parseObj_wf fuel _ (alSet acc (String.mk kcs) v0) v r h
                ⟨alSet_keys_nodup acc (String.mk kcs) v0 hacc.1,
                 JWfFields_alSet acc (String.mk kcs) v0 hacc.2 hwf0⟩
            · simp only [Option.some.injEq, Prod.mk.injEq] at h
              rw [← h.1]
              exact ⟨alSet_keys_nodup acc (String.mk kcs) v0 hacc.1,
                JWfFields_alSet acc (String.mk kcs) v0 hacc.2 hwf0⟩
            · exact absurd h (by simp)
        · exact absurd h (by simp)
    · exact absurd h (by simp)

end

theorem jsonParse_wf (text : String) (c : JValue)
    (h : jsonParse text = some c) : JWf c := by
  unfold jsonParse at h
  rcases hp : parseJValue (2 * text.data.length + 2) text.data with _ | ⟨v, rest⟩
  · rw [hp] at h
    simp at h
  · simp only [hp] at h
    by_cases hr : skipWsChars rest = []
    · rw [if_pos hr] at h
      simp only [Option.some.injEq] at h
      rw [← h]
      exact parse_wf _ _ v rest hp
    · rw [if_neg hr] at h
      simp at h

theorem strTrim_ne_empty (s : String) (c0 : Char) (cs : List Char)
    (hd : s.data = c0 :: cs) (hws : isJsWhitespace c0 = false) :
    strTrim s ≠ "" := by
  intro he
  have h1 : (((s.data.dropWhile isJsWhitespace).reverse.dropWhile
      isJsWhitespace).reverse) = [] := by
    have h2 : (strTrim s).data = [] := by rw [he]
    simpa [strTrim] using h2
  rw [hd, List.dropWhile_cons, hws] at h1
  simp only [Bool.false_eq_true, if_false, List.reverse_eq_nil_iff] at h1
  have h3 : ∀ x ∈ (c0 :: cs).reverse, isJsWhitespace x = true :=
    List.dropWhile_eq_nil_iff.mp h1
  have h4 : isJsWhitespace c0 = true := h3 c0 (by simp)
  rw [hws] at h4
  simp at h4

theorem parseJsonWC_roundtrip (text : String) (c : JValue)
    (hparse : parseJsonWithComments text = some c)
    (hstrip : stripJsonComments (jStringify 0 c) = jStringify 0 c) :
    parseJsonWithComments (jStringify 0 c) = some c := by
  have hwf : JWf c := by
    unfold parseJsonWithComments at hparse
    exact jsonParse_wf _ c hparse
  unfold parseJsonWithComments
  rw [hstrip]
  exact jsonParse_print c hwf

/-! #### TOML well-formedness and round-trip -/

mutual

/-- Values that survive a TOML serialize-parse cycle at top level. -/
def tomlValWf : JValue → Prop
  | JValue.str s => '\n' ∉ s.data
  | JValue.num lit => decimalLit lit = true
  | JValue.bool _ => True
  | JValue.arr es => es ≠ [] ∧ tomlElemsWf es
  | _ => False

/-- Well-formedness of the elements of a TOML array. -/
def tomlElemsWf : List JValue → Prop
  | [] => True
  | e :: es => tomlElemWf e ∧ tomlElemsWf es

/-- Values that survive inside a TOML array (comma-splitting position). -/
def tomlElemWf : JValue → Prop
  | JValue.str s => '\n' ∉ s.data ∧ ',' ∉ s.data
  | JValue.num lit => decimalLit lit = true
  | JValue.bool _ => True
  | JValue.arr es => es.length = 1 ∧ tomlElemsWf es
  | _ => False

end

mutual

/-- Nesting depth of a TOML value (fuel needed by `parseTomlValue`). -/
def tomlDepth : JValue → Nat
  | JValue.arr es => 1 + tomlDepthList es
  | _ => 0

/-- Maximum nesting depth of array elements. -/
def tomlDepthList : List JValue → Nat
  | [] => 0
  | e :: es => max (tomlDepth e) (tomlDepthList es)

end

theorem tomlElemsWf_of_forall (es : List JValue)
    (h : ∀ e ∈ es, tomlElemWf e) : tomlElemsWf es := by
  induction es with
  | nil => trivial
  | cons e es0 ih =>
    exact ⟨h e (by simp), ih fun x hx => h x (by simp [hx])⟩

theorem tomlElemsWf_forall (es : List JValue) (h : tomlElemsWf es) :
    ∀ e ∈ es, tomlElemWf e := by
  induction es with
  | nil => simp
  | cons e es0 ih =>
    have h2 : tomlElemWf e ∧ tomlElemsWf es0 := h
    intro x hx
    rcases List.mem_cons.mp hx with h3 | h3
    · rw [h3]; exact h2.1
    · exact ih h2.2 x h3

theorem mem_strTrim (s : String) (c : Char) (h : c ∈ (strTrim s).data) :
    c ∈ s.data := by
  simp only [strTrim] at h
  have h1 := List.mem_reverse.mp h
  have h2 := List.dropWhile_subset _ h1
  have h3 := List.mem_reverse.mp h2
  exact List.dropWhile_subset _ h3

theorem mem_sliceDrop (s : String) (c : Char) (h : c ∈ (sliceDrop s).data) :
    c ∈ s.data := by
  simp only [sliceDrop] at h
  have h1 := List.dropLast_subset _ h
  exact List.mem_of_mem_drop h1

theorem splitOnChar_subset (sep : Char) (l : List Char) :
    ∀ piece ∈ splitOnChar sep l, ∀ c ∈ piece, c ∈ l := by
  induction l with
  | nil =>
    intro piece hp c hc
    simp [splitOnChar] at hp
    rw [hp] at hc
    simp at hc
  | cons x xs ih =>
    intro piece hp c hc
    by_cases hx : x = sep
    · simp [splitOnChar, hx] at hp
      rcases hp with h | h
      · rw [h] at hc; simp at hc
      · exact List.mem_cons_of_mem x (ih piece (hx ▸ h) c hc)
    · rcases hr : splitOnChar sep xs with _ | ⟨h0, t⟩
      · exact absurd hr (splitOnChar_ne_nil sep xs)
      · simp [splitOnChar, hx, hr] at hp
        rcases hp with h | h
        · rw [h] at hc
          rcases List.mem_cons.mp hc with h1 | h1
          · simp [h1]
          · exact List.mem_cons_of_mem x (ih h0 (by simp [hr]) c h1)
        · exact List.mem_cons_of_mem x (ih piece (by simp [hr, h]) c hc)

theorem strTrim_eq_self (s : String)
    (h1 : ∀ c, s.data.head? = some c → isJsWhitespace c = false)
    (h2 : ∀ c, s.data.getLast? = some c → isJsWhitespace c = false) :
    strTrim s = s := by
  cases hd : s.data with
  | nil =>
    cases s with
    | mk l =>
      simp only at hd
      subst hd
      rfl
  | cons c0 cs =>
    have hws0 : isJsWhitespace c0 = false := h1 c0 (by rw [hd]; rfl)
    have hdrop : s.data.dropWhile isJsWhitespace = s.data := by
      rw [hd, List.dropWhile_cons, hws0]
      simp
    have hrev : (s.data.reverse).dropWhile isJsWhitespace = s.data.reverse := by
      cases hr : s.data.reverse with
      | nil => rfl
      | cons d ds =>
        have hlast : s.data.getLast? = some d := by
          rw [← List.head?_reverse, hr]
          rfl
        have hwsd : isJsWhitespace d = false := h2 d hlast
        rw [List.dropWhile_cons, hwsd]
        simp
    show String.mk (((s.data.dropWhile isJsWhitespace).reverse.dropWhile
        isJsWhitespace).reverse) = s
    rw [hdrop, hrev, List.reverse_reverse]

theorem all_getLast {p : Char → Bool} (l : List Char) (hne : l ≠ [])
    (hall : l.all p = true) : ∃ d, l.getLast? = some d ∧ p d = true := by
  cases hg : l.getLast? with
  | none => exact absurd (List.getLast?_eq_none.mp hg) hne
  | some d =>
    refine ⟨d, rfl, ?_⟩
    have hmem : d ∈ l := by
      have hx : d ∈ l.getLast? := by rw [hg]; rfl
      obtain ⟨hne2, hx2⟩ := List.mem_getLast?_eq_getLast hx
      rw [hx2]
      exact List.getLast_mem hne2
    exact (List.all_eq_true.mp hall) d hmem

theorem decimalLit_parts (s : String) (h : decimalLit s = true) :
    ∃ sg ds tail, s.data = sg ++ ds ++ tail ∧ (sg = [] ∨ sg = ['-']) ∧
      ds ≠ [] ∧ ds.all isDigitCh = true ∧
      (tail = [] ∨ ∃ r2, tail = '.' :: r2 ∧ r2 ≠ [] ∧
        r2.all isDigitCh = true) := by
  have hl : ∃ sg l, (sg = [] ∨ sg = ['-']) ∧ s.data = sg ++ l ∧
      (match s.data with | '-' :: r => r | l => l) = l := by
    cases hd : s.data with
    | nil => exact ⟨[], [], Or.inl rfl, by simp, rfl⟩
    | cons c cs =>
      by_cases hc : c = '-'
      · subst hc
        exact ⟨['-'], cs, Or.inr rfl, by simp, rfl⟩
      · refine ⟨[], c :: cs, Or.inl rfl, by simp, ?_⟩
        split
        next heq =>
          injection heq with h1 h2
          exact absurd h1 hc
        next => rfl
  obtain ⟨sg, l, hsg, hdecomp, hmatch⟩ := hl
  unfold decimalLit at h
  rw [hmatch] at h
  simp only at h
  rcases hspan : l.span isDigitCh with ⟨ds, rest⟩
  have hspan2 := hspan
  rw [List.span_eq_take_drop] at hspan2
  have hds : ds = l.takeWhile isDigitCh := by
    have := congrArg Prod.fst hspan2
    simp at this
    exact this.symm
  have hrest : rest = l.dropWhile isDigitCh := by
    have := congrArg Prod.snd hspan2
    simp at this
    exact this.symm
  have hl_eq : l = ds ++ rest := by
    rw [hds, hrest, List.takeWhile_append_dropWhile]
  have hds_all : ds.all isDigitCh = true := by
    rw [hds]
    exact takeWhile_all l
  rw [hspan] at h
  cases ds with
  | nil => simp at h
  | cons d0 ds0 =>
    cases rest with
    | nil =>
      exact ⟨sg, d0 :: ds0, [], by rw [hdecomp, hl_eq]; simp, hsg, by simp,
        hds_all, Or.inl rfl⟩
    | cons r0 r2 =>
      by_cases hr0 : r0 = '.'
      · subst hr0
        simp only [Bool.and_eq_true, decide_eq_true_eq] at h
        exact ⟨sg, d0 :: ds0, '.' :: r2, by rw [hdecomp, hl_eq]; simp, hsg,
          by simp, hds_all, Or.inr ⟨r2, rfl, h.1, h.2⟩⟩
      · exfalso
        clear hmatch hdecomp hds hrest hspan hspan2 hl_eq hds_all hsg
        split at h <;> simp_all

theorem decimalLit_head (s : String) (h : decimalLit s = true) :
    ∃ c0 cs, s.data = c0 :: cs ∧ (c0 = '-' ∨ isDigitCh c0 = true) := by
  obtain ⟨sg, ds, tail, hdec, hsg, hne, hall, _⟩ := decimalLit_parts s h
  cases ds with
  | nil => exact absurd rfl hne
  | cons d0 ds0 =>
    have hd0 : isDigitCh d0 = true := by
      simp only [List.all_cons, Bool.and_eq_true] at hall
      exact hall.1
    rcases hsg with h1 | h1
    · subst h1
      exact ⟨d0, ds0 ++ tail, by simpa using hdec, Or.inr hd0⟩
    · subst h1
      exact ⟨'-', d0 :: ds0 ++ tail, by simpa using hdec, Or.inl rfl⟩

theorem decimalLit_last (s : String) (h : decimalLit s = true) :
    ∃ d, s.data.getLast? = some d ∧ isDigitCh d = true := by
  obtain ⟨sg, ds, tail, hdec, hsg, hne, hall, htail⟩ := decimalLit_parts s h
  rcases htail with h1 | ⟨r2, h1, hr2ne, hr2all⟩
  · subst h1
    obtain ⟨d, hd1, hd2⟩ := all_getLast ds hne hall
    refine ⟨d, ?_, hd2⟩
    rw [hdec]
    rw [List.append_nil, List.getLast?_append_of_ne_nil sg hne]
    exact hd1
  · subst h1
    obtain ⟨d, hd1, hd2⟩ := all_getLast r2 hr2ne hr2all
    refine ⟨d, ?_, hd2⟩
    have hdec2 : s.data = (sg ++ ds) ++ '.' :: r2 := by
      rw [hdec, List.append_assoc]
    rw [hdec2, List.getLast?_append_cons]
    cases r2 with
    | nil => exact absurd rfl hr2ne
    | cons a as =>
      rw [List.getLast?_cons_cons]
      exact hd1

theorem decimalLit_chars (s : String) (h : decimalLit s = true) :
    ∀ c ∈ s.data, c = '-' ∨ c = '.' ∨ isDigitCh c = true := by
  obtain ⟨sg, ds, tail, hdec, hsg, _, hall, htail⟩ := decimalLit_parts s h
  intro c hc
  rw [hdec] at hc
  rcases List.mem_append.mp hc with h1 | h1
  · rcases List.mem_append.mp h1 with h2 | h2
    · rcases hsg with h3 | h3 <;> rw [h3] at h2
      · simp at h2
      · simp at h2
        exact Or.inl h2
    · exact Or.inr (Or.inr ((List.all_eq_true.mp hall) c h2))
  · rcases htail with h2 | ⟨r2, h2, _, hr2all⟩ <;> rw [h2] at h1
    · simp at h1
    · rcases List.mem_cons.mp h1 with h3 | h3
      · exact Or.inr (Or.inl h3)
      · exact Or.inr (Or.inr ((List.all_eq_true.mp hr2all) c h3))

/-! ## Apply engine (`src/utils/apply.ts` with helpers from `src/utils/fs.ts`)

The apply engine executes a sync plan against the filesystem.  The filesystem
is modelled as an insertion-ordered association list from absolute paths to
nodes (regular files with string contents, or symbolic links).
`transformContentForClient` (a pure function of content, target client and
asset type, from `frontmatter.ts`) and `hashContent` (a pure sha1 digest of
the content string, from `fs.ts`) are taken as function parameters `tcf` and
`hashC`: the claims under study hold for every choice of these pure functions.

Filesystem calls can fail at the whim of the operating system; this
nondeterminism is captured by an oracle environment `ApplyEnv`, consulted at
each write (`writeRes`, indexed by the plan-entry counter: `none` models
`fs.writeFile` / `fs.symlink` throwing, `some none` a faithful write, and
`some (some s)` a write whose on-disk content reads back as `s` — e.g.
concurrent external modification between the write and the post-write
verification) and at each restore attempt (`restoreOk`, indexed by the
restore-call counter: `false` models `fs.copyFile` failing inside
`restoreBackup`).

`RunState` carries, besides the filesystem and the source's `ApplyResult`
record, the source's local variables (`appliedChanges`, the entry counter)
and two ghost instrumentation fields used only to state theorems: `writes`
counts filesystem mutations (writes and copies) and `restores` records the
target paths passed to `restoreBackup` in call order. -/

/-- A filesystem node: a regular file or a symbolic link. -/
inductive FsNode where
  | file (content : String)
  | link (target : String)
deriving DecidableEq, Repr

/-- The filesystem: an association list from paths to nodes. -/
abbrev Fs : Type := List (String × FsNode)

/-- Resolve a path to a file content, following one level of symbolic link
(the behaviour of `fs.readFile` and of `fs.access` + `fs.copyFile`; deeper
link chains do not arise in the modelled scenarios). -/
def fsResolve (fs : Fs) (p : String) : Option String :=
  match alGet fs p with
  | some (FsNode.file c) => some c
  | some (FsNode.link t) =>
    match alGet fs t with
    | some (FsNode.file c) => some c
    | _ => none
  | none => none

/-- Source `readFileSafe`: the file content, or `null` on any error. -/
def readFileSafe (fs : Fs) (p : String) : Option String := fsResolve fs p

/-- Source `getSymlinkTarget`: `fs.readlink`, or `null` if not a symlink. -/
def getSymlinkTarget (fs : Fs) (p : String) : Option String :=
  match alGet fs p with
  | some (FsNode.link t) => some t
  | _ => none

/-- Source `createSymlink`: remove any existing node at `linkPath` and create
a symlink to `target` (modelled by overwriting the association). -/
def createSymlink (fs : Fs) (target linkPath : String) : Fs :=
  alSet fs linkPath (FsNode.link target)

/-- Source `createBackup`: if `filePath` exists, copy it to `filePath ++
".bak"` and return the backup path, else return `null`. -/
def createBackup (fs : Fs) (filePath : String) : Fs × Option String :=
  match fsResolve fs filePath with
  | some c => (alSet fs (filePath ++ ".bak") (FsNode.file c), some (filePath ++ ".bak"))
  | none => (fs, none)

/-- Source `restoreBackup`: copy `backupPath` over `targetPath`, returning
`true` on success; `ok` is the oracle verdict for this `fs.copyFile` call. -/
def restoreBackup (ok : Bool) (fs : Fs) (backupPath targetPath : String) :
    Fs × Bool :=
  match fsResolve fs backupPath with
  | some c => if ok then (alSet fs targetPath (FsNode.file c), true) else (fs, false)
  | none => (fs, false)

/-- Source `verifyFileHash`: read the file and compare content hashes. -/
def verifyFileHash (hashC : String → String) (fs : Fs)
    (filePath expectedContent : String) : Bool :=
  match fsResolve fs filePath with
  | some c => hashC c = hashC expectedContent
  | none => false

/-- Oracle environment for the IO performed by one `applyPlan` run. -/
structure ApplyEnv where
  writeRes : Nat → Option (Option String)
  restoreOk : Nat → Bool

/-- Source `ApplyResult`. -/
structure ApplyResult where
  applied : Nat := 0
  skipped : Nat := 0
  failed : Nat := 0
  backups : List String := []
  errors : List String := []
  rolledBack : Bool := false
deriving DecidableEq, Repr

/-- Source `AppliedChange`. -/
structure AppliedChange where
  targetPath : String
  backupPath : Option String
deriving DecidableEq, Repr

/-- The full state of one `applyPlan` run: the filesystem, the `result`
record, the source's local variables, and the two ghost fields. -/
structure RunState where
  fs : Fs
  result : ApplyResult := {}
  appliedChanges : List AppliedChange := []
  idx : Nat := 0
  writes : Nat := 0
  restores : List String := []
deriving DecidableEq, Repr

/-- The loop body of source `rollbackChanges` (already reversed by the
caller); `k` counts the `restoreBackup` calls made so far, indexing the
`restoreOk` oracle. -/
def rollbackGo (env : ApplyEnv) : Nat → List AppliedChange → RunState → RunState
  | _, [], st => st
  | k, ch :: rest, st =>
    match ch.backupPath with
    | some bp =>
      let r := restoreBackup (env.restoreOk k) st.fs bp ch.targetPath
      let st2 : RunState :=
        if r.2 then
          { st with
            fs := r.1,
            writes := st.writes + 1,
            restores := st.restores ++ [ch.targetPath] }
        else
          { st with
            restores := st.restores ++ [ch.targetPath],
            result := { st.result with
              errors := st.result.errors ++ ["Failed to restore " ++ ch.targetPath] } }
      rollbackGo env (k + 1) rest st2
    | none => rollbackGo env k rest st

/-- Source `rollbackChanges`: nothing to do for an empty change list
(note: `rolledBack` is then left `false`); otherwise restore the changes in
reverse order of application and set `rolledBack`. -/
def rollbackChanges (env : ApplyEnv) (changes : List AppliedChange)
    (st : RunState) : RunState :=
  if changes.isEmpty then st
  else
    let st2 := rollbackGo env 0 changes.reverse st
    { st2 with result := { st2.result with rolledBack := true } }

/-- The entry loop of source `applyPlan` (the primary implementation, the one
with rollback).  Console logging is not modelled; `useSymlinks` and `dryRun`
are the source's local booleans.  The two failure arms return the
post-rollback state without recursing, modelling the source's early
`return result`. -/
def applyGo (tcf : String → String → String → String) (hashC : String → String)
    (env : ApplyEnv) (useSymlinks dryRun : Bool) :
    List SyncPlanEntry → RunState → RunState
  | [], st => st
  | e :: rest, st =>
    if e.action = "skip" then
      applyGo tcf hashC env useSymlinks dryRun rest
        { st with
          result := { st.result with skipped := st.result.skipped + 1 },
          idx := st.idx + 1 }
    else
      let transformedContent := tcf e.asset.content e.targetClient e.asset.type
      let unchanged : Bool :=
        if useSymlinks = false then
          match readFileSafe st.fs e.targetPath with
          | some existingContent =>
            decide (hashC existingContent = hashC transformedContent)
          | none => false
        else decide (getSymlinkTarget st.fs e.targetPath = some e.asset.path)
      if unchanged then
        applyGo tcf hashC env useSymlinks dryRun rest
          { st with
            result := { st.result with skipped := st.result.skipped + 1 },
            idx := st.idx + 1 }
      else if dryRun then
        applyGo tcf hashC env useSymlinks dryRun rest
          { st with
            result := { st.result with applied := st.result.applied + 1 },
            idx := st.idx + 1 }
      else
        let bk : Fs × Option String :=
          if useSymlinks = false then createBackup st.fs e.targetPath
          else (st.fs, none)
        let st1 : RunState :=
          { st with
            fs := bk.1,
            writes := if bk.2.isSome then st.writes + 1 else st.writes,
            result := match bk.2 with
              | some bp => { st.result with backups := st.result.backups ++ [bp] }
              | none => st.result }
        match env.writeRes st.idx with
        | none =>
          let st2 : RunState :=
            { st1 with
              result := { st1.result with
                errors := st1.result.errors ++
                  ["Failed to write " ++ e.targetPath ++ ": Error"],
                failed := st1.result.failed + 1 } }
          rollbackChanges env st2.appliedChanges st2
        | some w =>
          let fs2 : Fs :=
            if useSymlinks then createSymlink st1.fs e.asset.path e.targetPath
            else alSet st1.fs e.targetPath (FsNode.file (w.getD transformedContent))
          let st2 : RunState := { st1 with fs := fs2, writes := st1.writes + 1 }
          let verified : Bool :=
            if useSymlinks = false then
              verifyFileHash hashC st2.fs e.targetPath transformedContent
            else true
          if verified then
            applyGo tcf hashC env useSymlinks dryRun rest
              { st2 with
                appliedChanges := st2.appliedChanges ++ [⟨e.targetPath, bk.2⟩],
                result := { st2.result with applied := st2.result.applied + 1 },
                idx := st2.idx + 1 }
          else
            let st3 : RunState :=
              { st2 with result := { st2.result with
                  errors := st2.result.errors ++
                    ["Verification failed for " ++ e.targetPath],
                  failed := st2.result.failed + 1 } }
            rollbackChanges env st3.appliedChanges st3

/-- Source `applyPlan` (primary implementation): run the plan from a fresh
result record over the given filesystem. -/
def applyPlan (tcf : String → String → String → String) (hashC : String → String)
    (env : ApplyEnv) (plan : List SyncPlanEntry) (options : SyncOptions)
    (fs : Fs) : RunState :=
  let st0 : RunState := { fs := fs }
  if plan.isEmpty then st0
  else applyGo tcf hashC env (options.link.getD false) (options.dryRun.getD false) plan st0

/-! ### Step lemmas for the apply loop (copy mode) -/

/-- State after an entry is counted as skipped (both the `action === "skip"`
arm and the skip-unchanged arm). -/
def skipBump (st : RunState) : RunState :=
  { st with
    result := { st.result with skipped := st.result.skipped + 1 },
    idx := st.idx + 1 }

/-- State after a clean (faithful, verified) write of entry `e` in copy mode;
`old` is the destination's resolved content before the write (`some` forces a
backup, `none` means the destination did not exist so no backup is made). -/
def cleanWrote (tcf : String → String → String → String)
    (e : SyncPlanEntry) (old : Option String) (st : RunState) : RunState :=
  let tr := tcf e.asset.content e.targetClient e.asset.type
  match old with
  | some c =>
    { st with
      fs := alSet (alSet st.fs (e.targetPath ++ ".bak") (FsNode.file c))
              e.targetPath (FsNode.file tr),
      writes := st.writes + 2,
      result := { st.result with
        applied := st.result.applied + 1,
        backups := st.result.backups ++ [e.targetPath ++ ".bak"] },
      appliedChanges := st.appliedChanges ++
        [⟨e.targetPath, some (e.targetPath ++ ".bak")⟩],
      idx := st.idx + 1 }
  | none =>
    { st with
      fs := alSet st.fs e.targetPath (FsNode.file tr),
      writes := st.writes + 1,
      result := { st.result with applied := st.result.applied + 1 },
      appliedChanges := st.appliedChanges ++ [⟨e.targetPath, none⟩],
      idx := st.idx + 1 }

/-- State recorded when the write for entry `e` throws, before rollback;
`old` is the destination's resolved content (governing backup creation). -/
def throwState (e : SyncPlanEntry) (old : Option String) (st : RunState) :
    RunState :=
  match old with
  | some c =>
    { st with
      fs := alSet st.fs (e.targetPath ++ ".bak") (FsNode.file c),
      writes := st.writes + 1,
      result := { st.result with
        backups := st.result.backups ++ [e.targetPath ++ ".bak"],
        errors := st.result.errors ++
          ["Failed to write " ++ e.targetPath ++ ": Error"],
        failed := st.result.failed + 1 } }
  | none =>
    { st with
      result := { st.result with
        errors := st.result.errors ++
          ["Failed to write " ++ e.targetPath ++ ": Error"],
        failed := st.result.failed + 1 } }

/-- State recorded when the write for entry `e` lands as `s` and the
post-write verification rejects it, before rollback. -/
def verifyFailState (e : SyncPlanEntry) (old : Option String) (s : String)
    (st : RunState) : RunState :=
  match old with
  | some c =>
    { st with
      fs := alSet (alSet st.fs (e.targetPath ++ ".bak") (FsNode.file c))
              e.targetPath (FsNode.file s),
      writes := st.writes + 2,
      result := { st.result with
        backups := st.result.backups ++ [e.targetPath ++ ".bak"],
        errors := st.result.errors ++
          ["Verification failed for " ++ e.targetPath],
        failed := st.result.failed + 1 } }
  | none =>
    { st with
      fs := alSet st.fs e.targetPath (FsNode.file s),
      writes := st.writes + 1,
      result := { st.result with
        errors := st.result.errors ++
          ["Verification failed for " ++ e.targetPath],
        failed := st.result.failed + 1 } }

/-- The `action === "skip"` arm of the apply loop. -/
theorem applyGo_skip (tcf : String → String → String → String)
    (hashC : String → String) (env : ApplyEnv) (us dr : Bool)
    (e : SyncPlanEntry) (rest : List SyncPlanEntry) (st : RunState)
    (h : e.action = "skip") :
    applyGo tcf hashC env us dr (e :: rest) st =
      applyGo tcf hashC env us dr rest (skipBump st) := by
  simp only [applyGo]
  rw [if_pos h]
  rfl

/-- The skip-unchanged arm: in copy mode, a destination whose resolved
content hashes identically to the transformed desired content is counted as
skipped and the filesystem is untouched. -/
theorem applyGo_unchanged (tcf : String → String → String → String)
    (hashC : String → String) (env : ApplyEnv) (dr : Bool)
    (e : SyncPlanEntry) (rest : List SyncPlanEntry) (st : RunState)
    (c : String)
    (ha : ¬ e.action = "skip")
    (hr : readFileSafe st.fs e.targetPath = some c)
    (hh : hashC c = hashC (tcf e.asset.content e.targetClient e.asset.type)) :
    applyGo tcf hashC env false dr (e :: rest) st =
      applyGo tcf hashC env false dr rest (skipBump st) := by
  simp only [applyGo]
  rw [if_neg ha]
  simp only [hr, hh, decide_True, if_pos trivial]
  rfl

/-- A clean write over an existing destination file: backup to `.bak`,
write the transformed content, verification passes. -/
theorem applyGo_write_existing (tcf : String → String → String → String)
    (hashC : String → String) (env : ApplyEnv)
    (e : SyncPlanEntry) (rest : List SyncPlanEntry) (st : RunState)
    (c : String)
    (ha : ¬ e.action = "skip")
    (hr : fsResolve st.fs e.targetPath = some c)
    (hh : ¬ hashC c = hashC (tcf e.asset.content e.targetClient e.asset.type))
    (hw : env.writeRes st.idx = some none) :
    applyGo tcf hashC env false false (e :: rest) st =
      applyGo tcf hashC env false false rest (cleanWrote tcf e (some c) st) := by
  simp only [applyGo]
  rw [if_neg ha]
  simp only [readFileSafe, hr, hh, decide_False, Bool.false_eq_true, if_neg,
    if_false, createBackup, hw]
  simp only [verifyFileHash, fsResolve, alGet_alSet, if_pos rfl, Option.getD,
    decide_True, if_pos trivial]
  rfl

/-- A clean write to a fresh destination: no backup (`createBackup` returns
`null`), write, verification passes. -/
theorem applyGo_write_fresh (tcf : String → String → String → String)
    (hashC : String → String) (env : ApplyEnv)
    (e : SyncPlanEntry) (rest : List SyncPlanEntry) (st : RunState)
    (ha : ¬ e.action = "skip")
    (hr : fsResolve st.fs e.targetPath = none)
    (hw : env.writeRes st.idx = some none) :
    applyGo tcf hashC env false false (e :: rest) st =
      applyGo tcf hashC env false false rest (cleanWrote tcf e none st) := by
  simp only [applyGo]
  rw [if_neg ha]
  simp only [readFileSafe, hr, Bool.false_eq_true, if_neg, if_false,
    createBackup, hw]
  simp only [verifyFileHash, fsResolve, alGet_alSet, if_pos rfl, Option.getD,
    decide_True, if_pos trivial]
  rfl

/-- A write that throws aborts the loop: the state is rolled back and the
remaining entries are never attempted (the right-hand side does not mention
`rest`). -/
theorem applyGo_write_throw (tcf : String → String → String → String)
    (hashC : String → String) (env : ApplyEnv)
    (e : SyncPlanEntry) (rest : List SyncPlanEntry) (st : RunState)
    (old : Option String)
    (ha : ¬ e.action = "skip")
    (hr : fsResolve st.fs e.targetPath = old)
    (hh : ∀ c, old = some c →
      ¬ hashC c = hashC (tcf e.asset.content e.targetClient e.asset.type))
    (hw : env.writeRes st.idx = none) :
    applyGo tcf hashC env false false (e :: rest) st =
      rollbackChanges env st.appliedChanges (throwState e old st) := by
  cases old with
  | none =>
    simp only [applyGo]
    rw [if_neg ha]
    simp only [readFileSafe, hr, Bool.false_eq_true, if_neg, if_false,
      createBackup, hw]
    rfl
  | some c =>
    simp only [applyGo]
    rw [if_neg ha]
    simp only [readFileSafe, hr, hh c rfl, decide_False, Bool.false_eq_true,
      if_neg, if_false, createBackup, hw]
    rfl

/-- A write that lands with content whose hash differs from the desired
content fails post-write verification: the state is rolled back and the
remaining entries are never attempted. -/
theorem applyGo_verify_fail (tcf : String → String → String → String)
    (hashC : String → String) (env : ApplyEnv)
    (e : SyncPlanEntry) (rest : List SyncPlanEntry) (st : RunState)
    (old : Option String) (s : String)
    (ha : ¬ e.action = "skip")
    (hr : fsResolve st.fs e.targetPath = old)
    (hh : ∀ c, old = some c →
      ¬ hashC c = hashC (tcf e.asset.content e.targetClient e.asset.type))
    (hw : env.writeRes st.idx = some (some s))
    (hs : ¬ hashC s = hashC (tcf e.asset.content e.targetClient e.asset.type)) :
    applyGo tcf hashC env false false (e :: rest) st =
      rollbackChanges env st.appliedChanges (verifyFailState e old s st) := by
  cases old with
  | none =>
    simp only [applyGo]
    rw [if_neg ha]
    simp only [readFileSafe, hr, Bool.false_eq_true, if_neg, if_false,
      if_true, createBackup, hw]
    simp only [verifyFileHash, fsResolve, alGet_alSet, if_pos rfl,
      Option.getD, hs, decide_False, Bool.false_eq_true, if_false, if_true]
    rfl
  | some c =>
    simp only [applyGo]
    rw [if_neg ha]
    simp only [readFileSafe, hr, hh c rfl, decide_False, Bool.false_eq_true,
      if_neg, if_false, createBackup, hw]
    simp only [verifyFileHash, fsResolve, alGet_alSet, if_pos rfl,
      Option.getD, hs, decide_False, Bool.false_eq_true, if_false, if_true]
    rfl

/-! ### Rollback characterization -/

/-- Full characterization of the rollback loop over a change list whose
backups all exist as regular files and collide with no restore target:
restore targets are visited in list order (`restores` trace), counters are
untouched, errors only grow, untargeted paths are untouched, and each change
is restored from its backup when its `restoreOk` verdict is `true`, or
recorded as a `Failed to restore` error when it is `false`. -/
theorem rollbackGo_spec (env : ApplyEnv) :
    ∀ (chs : List AppliedChange) (k : Nat) (st : RunState),
    (∀ ch ∈ chs, ∃ bp c, ch.backupPath = some bp ∧
        alGet st.fs bp = some (FsNode.file c)) →
    ((chs.map (fun ch => ch.targetPath)).Nodup) →
    (∀ ch ∈ chs, ∀ ch2 ∈ chs, ∀ bp, ch.backupPath = some bp →
        ¬ bp = ch2.targetPath) →
    ((rollbackGo env k chs st).restores =
        st.restores ++ chs.map (fun ch => ch.targetPath)) ∧
    (rollbackGo env k chs st).result.failed = st.result.failed ∧
    (rollbackGo env k chs st).result.rolledBack = st.result.rolledBack ∧
    (∃ extra, (rollbackGo env k chs st).result.errors =
        st.result.errors ++ extra) ∧
    (∀ q, (∀ ch ∈ chs, ¬ q = ch.targetPath) →
        alGet (rollbackGo env k chs st).fs q = alGet st.fs q) ∧
    (∀ i (h : i < chs.length), ∀ bp c,
        (chs.get ⟨i, h⟩).backupPath = some bp →
        alGet st.fs bp = some (FsNode.file c) →
        (env.restoreOk (k + i) = true →
            alGet (rollbackGo env k chs st).fs (chs.get ⟨i, h⟩).targetPath =
              some (FsNode.file c)) ∧
        (env.restoreOk (k + i) = false →
            ("Failed to restore " ++ (chs.get ⟨i, h⟩).targetPath) ∈
              (rollbackGo env k chs st).result.errors)) := by
  intro chs
  induction chs with
  | nil =>
    intro k st h1 h2 h3
    refine ⟨by simp [rollbackGo], rfl, rfl, ⟨[], by simp [rollbackGo]⟩,
      fun q _ => rfl, fun i h => absurd h (by simp)⟩
  | cons ch rest ih =>
    intro k st h1 h2 h3
    obtain ⟨bp, c, hbp, hbk⟩ := h1 ch (List.mem_cons_self ch rest)
    have hres : fsResolve st.fs bp = some c := by
      simp [fsResolve, hbk]
    have htn : ¬ ch.targetPath ∈ rest.map (fun ch2 => ch2.targetPath) := by
      have := h2
      simp only [List.map_cons, List.nodup_cons] at this
      exact this.1
    cases hok : env.restoreOk k with
    | true =>
      have hunf : rollbackGo env k (ch :: rest) st =
          rollbackGo env (k + 1) rest
            { st with
              fs := alSet st.fs ch.targetPath (FsNode.file c),
              writes := st.writes + 1,
              restores := st.restores ++ [ch.targetPath] } := by
        simp only [rollbackGo, hbp, restoreBackup, hres, hok, if_true]
      set st2 : RunState :=
        { st with
          fs := alSet st.fs ch.targetPath (FsNode.file c),
          writes := st.writes + 1,
          restores := st.restores ++ [ch.targetPath] } with hst2
      have hfs2 : ∀ p, ¬ p = ch.targetPath → alGet st2.fs p = alGet st.fs p := by
        intro p hp
        rw [hst2]
        simp only [alGet_alSet]
        rw [if_neg fun hcontra => hp hcontra.symm]
      have ih2 := ih (k + 1) st2
        (by
          intro ch2 hch2
          obtain ⟨bp2, c2, hbp2, hbk2⟩ := h1 ch2 (List.mem_cons_of_mem ch hch2)
          refine ⟨bp2, c2, hbp2, ?_⟩
          rw [hfs2 bp2 (h3 ch2 (List.mem_cons_of_mem ch hch2)
            ch (List.mem_cons_self ch rest) bp2 hbp2)]
          exact hbk2)
        (by
          have := h2
          simp only [List.map_cons, List.nodup_cons] at this
          exact this.2)
        (fun ch2 hch2 ch3 hch3 bp2 hbp2 =>
          h3 ch2 (List.mem_cons_of_mem ch hch2)
            ch3 (List.mem_cons_of_mem ch hch3) bp2 hbp2)
      obtain ⟨c1, c2f, c3, ⟨extra, c4⟩, c5, c6⟩ := ih2
      rw [hunf]
      refine ⟨?_, ?_, ?_, ?_, ?_, ?_⟩
      · rw [c1, hst2]
        simp
      · rw [c2f]
      · rw [c3]
      · exact ⟨extra, by rw [c4]⟩
      · intro q hq
        rw [c5 q (fun ch2 hch2 => hq ch2 (List.mem_cons_of_mem ch hch2)),
          hfs2 q (hq ch (List.mem_cons_self ch rest))]
      · intro i h bpi ci hbpi hbki
        cases i with
        | zero =>
          have hget : (ch :: rest).get ⟨0, h⟩ = ch := rfl
          rw [hget] at hbpi ⊢
          have hbpeq : bpi = bp := by
            rw [hbp] at hbpi
            exact (Option.some.injEq _ _).mp hbpi.symm
          have hceq : ci = c := by
            rw [hbpeq, hbk] at hbki
            injection hbki with h9
            injection h9 with h8
            exact h8.symm
          constructor
          · intro _
            rw [c5 ch.targetPath (fun ch2 hch2 => fun hcontra => htn
                (hcontra ▸ List.mem_map_of_mem (fun ch3 => ch3.targetPath) hch2)),
              hceq]
            rw [hst2]
            simp only [alGet_alSet, if_pos rfl, if_true]
          · intro hfalse
            rw [Nat.add_zero] at hfalse
            rw [hok] at hfalse
            exact absurd hfalse (by simp)
        | succ j =>
          have hj : j < rest.length := by
            simpa using h
          have hget : (ch :: rest).get ⟨j + 1, h⟩ = rest.get ⟨j, hj⟩ := rfl
          rw [hget] at hbpi ⊢
          have hbki2 : alGet st2.fs bpi = some (FsNode.file ci) := by
            rw [hfs2 bpi (h3 (rest.get ⟨j, hj⟩)
              (List.mem_cons_of_mem ch (rest.get_mem j hj))
              ch (List.mem_cons_self ch rest) bpi hbpi)]
            exact hbki
          have := c6 j hj bpi ci hbpi hbki2
          rw [show k + (j + 1) = k + 1 + j by omega]
          exact this
    | false =>
      have hunf : rollbackGo env k (ch :: rest) st =
          rollbackGo env (k + 1) rest
            { st with
              restores := st.restores ++ [ch.targetPath],
              result := { st.result with
                errors := st.result.errors ++
                  ["Failed to restore " ++ ch.targetPath] } } := by
        simp only [rollbackGo, hbp, restoreBackup, hres, hok]
        rfl
      set st2 : RunState :=
        { st with
          restores := st.restores ++ [ch.targetPath],
          result := { st.result with
            errors := st.result.errors ++
              ["Failed to restore " ++ ch.targetPath] } } with hst2
      have ih2 := ih (k + 1) st2
        (by
          intro ch2 hch2
          obtain ⟨bp2, c2, hbp2, hbk2⟩ := h1 ch2 (List.mem_cons_of_mem ch hch2)
          exact ⟨bp2, c2, hbp2, hbk2⟩)
        (by
          have := h2
          simp only [List.map_cons, List.nodup_cons] at this
          exact this.2)
        (fun ch2 hch2 ch3 hch3 bp2 hbp2 =>
          h3 ch2 (List.mem_cons_of_mem ch hch2)
            ch3 (List.mem_cons_of_mem ch hch3) bp2 hbp2)
      obtain ⟨c1, c2f, c3, ⟨extra, c4⟩, c5, c6⟩ := ih2
      rw [hunf]
      refine ⟨?_, ?_, ?_, ?_, ?_, ?_⟩
      · rw [c1, hst2]
        simp
      · rw [c2f]
      · rw [c3]
      · refine ⟨["Failed to restore " ++ ch.targetPath] ++ extra, ?_⟩
        rw [c4, hst2]
        simp
      · intro q hq
        rw [c5 q (fun ch2 hch2 => hq ch2 (List.mem_cons_of_mem ch hch2))]
      · intro i h bpi ci hbpi hbki
        cases i with
        | zero =>
          have hget : (ch :: rest).get ⟨0, h⟩ = ch := rfl
          rw [hget] at hbpi ⊢
          constructor
          · intro htrue
            rw [Nat.add_zero, hok] at htrue
            exact absurd htrue (by simp)
          · intro _
            have hmem : ("Failed to restore " ++ ch.targetPath) ∈
                st2.result.errors := by
              rw [hst2]
              simp
            rw [c4]
            exact List.mem_append_left extra hmem
        | succ j =>
          have hj : j < rest.length := by
            simpa using h
          have hget : (ch :: rest).get ⟨j + 1, h⟩ = rest.get ⟨j, hj⟩ := rfl
          rw [hget] at hbpi ⊢
          have := c6 j hj bpi ci hbpi hbki
          rw [show k + (j + 1) = k + 1 + j by omega]
          exact this

/-- `String` right-cancellation for the `.bak` suffix. -/
theorem bak_suffix_inj (a b : String) (h : a ++ ".bak" = b ++ ".bak") :
    a = b := by
  have hd : a.data ++ ".bak".data = b.data ++ ".bak".data := by
    have := congrArg String.data h
    simpa [string_data_append] using this
  have h2 : a.data = b.data := List.append_cancel_right hd
  cases a
  cases b
  exact congrArg String.mk h2

/-- The `AppliedChange` recorded for an entry whose destination existed and
was backed up. -/
def backupChangeOf (p : SyncPlanEntry) : AppliedChange :=
  ⟨p.targetPath, some (p.targetPath ++ ".bak")⟩

/-- Running the loop over a prefix of non-skip entries, each overwriting an
existing destination file with fresh content under clean writes: every entry
is applied with a `.bak` backup of its previous content, and the loop
proceeds to the remaining entries.  The intermediate state `st2` is
independent of the remaining entries. -/
theorem applyGo_clean_prefix (tcf : String → String → String → String)
    (hashC : String → String) (env : ApplyEnv) :
    ∀ (pre : List SyncPlanEntry) (st : RunState),
    (∀ p ∈ pre, ¬ p.action = "skip") →
    (∀ p ∈ pre, ∃ old, alGet st.fs p.targetPath = some (FsNode.file old) ∧
        ¬ hashC old = hashC (tcf p.asset.content p.targetClient p.asset.type)) →
    ((pre.map (fun p => p.targetPath)).Nodup) →
    (∀ p ∈ pre, ∀ q ∈ pre, ¬ p.targetPath ++ ".bak" = q.targetPath) →
    (∀ j, j < pre.length → env.writeRes (st.idx + j) = some none) →
    ∃ st2 : RunState,
      (∀ rest, applyGo tcf hashC env false false (pre ++ rest) st =
          applyGo tcf hashC env false false rest st2) ∧
      st2.idx = st.idx + pre.length ∧
      st2.appliedChanges = st.appliedChanges ++ pre.map backupChangeOf ∧
      st2.result.failed = st.result.failed ∧
      st2.result.errors = st.result.errors ∧
      st2.result.rolledBack = st.result.rolledBack ∧
      st2.result.applied = st.result.applied + pre.length ∧
      st2.restores = st.restores ∧
      (∀ q, (∀ p ∈ pre, ¬ q = p.targetPath ∧ ¬ q = p.targetPath ++ ".bak") →
          alGet st2.fs q = alGet st.fs q) ∧
      (∀ p ∈ pre, ∀ old, alGet st.fs p.targetPath = some (FsNode.file old) →
          alGet st2.fs (p.targetPath ++ ".bak") = some (FsNode.file old)) := by
  intro pre
  induction pre with
  | nil =>
    intro st hns hex hnd hbs hcl
    refine ⟨st, fun rest => by simp, by simp, by simp, rfl, rfl, rfl,
      by simp, rfl, fun q _ => rfl, fun p hp => absurd hp (by simp)⟩
  | cons p0 ptl ih =>
    intro st hns hex hnd hbs hcl
    obtain ⟨old0, hold0, hneq0⟩ := hex p0 (List.mem_cons_self p0 ptl)
    have hres0 : fsResolve st.fs p0.targetPath = some old0 := by
      simp [fsResolve, hold0]
    have hw0 : env.writeRes st.idx = some none := by
      have := hcl 0 (by simp)
      simpa using this
    have hstep := applyGo_write_existing tcf hashC env p0 [] st old0
      (hns p0 (List.mem_cons_self p0 ptl)) hres0 hneq0 hw0
    set stA : RunState := cleanWrote tcf p0 (some old0) st with hstA
    have hstepAll : ∀ rest, applyGo tcf hashC env false false (p0 :: rest) st =
        applyGo tcf hashC env false false rest stA := by
      intro rest
      exact applyGo_write_existing tcf hashC env p0 rest st old0
        (hns p0 (List.mem_cons_self p0 ptl)) hres0 hneq0 hw0
    have hAfs : stA.fs = alSet (alSet st.fs (p0.targetPath ++ ".bak")
        (FsNode.file old0)) p0.targetPath
        (FsNode.file (tcf p0.asset.content p0.targetClient p0.asset.type)) := rfl
    have hAframe : ∀ q, ¬ q = p0.targetPath → ¬ q = p0.targetPath ++ ".bak" →
        alGet stA.fs q = alGet st.fs q := by
      intro q h1 h2
      rw [hAfs]
      simp only [alGet_alSet]
      rw [if_neg fun hc => h1 hc.symm, if_neg fun hc => h2 hc.symm]
    have hAidx : stA.idx = st.idx + 1 := rfl
    have hAapp : stA.appliedChanges = st.appliedChanges ++
        [backupChangeOf p0] := rfl
    have htl0 : ¬ p0.targetPath ∈ ptl.map (fun p => p.targetPath) := by
      have := hnd
      simp only [List.map_cons, List.nodup_cons] at this
      exact this.1
    have ih2 := ih stA
      (fun p hp => hns p (List.mem_cons_of_mem p0 hp))
      (by
        intro p hp
        obtain ⟨old, holdp, hneqp⟩ := hex p (List.mem_cons_of_mem p0 hp)
        refine ⟨old, ?_, hneqp⟩
        rw [hAframe p.targetPath
          (fun hc => htl0 (hc ▸ List.mem_map_of_mem (fun p2 => p2.targetPath) hp))
          (fun hc => hbs p0 (List.mem_cons_self p0 ptl) p
            (List.mem_cons_of_mem p0 hp) hc.symm)]
        exact holdp)
      (by
        have := hnd
        simp only [List.map_cons, List.nodup_cons] at this
        exact this.2)
      (fun p hp q hq => hbs p (List.mem_cons_of_mem p0 hp)
        q (List.mem_cons_of_mem p0 hq))
      (by
        intro j hj
        rw [hAidx, show st.idx + 1 + j = st.idx + (1 + j) by omega]
        exact hcl (1 + j) (by simp; omega))
    obtain ⟨st2, d0, d1, d2, d3, d4, d5, d6, d7, d8, d9⟩ := ih2
    refine ⟨st2, ?_, ?_, ?_, ?_, ?_, ?_, ?_, ?_, ?_, ?_⟩
    · intro rest
      rw [show (p0 :: ptl) ++ rest = p0 :: (ptl ++ rest) from rfl,
        hstepAll (ptl ++ rest), d0 rest]
    · rw [d1, hAidx]
      simp only [List.length_cons]
      omega
    · rw [d2, hAapp]
      simp
    · rw [d3]
      rfl
    · rw [d4]
      rfl
    · rw [d5]
      rfl
    · rw [d6]
      have : stA.result.applied = st.result.applied + 1 := rfl
      rw [this]
      simp only [List.length_cons]
      omega
    · rw [d7]
      rfl
    · intro q hq
      rw [d8 q (fun p hp => hq p (List.mem_cons_of_mem p0 hp)),
        hAframe q (hq p0 (List.mem_cons_self p0 ptl)).1
          (hq p0 (List.mem_cons_self p0 ptl)).2]
    · intro p hp old holdp
      rcases List.mem_cons.mp hp with hp0 | hptl
      · subst hp0
        have hc : old = old0 := by
          rw [hold0] at holdp
          injection holdp with h9
          injection h9 with h8
          exact h8.symm
        subst hc
        rw [d8 (p.targetPath ++ ".bak")
          (by
            intro q hq
            constructor
            · intro hc
              exact hbs p (List.mem_cons_self p ptl) q
                (List.mem_cons_of_mem p hq) hc
            · intro hc
              have := bak_suffix_inj p.targetPath q.targetPath hc
              exact htl0 (this ▸ List.mem_map_of_mem (fun p2 => p2.targetPath) hq))]
        rw [hAfs]
        simp only [alGet_alSet]
        rw [if_neg (fun hc => hbs p (List.mem_cons_self p ptl) p
          (List.mem_cons_self p ptl) hc.symm)]
        simp
      · have holdA : alGet stA.fs p.targetPath = some (FsNode.file old) := by
          rw [hAframe p.targetPath
            (fun hc => htl0 (hc ▸ List.mem_map_of_mem (fun p2 => p2.targetPath) hptl))
            (fun hc => hbs p0 (List.mem_cons_self p0 ptl) p
              (List.mem_cons_of_mem p0 hptl) hc.symm)]
          exact holdp
        exact d9 p hptl old holdA

/-- What `rollbackChanges` does after a failure, when every change of the run
was an overwrite with a live `.bak` backup holding the destination's original
(pre-run) content: restore attempts run in reverse order of application,
counters are untouched, `rolledBack` is set (when there was anything to roll
back), and each entry is restored to its original content or recorded as a
`Failed to restore` error according to its `restoreOk` verdict. -/
theorem rollback_after_failure (env : ApplyEnv) (pre : List SyncPlanEntry)
    (fs0 : Fs) (stF : RunState)
    (hnd : (pre.map (fun p => p.targetPath)).Nodup)
    (hbs2 : ∀ p ∈ pre, ∀ q ∈ pre, ¬ p.targetPath ++ ".bak" = q.targetPath)
    (hbaks : ∀ p ∈ pre, ∃ old,
        alGet stF.fs (p.targetPath ++ ".bak") = some (FsNode.file old) ∧
        alGet fs0 p.targetPath = some (FsNode.file old)) :
    (rollbackChanges env (pre.map backupChangeOf) stF).restores =
        stF.restores ++ (pre.map (fun p => p.targetPath)).reverse ∧
    (rollbackChanges env (pre.map backupChangeOf) stF).result.failed =
        stF.result.failed ∧
    (¬ pre = [] →
        (rollbackChanges env (pre.map backupChangeOf) stF).result.rolledBack
          = true) ∧
    (pre = [] → rollbackChanges env (pre.map backupChangeOf) stF = stF) ∧
    (∃ extra, (rollbackChanges env (pre.map backupChangeOf) stF).result.errors
        = stF.result.errors ++ extra) ∧
    (∀ i (h : i < pre.length),
      (env.restoreOk (pre.length - 1 - i) = true →
        alGet (rollbackChanges env (pre.map backupChangeOf) stF).fs
            (pre.get ⟨i, h⟩).targetPath =
          alGet fs0 (pre.get ⟨i, h⟩).targetPath) ∧
      (env.restoreOk (pre.length - 1 - i) = false →
        ("Failed to restore " ++ (pre.get ⟨i, h⟩).targetPath) ∈
          (rollbackChanges env (pre.map backupChangeOf) stF).result.errors)) := by
  by_cases hpre : pre = []
  · subst hpre
    have hr : rollbackChanges env ([].map backupChangeOf) stF = stF := rfl
    rw [hr]
    exact ⟨by simp, rfl, fun hc => absurd rfl hc, fun _ => rfl, ⟨[], by simp⟩,
      fun i h => absurd h (by simp)⟩
  · have hne : ((pre.map backupChangeOf).isEmpty) = false := by
      cases pre with
      | nil => exact absurd rfl hpre
      | cons a l => rfl
    have hunf : rollbackChanges env (pre.map backupChangeOf) stF =
        { rollbackGo env 0 (pre.map backupChangeOf).reverse stF with
          result := { (rollbackGo env 0
              (pre.map backupChangeOf).reverse stF).result with
            rolledBack := true } } := by
      rw [rollbackChanges, hne]
      rfl
    have hspec := rollbackGo_spec env (pre.map backupChangeOf).reverse 0 stF
      (by
        intro ch hch
        rw [List.mem_reverse] at hch
        obtain ⟨p, hp, hpe⟩ := List.mem_map.mp hch
        obtain ⟨old, hb1, _⟩ := hbaks p hp
        exact ⟨p.targetPath ++ ".bak", old, by rw [← hpe]; rfl, hb1⟩)
      (by
        rw [List.map_reverse, List.nodup_reverse]
        have hmm : (pre.map backupChangeOf).map (fun ch => ch.targetPath) =
            pre.map (fun p => p.targetPath) := by
          rw [List.map_map]
          rfl
        rw [hmm]
        exact hnd)
      (by
        intro ch hch ch2 hch2 bp hbp
        rw [List.mem_reverse] at hch hch2
        obtain ⟨p, hp, hpe⟩ := List.mem_map.mp hch
        obtain ⟨q, hq, hqe⟩ := List.mem_map.mp hch2
        have hbp2 : bp = p.targetPath ++ ".bak" := by
          rw [← hpe] at hbp
          injection hbp with h9
          exact h9.symm
        rw [hbp2, ← hqe]
        exact hbs2 p hp q hq)
    obtain ⟨rb1, rb2, rb3, ⟨extra, rb4⟩, rb5, rb6⟩ := hspec
    rw [hunf]
    refine ⟨?_, ?_, fun _ => rfl, fun hc => absurd hc hpre, ⟨extra, rb4⟩, ?_⟩
    · rw [rb1, List.map_reverse]
      have hmm : (pre.map backupChangeOf).map (fun ch => ch.targetPath) =
          pre.map (fun p => p.targetPath) := by
        rw [List.map_map]
        rfl
      rw [hmm]
    · exact rb2
    · intro i h
      have hlen : (pre.map backupChangeOf).reverse.length = pre.length := by
        simp
      have hj : pre.length - 1 - i < (pre.map backupChangeOf).reverse.length := by
        rw [hlen]
        omega
      have hget : (pre.map backupChangeOf).reverse.get ⟨pre.length - 1 - i, hj⟩ =
          backupChangeOf (pre.get ⟨i, h⟩) := by
        rw [List.get_eq_getElem]
        have := List.getElem_reverse (l := pre.map backupChangeOf)
          (i := pre.length - 1 - i) hj
        rw [this]
        have hidx : (pre.map backupChangeOf).length - 1 - (pre.length - 1 - i)
            = i := by
          simp only [List.length_map]
          omega
        simp only [hidx]
        rw [List.getElem_map]
        rw [List.get_eq_getElem]
      obtain ⟨old, hb1, hb2⟩ := hbaks (pre.get ⟨i, h⟩) (pre.get_mem i h)
      have hbp9 : ((pre.map backupChangeOf).reverse.get
          ⟨pre.length - 1 - i, hj⟩).backupPath =
          some ((pre.get ⟨i, h⟩).targetPath ++ ".bak") := by
        rw [hget]
        rfl
      have hrb := rb6 (pre.length - 1 - i) hj
        ((pre.get ⟨i, h⟩).targetPath ++ ".bak") old hbp9 hb1
      rw [Nat.zero_add] at hrb
      constructor
      · intro htrue
        have h5 := hrb.1 htrue
        rw [hget] at h5
        show alGet (rollbackGo env 0 (pre.map backupChangeOf).reverse stF).fs
            (pre.get ⟨i, h⟩).targetPath = alGet fs0 (pre.get ⟨i, h⟩).targetPath
        rw [hb2]
        exact h5
      · intro hfalse
        have h5 := hrb.2 hfalse
        rw [hget] at h5
        exact h5

/-- Conclusions of the C3 analysis, given the facts established about the
state `stF` at the moment of failure. -/
theorem c3_assemble (env : ApplyEnv) (pre : List SyncPlanEntry) (fs0 : Fs)
    (stF : RunState)
    (hnd : (pre.map (fun p => p.targetPath)).Nodup)
    (hbs2 : ∀ p ∈ pre, ∀ q ∈ pre, ¬ p.targetPath ++ ".bak" = q.targetPath)
    (hbaks : ∀ p ∈ pre, ∃ old,
        alGet stF.fs (p.targetPath ++ ".bak") = some (FsNode.file old) ∧
        alGet fs0 p.targetPath = some (FsNode.file old))
    (hFfailed : stF.result.failed = 1)
    (hFerr : ∃ msg, stF.result.errors = [msg])
    (hFrest : stF.restores = []) :
    (rollbackChanges env (pre.map backupChangeOf) stF).result.failed = 1 ∧
    ¬ (rollbackChanges env (pre.map backupChangeOf) stF).result.errors = [] ∧
    (¬ pre = [] →
      (rollbackChanges env (pre.map backupChangeOf) stF).result.rolledBack
        = true) ∧
    (rollbackChanges env (pre.map backupChangeOf) stF).restores =
      (pre.map (fun p => p.targetPath)).reverse ∧
    (∀ i (h : i < pre.length),
      (env.restoreOk (pre.length - 1 - i) = true →
        alGet (rollbackChanges env (pre.map backupChangeOf) stF).fs
            (pre.get ⟨i, h⟩).targetPath =
          alGet fs0 (pre.get ⟨i, h⟩).targetPath) ∧
      (env.restoreOk (pre.length - 1 - i) = false →
        ("Failed to restore " ++ (pre.get ⟨i, h⟩).targetPath) ∈
          (rollbackChanges env (pre.map backupChangeOf) stF).result.errors)) := by
  obtain ⟨r1, r2, r3, r4, ⟨extra, r5⟩, r6⟩ :=
    rollback_after_failure env pre fs0 stF hnd hbs2 hbaks
  obtain ⟨msg, hmsg⟩ := hFerr
  refine ⟨?_, ?_, r3, ?_, r6⟩
  · rw [r2, hFfailed]
  · rw [r5, hmsg]
    simp
  · rw [r1, hFrest]
    simp

/-- C3: on a write failure or a post-write verification failure at plan
entry `e` (preceded by the successfully applied entries `pre`), the apply
engine attempts none of the remaining entries `post` (the run result does
not depend on them), reports exactly one failure with a non-empty error
list and the `rolledBack` flag set (whenever anything had been applied),
and restores every previously applied entry from its just-created `.bak`
backup in reverse order of application (witnessed by the `restores` call
trace); an entry whose individual restore fails is recorded as an
additional `Failed to restore` error string while the remaining entries
are still restored — their destinations regain their original pre-run
contents. -/
theorem c3_failure_abort_rollback
    (tcf : String → String → String → String) (hashC : String → String)
    (env : ApplyEnv) (pre post : List SyncPlanEntry) (e : SyncPlanEntry)
    (options : SyncOptions) (fs0 : Fs)
    (hdry : options.dryRun.getD false = false)
    (hlink : options.link.getD false = false)
    (hns : ∀ p ∈ pre, ¬ p.action = "skip")
    (hes : ¬ e.action = "skip")
    (hnd : ((pre ++ [e]).map (fun p => p.targetPath)).Nodup)
    (hbs : ∀ p ∈ pre ++ [e], ∀ q ∈ pre ++ [e],
        ¬ p.targetPath ++ ".bak" = q.targetPath)
    (hex : ∀ p ∈ pre, ∃ old, alGet fs0 p.targetPath = some (FsNode.file old) ∧
        ¬ hashC old = hashC (tcf p.asset.content p.targetClient p.asset.type))
    (hske : alGet fs0 e.targetPath = none ∨ ∃ c,
        alGet fs0 e.targetPath = some (FsNode.file c) ∧
        ¬ hashC c = hashC (tcf e.asset.content e.targetClient e.asset.type))
    (hcl : ∀ j, j < pre.length → env.writeRes j = some none)
    (hfail : env.writeRes pre.length = none ∨ ∃ s,
        env.writeRes pre.length = some (some s) ∧
        ¬ hashC s = hashC (tcf e.asset.content e.targetClient e.asset.type)) :
    (∀ post2, applyPlan tcf hashC env (pre ++ e :: post2) options fs0 =
        applyPlan tcf hashC env (pre ++ e :: post) options fs0) ∧
    (applyPlan tcf hashC env (pre ++ e :: post) options fs0).result.failed
      = 1 ∧
    ¬ (applyPlan tcf hashC env (pre ++ e :: post) options fs0).result.errors
      = [] ∧
    (¬ pre = [] →
      (applyPlan tcf hashC env
        (pre ++ e :: post) options fs0).result.rolledBack = true) ∧
    (applyPlan tcf hashC env (pre ++ e :: post) options fs0).restores =
      (pre.map (fun p => p.targetPath)).reverse ∧
    (∀ i (h : i < pre.length),
      (env.restoreOk (pre.length - 1 - i) = true →
        alGet (applyPlan tcf hashC env (pre ++ e :: post) options fs0).fs
            (pre.get ⟨i, h⟩).targetPath =
          alGet fs0 (pre.get ⟨i, h⟩).targetPath) ∧
      (env.restoreOk (pre.length - 1 - i) = false →
        ("Failed to restore " ++ (pre.get ⟨i, h⟩).targetPath) ∈
          (applyPlan tcf hashC env
            (pre ++ e :: post) options fs0).result.errors)) := by
  have hmemPre : ∀ p ∈ pre, p ∈ pre ++ [e] :=
    fun p hp => List.mem_append_left _ hp
  have heMem : e ∈ pre ++ [e] :=
    List.mem_append_right _ (List.mem_singleton.mpr rfl)
  have hndPre : (pre.map (fun p => p.targetPath)).Nodup := by
    rw [List.map_append] at hnd
    exact hnd.of_append_left
  have hnotE : ¬ e.targetPath ∈ pre.map (fun p => p.targetPath) := by
    rw [List.map_append] at hnd
    rw [List.nodup_append_comm] at hnd
    simp only [List.map_cons, List.map_nil, List.singleton_append,
      List.nodup_cons] at hnd
    exact hnd.1
  have happly : ∀ post2,
      applyPlan tcf hashC env (pre ++ e :: post2) options fs0 =
      applyGo tcf hashC env false false (pre ++ e :: post2)
        { fs := fs0 } := by
    intro post2
    have hne2 : (pre ++ e :: post2).isEmpty = false := by
      cases pre with
      | nil => rfl
      | cons a l => rfl
    rw [applyPlan, hlink, hdry]
    simp only [hne2, Bool.false_eq_true, if_false]
  obtain ⟨st2, d0, d1, d2, d3, d4, d5, d6, d7, d8, d9⟩ :=
    applyGo_clean_prefix tcf hashC env pre { fs := fs0 } hns
      (by
        intro p hp
        exact hex p hp)
      hndPre
      (fun p hp q hq => hbs p (hmemPre p hp) q (hmemPre q hq))
      (by
        intro j hj
        show env.writeRes (0 + j) = some none
        rw [Nat.zero_add]
        exact hcl j hj)
  have hfrE : alGet st2.fs e.targetPath = alGet fs0 e.targetPath := by
    exact d8 e.targetPath (by
      intro p hp
      constructor
      · intro hc
        exact hnotE (hc ▸ List.mem_map_of_mem (fun p2 => p2.targetPath) hp)
      · intro hc
        exact hbs p (hmemPre p hp) e heMem hc.symm)
  have hchg : st2.appliedChanges = pre.map backupChangeOf := by
    rw [d2]
    rfl
  have hbs2 : ∀ p ∈ pre, ∀ q ∈ pre, ¬ p.targetPath ++ ".bak" = q.targetPath :=
    fun p hp q hq => hbs p (hmemPre p hp) q (hmemPre q hq)
  have hbaks2 : ∀ p ∈ pre, ∃ old,
      alGet st2.fs (p.targetPath ++ ".bak") = some (FsNode.file old) ∧
      alGet fs0 p.targetPath = some (FsNode.file old) := by
    intro p hp
    obtain ⟨old, hold, _⟩ := hex p hp
    exact ⟨old, d9 p hp old hold, hold⟩
  have hbakNeTgt : ∀ p ∈ pre, ¬ p.targetPath ++ ".bak" = e.targetPath :=
    fun p hp => hbs p (hmemPre p hp) e heMem
  have hbakNeBak : ∀ p ∈ pre,
      ¬ p.targetPath ++ ".bak" = e.targetPath ++ ".bak" := by
    intro p hp hc
    have := bak_suffix_inj p.targetPath e.targetPath hc
    exact hnotE (this ▸ List.mem_map_of_mem (fun p2 => p2.targetPath) hp)
  have herr2 : st2.result.errors = [] := by
    rw [d4]
  have hfail2 : st2.result.failed = 0 := by
    rw [d3]
  have hrest2 : st2.restores = [] := by
    rw [d7]
  have hfinish : ∀ stF : RunState,
      (∀ post2, applyPlan tcf hashC env (pre ++ e :: post2) options fs0 =
          rollbackChanges env (pre.map backupChangeOf) stF) →
      (∀ p ∈ pre, ∃ old,
          alGet stF.fs (p.targetPath ++ ".bak") = some (FsNode.file old) ∧
          alGet fs0 p.targetPath = some (FsNode.file old)) →
      stF.result.failed = 1 →
      (∃ msg, stF.result.errors = [msg]) →
      stF.restores = [] →
      (∀ post2, applyPlan tcf hashC env (pre ++ e :: post2) options fs0 =
          applyPlan tcf hashC env (pre ++ e :: post) options fs0) ∧
      (applyPlan tcf hashC env (pre ++ e :: post) options fs0).result.failed
        = 1 ∧
      ¬ (applyPlan tcf hashC env
          (pre ++ e :: post) options fs0).result.errors = [] ∧
      (¬ pre = [] →
        (applyPlan tcf hashC env
          (pre ++ e :: post) options fs0).result.rolledBack = true) ∧
      (applyPlan tcf hashC env (pre ++ e :: post) options fs0).restores =
        (pre.map (fun p => p.targetPath)).reverse ∧
      (∀ i (h : i < pre.length),
        (env.restoreOk (pre.length - 1 - i) = true →
          alGet (applyPlan tcf hashC env (pre ++ e :: post) options fs0).fs
              (pre.get ⟨i, h⟩).targetPath =
            alGet fs0 (pre.get ⟨i, h⟩).targetPath) ∧
        (env.restoreOk (pre.length - 1 - i) = false →
          ("Failed to restore " ++ (pre.get ⟨i, h⟩).targetPath) ∈
            (applyPlan tcf hashC env
              (pre ++ e :: post) options fs0).result.errors)) := by
    intro stF hmain hbaksF hFf hFe hFr
    obtain ⟨a1, a2, a3, a4, a5⟩ :=
      c3_assemble env pre fs0 stF hndPre hbs2 hbaksF hFf hFe hFr
    refine ⟨fun post2 => by rw [hmain post2, hmain post], ?_, ?_, ?_, ?_, ?_⟩
    · rw [hmain post]
      exact a1
    · rw [hmain post]
      exact a2
    · intro hp9
      rw [hmain post]
      exact a3 hp9
    · rw [hmain post]
      exact a4
    · intro i h
      constructor
      · intro ht
        rw [hmain post]
        exact (a5 i h).1 ht
      · intro hf
        rw [hmain post]
        exact (a5 i h).2 hf
  rcases hske with hE0 | hEc
  · -- the failing entry's destination does not exist
    have hresE : fsResolve st2.fs e.targetPath = none := by
      rw [fsResolve, hfrE, hE0]
    have hhE : ∀ c9, (none : Option String) = some c9 →
        ¬ hashC c9 = hashC
          (tcf e.asset.content e.targetClient e.asset.type) := by
      intro c9 hc9
      exact absurd hc9 (by simp)
    rcases hfail with hthrow | ⟨s, hws, hsne⟩
    · have hw9 : env.writeRes st2.idx = none := by
        rw [d1]
        show env.writeRes (({ fs := fs0 } : RunState).idx + pre.length) = none
        rw [show ({ fs := fs0 } : RunState).idx + pre.length = pre.length
          from by simp]
        exact hthrow
      refine hfinish (throwState e none st2) ?_ ?_ ?_ ?_ ?_
      · intro post2
        rw [happly post2, d0 (e :: post2),
          applyGo_write_throw tcf hashC env e post2 st2 none hes hresE hhE hw9,
          hchg]
      · intro p hp
        obtain ⟨old, h1, h2⟩ := hbaks2 p hp
        exact ⟨old, h1, h2⟩
      · show st2.result.failed + 1 = 1
        rw [hfail2]
      · refine ⟨"Failed to write " ++ e.targetPath ++ ": Error", ?_⟩
        show st2.result.errors ++ ["Failed to write " ++ e.targetPath ++
          ": Error"] = _
        rw [herr2]
        rfl
      · show st2.restores = []
        exact hrest2
    · have hw9 : env.writeRes st2.idx = some (some s) := by
        rw [d1]
        show env.writeRes (({ fs := fs0 } : RunState).idx + pre.length) = _
        rw [show ({ fs := fs0 } : RunState).idx + pre.length = pre.length
          from by simp]
        exact hws
      refine hfinish (verifyFailState e none s st2) ?_ ?_ ?_ ?_ ?_
      · intro post2
        rw [happly post2, d0 (e :: post2),
          applyGo_verify_fail tcf hashC env e post2 st2 none s hes hresE hhE
            hw9 hsne,
          hchg]
      · intro p hp
        obtain ⟨old, h1, h2⟩ := hbaks2 p hp
        refine ⟨old, ?_, h2⟩
        show alGet (alSet st2.fs e.targetPath (FsNode.file s))
          (p.targetPath ++ ".bak") = some (FsNode.file old)
        rw [alGet_alSet, if_neg (fun hc => hbakNeTgt p hp hc.symm)]
        exact h1
      · show st2.result.failed + 1 = 1
        rw [hfail2]
      · refine ⟨"Verification failed for " ++ e.targetPath, ?_⟩
        show st2.result.errors ++ ["Verification failed for " ++
          e.targetPath] = _
        rw [herr2]
        rfl
      · show st2.restores = []
        exact hrest2
  · -- the failing entry's destination exists with non-matching content
    obtain ⟨cE, hcE, hcEne⟩ := hEc
    have hresE : fsResolve st2.fs e.targetPath = some cE := by
      rw [fsResolve, hfrE, hcE]
    have hhE : ∀ c9, (some cE : Option String) = some c9 →
        ¬ hashC c9 = hashC
          (tcf e.asset.content e.targetClient e.asset.type) := by
      intro c9 hc9
      have hq : cE = c9 := by injection hc9
      exact hq ▸ hcEne
    rcases hfail with hthrow | ⟨s, hws, hsne⟩
    · have hw9 : env.writeRes st2.idx = none := by
        rw [d1]
        show env.writeRes (({ fs := fs0 } : RunState).idx + pre.length) = none
        rw [show ({ fs := fs0 } : RunState).idx + pre.length = pre.length
          from by simp]
        exact hthrow
      refine hfinish (throwState e (some cE) st2) ?_ ?_ ?_ ?_ ?_
      · intro post2
        rw [happly post2, d0 (e :: post2),
          applyGo_write_throw tcf hashC env e post2 st2 (some cE) hes hresE
            hhE hw9,
          hchg]
      · intro p hp
        obtain ⟨old, h1, h2⟩ := hbaks2 p hp
        refine ⟨old, ?_, h2⟩
        show alGet (alSet st2.fs (e.targetPath ++ ".bak") (FsNode.file cE))
          (p.targetPath ++ ".bak") = some (FsNode.file old)
        rw [alGet_alSet, if_neg (fun hc => hbakNeBak p hp hc.symm)]
        exact h1
      · show st2.result.failed + 1 = 1
        rw [hfail2]
      · refine ⟨"Failed to write " ++ e.targetPath ++ ": Error", ?_⟩
        show st2.result.errors ++ ["Failed to write " ++ e.targetPath ++
          ": Error"] = _
        rw [herr2]
        rfl
      · show st2.restores = []
        exact hrest2
    · have hw9 : env.writeRes st2.idx = some (some s) := by
        rw [d1]
        show env.writeRes (({ fs := fs0 } : RunState).idx + pre.length) = _
        rw [show ({ fs := fs0 } : RunState).idx + pre.length = pre.length
          from by simp]
        exact hws
      refine hfinish (verifyFailState e (some cE) s st2) ?_ ?_ ?_ ?_ ?_
      · intro post2
        rw [happly post2, d0 (e :: post2),
          applyGo_verify_fail tcf hashC env e post2 st2 (some cE) s hes hresE
            hhE hw9 hsne,
          hchg]
      · intro p hp
        obtain ⟨old, h1, h2⟩ := hbaks2 p hp
        refine ⟨old, ?_, h2⟩
        show alGet (alSet (alSet st2.fs (e.targetPath ++ ".bak")
            (FsNode.file cE)) e.targetPath (FsNode.file s))
          (p.targetPath ++ ".bak") = some (FsNode.file old)
        rw [alGet_alSet, if_neg (fun hc => hbakNeTgt p hp hc.symm),
          alGet_alSet, if_neg (fun hc => hbakNeBak p hp hc.symm)]
        exact h1
      · show st2.result.failed + 1 = 1
        rw [hfail2]
      · refine ⟨"Verification failed for " ++ e.targetPath, ?_⟩
        show st2.result.errors ++ ["Verification failed for " ++
          e.targetPath] = _
        rw [herr2]
        rfl
      · show st2.restores = []
        exact hrest2

/-- A concrete asset for exercising the apply engine. -/
def c3Asset (nm ct : String) : AssetContent :=
  { path := "/src/" ++ nm, name := nm, type := "agents", client := "cursor",
    relativePath := nm, content := ct, hash := ct }

/-- First plan entry of the C3 scenario: applies cleanly. -/
def c3Entry1 : SyncPlanEntry :=
  { asset := c3Asset "a.md" "A", targetClient := "claude",
    targetPath := "/t/a.md", action := "update" }

/-- Second plan entry of the C3 scenario: its write throws. -/
def c3EntryE : SyncPlanEntry :=
  { asset := c3Asset "b.md" "B", targetClient := "claude",
    targetPath := "/t/b.md", action := "update" }

/-- Oracle for the C3 scenario: entry 0 writes cleanly, entry 1 throws,
restores succeed. -/
def c3Env : ApplyEnv :=
  { writeRes := fun j => if j = 0 then some none else none,
    restoreOk := fun _ => true }

/-- Initial filesystem of the C3 scenario. -/
def c3Fs : Fs := [("/t/a.md", FsNode.file "OLD"), ("/t/b.md", FsNode.file "OB")]

/-- Options of the C3 and C4 scenarios (copy mode, no dry run). -/
def c3Opts : SyncOptions := { mode := "copy" }

/-- Witness for C3 on a concrete two-entry plan whose second write throws:
the run is reported rolled back with one failure, the restore trace holds
exactly the first entry's destination, and that destination regains its
original content. -/
theorem c3_failure_abort_rollback_witness :
    (applyPlan (fun c _ _ => c) (fun s => s) c3Env [c3Entry1, c3EntryE]
      c3Opts c3Fs).result.rolledBack = true ∧
    (applyPlan (fun c _ _ => c) (fun s => s) c3Env [c3Entry1, c3EntryE]
      c3Opts c3Fs).restores = ["/t/a.md"] ∧
    (applyPlan (fun c _ _ => c) (fun s => s) c3Env [c3Entry1, c3EntryE]
      c3Opts c3Fs).result.failed = 1 ∧
    alGet (applyPlan (fun c _ _ => c) (fun s => s) c3Env [c3Entry1, c3EntryE]
      c3Opts c3Fs).fs "/t/a.md" = some (FsNode.file "OLD") := by
  have h := c3_failure_abort_rollback (fun c _ _ => c) (fun s => s) c3Env
    [c3Entry1] [] c3EntryE c3Opts c3Fs
    rfl rfl
    (by
      intro p hp
      rw [List.mem_singleton] at hp
      subst hp
      decide)
    (by decide)
    (by decide)
    (by decide)
    (by
      intro p hp
      rw [List.mem_singleton] at hp
      subst hp
      exact ⟨"OLD", rfl, by decide⟩)
    (Or.inr ⟨"OB", rfl, by decide⟩)
    (by decide)
    (Or.inl rfl)
  refine ⟨?_, ?_, ?_, ?_⟩
  · exact h.2.2.2.1 (by simp)
  · exact h.2.2.2.2.1.trans (by decide)
  · exact h.2.1
  · exact ((h.2.2.2.2.2 0 (by decide)).1 (by decide)).trans (by decide)

/-! ### Idempotence of the apply loop (C4) -/

/-- The destination paths of the plan entries that are not skip entries. -/
def nonSkipTargets (plan : List SyncPlanEntry) : List String :=
  (plan.filter fun e => !(e.action == "skip")).map fun e => e.targetPath

theorem nonSkipTargets_cons_skip (e : SyncPlanEntry)
    (rest : List SyncPlanEntry) (h : e.action = "skip") :
    nonSkipTargets (e :: rest) = nonSkipTargets rest := by
  simp [nonSkipTargets, h]

theorem nonSkipTargets_cons_ns (e : SyncPlanEntry)
    (rest : List SyncPlanEntry) (h : ¬ e.action = "skip") :
    nonSkipTargets (e :: rest) = e.targetPath :: nonSkipTargets rest := by
  simp [nonSkipTargets, h]

/-- Invariant of a run all of whose writes are clean: no failures are
recorded, every non-skip entry ends with destination content whose hash
matches its transformed desired content, and paths that are no entry's
destination or backup are untouched. -/
theorem applyGo_noFail_inv (tcf : String → String → String → String)
    (hashC : String → String) (env : ApplyEnv) :
    ∀ (plan : List SyncPlanEntry) (st : RunState),
    (∀ e ∈ plan, ¬ e.action = "skip" → alGet st.fs e.targetPath = none ∨
        ∃ c, alGet st.fs e.targetPath = some (FsNode.file c)) →
    ((nonSkipTargets plan).Nodup) →
    (∀ t ∈ nonSkipTargets plan, ∀ t2 ∈ nonSkipTargets plan,
        ¬ t ++ ".bak" = t2) →
    (∀ j, env.writeRes (st.idx + j) = some none) →
    (applyGo tcf hashC env false false plan st).result.failed =
        st.result.failed ∧
    (∀ e ∈ plan, ¬ e.action = "skip" → ∃ c,
        alGet (applyGo tcf hashC env false false plan st).fs e.targetPath =
          some (FsNode.file c) ∧
        hashC c = hashC (tcf e.asset.content e.targetClient e.asset.type)) ∧
    (∀ q, (∀ e ∈ plan, ¬ e.action = "skip" →
        ¬ q = e.targetPath ∧ ¬ q = e.targetPath ++ ".bak") →
      alGet (applyGo tcf hashC env false false plan st).fs q =
        alGet st.fs q) := by
  intro plan
  induction plan with
  | nil =>
    intro st hfo hnd hbs hcl
    exact ⟨rfl, fun e he => absurd he (by simp), fun q _ => rfl⟩
  | cons e rest ih =>
    intro st hfo hnd hbs hcl
    by_cases hskip : e.action = "skip"
    · rw [applyGo_skip tcf hashC env false false e rest st hskip]
      rw [nonSkipTargets_cons_skip e rest hskip] at hnd hbs
      have ih2 := ih (skipBump st)
        (fun e2 he2 hne2 => hfo e2 (List.mem_cons_of_mem e he2) hne2)
        hnd hbs
        (by
          intro j
          show env.writeRes (st.idx + 1 + j) = some none
          rw [show st.idx + 1 + j = st.idx + (1 + j) from by omega]
          exact hcl (1 + j))
      obtain ⟨i1, i2, i3⟩ := ih2
      refine ⟨i1, ?_, fun q hq => i3 q (fun e2 he2 hne2 =>
        hq e2 (List.mem_cons_of_mem e he2) hne2)⟩
      intro e2 he2 hne2
      rcases List.mem_cons.mp he2 with he2e | he2r
      · exact absurd (he2e ▸ hskip) hne2
      · exact i2 e2 he2r hne2
    · rw [nonSkipTargets_cons_ns e rest hskip] at hnd hbs
      have htn : ¬ e.targetPath ∈ nonSkipTargets rest := by
        have := hnd
        rw [List.nodup_cons] at this
        exact this.1
      have hndR : (nonSkipTargets rest).Nodup := by
        have := hnd
        rw [List.nodup_cons] at this
        exact this.2
      have hbsR : ∀ t ∈ nonSkipTargets rest, ∀ t2 ∈ nonSkipTargets rest,
          ¬ t ++ ".bak" = t2 :=
        fun t ht t2 ht2 => hbs t (List.mem_cons_of_mem _ ht)
          t2 (List.mem_cons_of_mem _ ht2)
      have hmemNS : ∀ e2 ∈ rest, ¬ e2.action = "skip" →
          e2.targetPath ∈ nonSkipTargets rest := by
        intro e2 he2 hne2
        rw [nonSkipTargets]
        refine List.mem_map_of_mem (fun e3 : SyncPlanEntry => e3.targetPath) ?_
        rw [List.mem_filter]
        refine ⟨he2, ?_⟩
        simp [hne2]
      have hfin : ∀ st2 : RunState,
          st2.fs = (cleanWrote tcf e (fsResolve st.fs e.targetPath) st).fs ∨
          st2.fs = st.fs → True := fun _ _ => trivial
      rcases hfo e (List.mem_cons_self e rest) hskip with hnone | ⟨c, hc⟩
      · -- fresh destination: backup-less clean write
        have hres : fsResolve st.fs e.targetPath = none := by
          rw [fsResolve, hnone]
        rw [applyGo_write_fresh tcf hashC env e rest st hskip hres (hcl 0)]
        have ih2 := ih (cleanWrote tcf e none st)
          (by
            intro e2 he2 hne2
            have hne9 : ¬ e.targetPath = e2.targetPath := by
              intro hc9
              exact htn (hc9 ▸ hmemNS e2 he2 hne2)
            have : alGet (cleanWrote tcf e none st).fs e2.targetPath =
                alGet st.fs e2.targetPath := by
              show alGet (alSet st.fs e.targetPath
                (FsNode.file (tcf e.asset.content e.targetClient
                  e.asset.type))) e2.targetPath = _
              rw [alGet_alSet, if_neg hne9]
            rw [this]
            exact hfo e2 (List.mem_cons_of_mem e he2) hne2)
          hndR hbsR
          (by
            intro j
            show env.writeRes (st.idx + 1 + j) = some none
            rw [show st.idx + 1 + j = st.idx + (1 + j) from by omega]
            exact hcl (1 + j))
        obtain ⟨i1, i2, i3⟩ := ih2
        refine ⟨i1, ?_, ?_⟩
        · intro e2 he2 hne2
          rcases List.mem_cons.mp he2 with he2e | he2r
          · subst he2e
            refine ⟨tcf e2.asset.content e2.targetClient e2.asset.type, ?_, rfl⟩
            rw [i3 e2.targetPath (by
              intro e3 he3 hne3
              constructor
              · intro hc9
                exact htn (hc9 ▸ hmemNS e3 he3 hne3)
              · intro hc9
                exact hbs e3.targetPath
                  (List.mem_cons_of_mem _ (hmemNS e3 he3 hne3))
                  e2.targetPath (List.mem_cons_self _ _) hc9.symm)]
            show alGet (alSet st.fs e2.targetPath
              (FsNode.file (tcf e2.asset.content e2.targetClient
                e2.asset.type))) e2.targetPath = _
            rw [alGet_alSet, if_pos rfl]
          · exact i2 e2 he2r hne2
        · intro q hq
          rw [i3 q (fun e2 he2 hne2 => hq e2 (List.mem_cons_of_mem e he2) hne2)]
          have hqe := hq e (List.mem_cons_self e rest) hskip
          show alGet (alSet st.fs e.targetPath
            (FsNode.file (tcf e.asset.content e.targetClient
              e.asset.type))) q = _
          rw [alGet_alSet, if_neg (fun hc9 => hqe.1 hc9.symm)]
      · -- existing destination
        have hres : fsResolve st.fs e.targetPath = some c := by
          rw [fsResolve, hc]
        by_cases hhc : hashC c =
            hashC (tcf e.asset.content e.targetClient e.asset.type)
        · -- unchanged: counted as skipped, filesystem untouched
          rw [applyGo_unchanged tcf hashC env false e rest st c hskip hres hhc]
          have ih2 := ih (skipBump st)
            (fun e2 he2 hne2 => hfo e2 (List.mem_cons_of_mem e he2) hne2)
            hndR hbsR
            (by
              intro j
              show env.writeRes (st.idx + 1 + j) = some none
              rw [show st.idx + 1 + j = st.idx + (1 + j) from by omega]
              exact hcl (1 + j))
          obtain ⟨i1, i2, i3⟩ := ih2
          refine ⟨i1, ?_, fun q hq => i3 q (fun e2 he2 hne2 =>
            hq e2 (List.mem_cons_of_mem e he2) hne2)⟩
          intro e2 he2 hne2
          rcases List.mem_cons.mp he2 with he2e | he2r
          · subst he2e
            refine ⟨c, ?_, hhc⟩
            rw [i3 e2.targetPath (by
              intro e3 he3 hne3
              constructor
              · intro hc9
                exact htn (hc9 ▸ hmemNS e3 he3 hne3)
              · intro hc9
                exact hbs e3.targetPath
                  (List.mem_cons_of_mem _ (hmemNS e3 he3 hne3))
                  e2.targetPath (List.mem_cons_self _ _) hc9.symm)]
            exact hc
          · exact i2 e2 he2r hne2
        · -- differing content: backed-up clean overwrite
          rw [applyGo_write_existing tcf hashC env e rest st c hskip hres hhc
            (hcl 0)]
          have hfs2 : ∀ p, ¬ p = e.targetPath → ¬ p = e.targetPath ++ ".bak" →
              alGet (cleanWrote tcf e (some c) st).fs p = alGet st.fs p := by
            intro p h1 h2
            show alGet (alSet (alSet st.fs (e.targetPath ++ ".bak")
              (FsNode.file c)) e.targetPath
              (FsNode.file (tcf e.asset.content e.targetClient
                e.asset.type))) p = _
            rw [alGet_alSet, if_neg (fun hc9 => h1 hc9.symm),
              alGet_alSet, if_neg (fun hc9 => h2 hc9.symm)]
          have ih2 := ih (cleanWrote tcf e (some c) st)
            (by
              intro e2 he2 hne2
              rw [hfs2 e2.targetPath
                (by
                  intro hc9
                  exact htn (hc9 ▸ hmemNS e2 he2 hne2))
                (by
                  intro hc9
                  exact hbs e.targetPath (List.mem_cons_self _ _)
                    e2.targetPath (List.mem_cons_of_mem _ (hmemNS e2 he2 hne2))
                    (by rw [← hc9]))]
              exact hfo e2 (List.mem_cons_of_mem e he2) hne2)
            hndR hbsR
            (by
              intro j
              show env.writeRes (st.idx + 1 + j) = some none
              rw [show st.idx + 1 + j = st.idx + (1 + j) from by omega]
              exact hcl (1 + j))
          obtain ⟨i1, i2, i3⟩ := ih2
          refine ⟨i1, ?_, ?_⟩
          · intro e2 he2 hne2
            rcases List.mem_cons.mp he2 with he2e | he2r
            · subst he2e
              refine ⟨tcf e2.asset.content e2.targetClient e2.asset.type,
                ?_, rfl⟩
              rw [i3 e2.targetPath (by
                intro e3 he3 hne3
                constructor
                · intro hc9
                  exact htn (hc9 ▸ hmemNS e3 he3 hne3)
                · intro hc9
                  exact hbs e3.targetPath
                    (List.mem_cons_of_mem _ (hmemNS e3 he3 hne3))
                    e2.targetPath (List.mem_cons_self _ _) hc9.symm)]
              show alGet (alSet (alSet st.fs (e2.targetPath ++ ".bak")
                (FsNode.file c)) e2.targetPath
                (FsNode.file (tcf e2.asset.content e2.targetClient
                  e2.asset.type))) e2.targetPath = _
              rw [alGet_alSet, if_pos rfl]
            · exact i2 e2 he2r hne2
          · intro q hq
            rw [i3 q (fun e2 he2 hne2 =>
              hq e2 (List.mem_cons_of_mem e he2) hne2)]
            have hqe := hq e (List.mem_cons_self e rest) hskip
            exact hfs2 q (fun hc9 => hqe.1 hc9) (fun hc9 => hqe.2 hc9)

/-- A run in which every non-skip entry's destination already matches: every
entry is counted as skipped and nothing else changes — in particular the
filesystem and the ghost mutation counter are exactly as before, whatever
the oracle environment. -/
theorem applyGo_allSkip (tcf : String → String → String → String)
    (hashC : String → String) (env : ApplyEnv) (dr : Bool) :
    ∀ (plan : List SyncPlanEntry) (st : RunState),
    (∀ e ∈ plan, ¬ e.action = "skip" → ∃ c,
        fsResolve st.fs e.targetPath = some c ∧
        hashC c = hashC (tcf e.asset.content e.targetClient e.asset.type)) →
    applyGo tcf hashC env false dr plan st =
      { st with
        result := { st.result with skipped := st.result.skipped + plan.length },
        idx := st.idx + plan.length } := by
  intro plan
  induction plan with
  | nil =>
    intro st _
    rfl
  | cons e rest ih =>
    intro st hall
    have hstep : applyGo tcf hashC env false dr (e :: rest) st =
        applyGo tcf hashC env false dr rest (skipBump st) := by
      by_cases hskip : e.action = "skip"
      · exact applyGo_skip tcf hashC env false dr e rest st hskip
      · obtain ⟨c, hc1, hc2⟩ := hall e (List.mem_cons_self e rest) hskip
        exact applyGo_unchanged tcf hashC env dr e rest st c hskip hc1 hc2
    rw [hstep, ih (skipBump st)
      (fun e2 he2 hne2 => hall e2 (List.mem_cons_of_mem e he2) hne2)]
    show ({ skipBump st with
      result := { (skipBump st).result with
        skipped := (skipBump st).result.skipped + rest.length },
      idx := (skipBump st).idx + rest.length } : RunState) = _
    simp only [skipBump, List.length_cons]
    congr 1
    · congr 1
      omega
    · omega

/-- C4: (i) for every non-skip plan entry in copy mode, the apply engine
first reads the destination; when the destination's content hashes
identically to the transformed desired content the entry is recorded as
skipped and the entry performs no filesystem mutation (the loop continues
from an otherwise unchanged state); (ii) a clean apply run over a plan with
distinct, backup-disjoint destinations reports zero failures, and a second
run of the same plan over the resulting filesystem — under any oracle
environment whatsoever — skips every entry and performs zero filesystem
writes: its entire result state is the fresh state with `skipped` equal to
the plan length, the filesystem unchanged, and the ghost write counter at
zero. -/
theorem c4_skip_unchanged_idempotent :
    (∀ (tcf : String → String → String → String) (hashC : String → String)
        (env : ApplyEnv) (dr : Bool) (e : SyncPlanEntry)
        (rest : List SyncPlanEntry) (st : RunState) (c : String),
      ¬ e.action = "skip" →
      readFileSafe st.fs e.targetPath = some c →
      hashC c = hashC (tcf e.asset.content e.targetClient e.asset.type) →
      applyGo tcf hashC env false dr (e :: rest) st =
        applyGo tcf hashC env false dr rest (skipBump st)) ∧
    (∀ (tcf : String → String → String → String) (hashC : String → String)
        (env env2 : ApplyEnv) (plan : List SyncPlanEntry)
        (options : SyncOptions) (fs0 : Fs),
      options.dryRun.getD false = false →
      options.link.getD false = false →
      (∀ e ∈ plan, ¬ e.action = "skip" →
        alGet fs0 e.targetPath = none ∨
        ∃ c, alGet fs0 e.targetPath = some (FsNode.file c)) →
      (nonSkipTargets plan).Nodup →
      (∀ t ∈ nonSkipTargets plan, ∀ t2 ∈ nonSkipTargets plan,
        ¬ t ++ ".bak" = t2) →
      (∀ j, env.writeRes j = some none) →
      (applyPlan tcf hashC env plan options fs0).result.failed = 0 ∧
      applyPlan tcf hashC env2 plan options
          (applyPlan tcf hashC env plan options fs0).fs =
        { fs := (applyPlan tcf hashC env plan options fs0).fs,
          result := { skipped := plan.length },
          idx := plan.length }) := by
  constructor
  · intro tcf hashC env dr e rest st c hskip hread hh
    exact applyGo_unchanged tcf hashC env dr e rest st c hskip hread hh
  · intro tcf hashC env env2 plan options fs0 hdry hlink hfo hnd hbs hcl
    by_cases hpe : plan.isEmpty
    · have hnil : plan = [] := by
        cases plan with
        | nil => rfl
        | cons a l => exact absurd hpe (by simp)
      subst hnil
      exact ⟨rfl, rfl⟩
    · have hpe2 : plan.isEmpty = false := by
        cases h9 : plan.isEmpty with
        | true => exact absurd h9 hpe
        | false => rfl
      have happly : ∀ (envX : ApplyEnv) (fsX : Fs),
          applyPlan tcf hashC envX plan options fsX =
          applyGo tcf hashC envX false false plan { fs := fsX } := by
        intro envX fsX
        rw [applyPlan, hlink, hdry]
        simp only [hpe2, Bool.false_eq_true, if_false]
      obtain ⟨i1, i2, _⟩ := applyGo_noFail_inv tcf hashC env plan
        { fs := fs0 } hfo hnd hbs
        (by
          intro j
          show env.writeRes (0 + j) = some none
          rw [Nat.zero_add]
          exact hcl j)
      constructor
      · rw [happly env fs0]
        exact i1
      · rw [happly env fs0, happly env2]
        rw [applyGo_allSkip tcf hashC env2 false plan
          { fs := (applyGo tcf hashC env false false plan { fs := fs0 }).fs }
          (by
            intro e he hne
            obtain ⟨c, hc1, hc2⟩ := i2 e he hne
            refine ⟨c, ?_, hc2⟩
            show fsResolve
              (applyGo tcf hashC env false false plan { fs := fs0 }).fs
              e.targetPath = some c
            rw [fsResolve, hc1])]
        show ({ fs := _, result := { skipped := 0 + plan.length }, idx := 0 + plan.length } : RunState) = _
        rw [Nat.zero_add]

/-- Clean oracle for the C4 witness run. -/
def c4Env : ApplyEnv :=
  { writeRes := fun _ => some none, restoreOk := fun _ => true }

/-- Witness for C4: (i) a concrete entry whose destination already holds the
desired content is skipped in place; (ii) after a clean run over `c3Fs`
(which overwrites `/t/a.md`), a second run — under the throwing oracle
`c3Env`, which would fail any attempted write — skips its single entry and
leaves the whole state untouched at zero writes. -/
theorem c4_skip_unchanged_idempotent_witness :
    (applyGo (fun c _ _ => c) (fun s => s) c4Env false false [c3Entry1]
        { fs := [("/t/a.md", FsNode.file "A")] } =
      applyGo (fun c _ _ => c) (fun s => s) c4Env false false []
        (skipBump { fs := [("/t/a.md", FsNode.file "A")] })) ∧
    (applyPlan (fun c _ _ => c) (fun s => s) c4Env [c3Entry1] c3Opts
        c3Fs).result.failed = 0 ∧
    applyPlan (fun c _ _ => c) (fun s => s) c3Env [c3Entry1] c3Opts
        (applyPlan (fun c _ _ => c) (fun s => s) c4Env [c3Entry1] c3Opts
          c3Fs).fs =
      { fs := (applyPlan (fun c _ _ => c) (fun s => s) c4Env [c3Entry1]
          c3Opts c3Fs).fs,
        result := { skipped := 1 },
        idx := 1 } := by
  refine ⟨?_, ?_⟩
  · exact c4_skip_unchanged_idempotent.1 (fun c _ _ => c) (fun s => s) c4Env
      false c3Entry1 [] { fs := [("/t/a.md", FsNode.file "A")] } "A"
      (by decide) rfl rfl
  · exact c4_skip_unchanged_idempotent.2 (fun c _ _ => c) (fun s => s) c4Env
      c3Env [c3Entry1] c3Opts c3Fs rfl rfl
      (by
        intro e he hne
        rw [List.mem_singleton] at he
        subst he
        exact Or.inr ⟨"OLD", rfl⟩)
      (by decide)
      (by decide)
      (fun j => rfl)

/-! #### String and list algebra for the TOML/YAML round-trips -/

theorem string_append_assoc (a b c : String) :
    a ++ b ++ c = a ++ (b ++ c) := by
  cases a
  cases b
  cases c
  show String.mk _ = String.mk _
  rw [List.append_assoc]

theorem string_append_nilR (a : String) : a ++ "" = a := by
  cases a
  show String.mk _ = String.mk _
  rw [List.append_nil]

theorem joinWith_cons_cons (sep x y : String) (r : List String) :
    joinWith sep (x :: y :: r) = x ++ sep ++ joinWith sep (y :: r) := rfl

theorem joinWith_append_singleton (sep : String) :
    ∀ (a : List String) (x : String), a ≠ [] →
    joinWith sep (a ++ [x]) = joinWith sep a ++ sep ++ x := by
  intro a
  induction a with
  | nil => intro x hx; exact absurd rfl hx
  | cons y ys ih =>
    intro x _
    cases ys with
    | nil => rfl
    | cons z zs =>
      have ih2 := ih x (by simp)
      simp only [List.cons_append] at ih2 ⊢
      rw [joinWith_cons_cons sep y z (zs ++ [x]), ih2,
        joinWith_cons_cons sep y z zs, ← string_append_assoc,
        ← string_append_assoc]

/-- Join lines with trailing newlines (the shape `joinWith ""` produces for
the serialized TOML body). -/
def unl (lines : List String) : String :=
  joinWith "" (lines.map fun l => l ++ "\n")

theorem unl_cons (x : String) (r : List String) :
    unl (x :: r) = x ++ "\n" ++ unl r := by
  cases r with
  | nil =>
    show x ++ "\n" = x ++ "\n" ++ ""
    rw [string_append_nilR]
  | cons y ys =>
    rw [show unl (x :: y :: ys) = (x ++ "\n") ++ "" ++ unl (y :: ys) from rfl,
      string_append_nilR]

theorem unl_append (a b : List String) : unl (a ++ b) = unl a ++ unl b := by
  induction a with
  | nil => rfl
  | cons x xs ih =>
    rw [List.cons_append, unl_cons, unl_cons, ih, string_append_assoc,
      string_append_assoc]
    exact (string_append_assoc x "\n" (unl xs ++ unl b)).symm

theorem unl_eq_join (l : List String) (h : l ≠ []) :
    unl l = joinWith "\n" l ++ "\n" := by
  induction l with
  | nil => exact absurd rfl h
  | cons x xs ih =>
    cases xs with
    | nil => rfl
    | cons y ys =>
      rw [unl_cons, ih (by simp), joinWith_cons_cons, string_append_assoc,
        string_append_assoc, string_append_assoc]

theorem head_dropWhile_false {p : Char → Bool} :
    ∀ (l : List Char) (c : Char), (l.dropWhile p).head? = some c →
    p c = false := by
  intro l
  induction l with
  | nil => intro c h; simp at h
  | cons x xs ih =>
    intro c h
    rw [List.dropWhile_cons] at h
    by_cases hx : p x = true
    · rw [if_pos hx] at h
      exact ih c h
    · rw [if_neg hx] at h
      injection h with h2
      rw [← h2]
      exact Bool.not_eq_true _ |>.mp hx

theorem strTrim_ws_wrap (pre suf x : List Char)
    (hpre : pre.all isJsWhitespace = true)
    (hsuf : suf.all isJsWhitespace = true)
    (hx0 : ∀ c, x.head? = some c → isJsWhitespace c = false)
    (hxl : ∀ c, x.getLast? = some c → isJsWhitespace c = false) :
    strTrim (String.mk (pre ++ x ++ suf)) = String.mk x := by
  cases x with
  | nil =>
    show String.mk ((((pre ++ [] ++ suf).dropWhile
      isJsWhitespace).reverse.dropWhile isJsWhitespace).reverse) = _
    have hall : (pre ++ [] ++ suf).all isJsWhitespace = true := by
      simp only [List.append_nil, List.all_append]
      simp [hpre, hsuf]
    have hdrop : (pre ++ [] ++ suf).dropWhile isJsWhitespace = [] := by
      rw [List.dropWhile_eq_nil_iff]
      intro c hc
      exact (List.all_eq_true.mp hall) c hc
    rw [hdrop]
    rfl
  | cons c0 cs =>
    show String.mk (((((pre ++ (c0 :: cs)) ++ suf).dropWhile
      isJsWhitespace).reverse.dropWhile isJsWhitespace).reverse) = _
    have h1 : (pre ++ (c0 :: cs)) ++ suf = pre ++ ((c0 :: cs) ++ suf) := by
      rw [List.append_assoc]
    rw [h1, dropWhile_append_all pre ((c0 :: cs) ++ suf) hpre
      (by
        intro d hd
        rw [List.cons_append] at hd
        injection hd with hd2
        exact hd2 ▸ hx0 c0 rfl)]
    have h2 : (c0 :: cs) ++ suf ≠ [] := by simp
    rw [show ((c0 :: cs) ++ suf).reverse = suf.reverse ++ (c0 :: cs).reverse
      from by rw [List.reverse_append]]
    rw [dropWhile_append_all suf.reverse (c0 :: cs).reverse
      (by rw [List.all_reverse]; exact hsuf)
      (by
        intro d hd
        rw [List.head?_reverse] at hd
        exact hxl d hd)]
    rw [List.reverse_reverse]

theorem splitStr_joinWith_nl :
    ∀ (lines : List String), lines ≠ [] →
    (∀ l ∈ lines, '\n' ∉ l.data) →
    splitStr '\n' (joinWith "\n" lines) = lines := by
  intro lines
  induction lines with
  | nil => intro h; exact absurd rfl h
  | cons x xs ih =>
    intro _ hfree
    cases xs with
    | nil =>
      show (splitOnChar '\n' x.data).map (fun l => String.mk l) = [x]
      rw [splitOnChar_no_sep '\n' x.data (hfree x (by simp))]
      cases x
      rfl
    | cons y ys =>
      rw [joinWith_cons_cons]
      show (splitOnChar '\n' ((x ++ "\n" ++ joinWith "\n" (y :: ys))).data).map
        (fun l => String.mk l) = _
      rw [string_data_append, string_data_append]
      rw [show ("\n" : String).data = ['\n'] from rfl]
      rw [show x.data ++ ['\n'] ++ (joinWith "\n" (y :: ys)).data =
        x.data ++ '\n' :: (joinWith "\n" (y :: ys)).data from by simp]
      rw [splitOnChar_append_sep '\n' x.data (joinWith "\n" (y :: ys)).data
        (hfree x (by simp))]
      rw [List.map_cons]
      have hx : String.mk x.data = x := by cases x; rfl
      rw [hx]
      have := ih (by simp) (fun l hl => hfree l (by simp [hl]))
      rw [show (splitOnChar '\n' (joinWith "\n" (y :: ys)).data).map
        (fun l => String.mk l) = splitStr '\n' (joinWith "\n" (y :: ys))
        from rfl]
      rw [this]

theorem joinWith_head (sep : Char) :
    ∀ (r : List String) (x : String) (c : Char), x.data.head? = some c →
    (joinWith (String.mk [sep]) (x :: r)).data.head? = some c := by
  intro r
  cases r with
  | nil => intro x c h; exact h
  | cons y ys =>
    intro x c h
    rw [joinWith_cons_cons, string_data_append, string_data_append]
    cases hx : x.data with
    | nil => rw [hx] at h; simp at h
    | cons d ds =>
      rw [hx] at h
      injection h with h2
      subst h2
      rfl

theorem joinWith_last (sep : Char) :
    ∀ (a : List String) (x : String) (c : Char), x.data.getLast? = some c →
    (joinWith (String.mk [sep]) (a ++ [x])).data.getLast? = some c := by
  intro a x c h
  have hxne : x.data ≠ [] := by
    intro hn
    rw [hn] at h
    simp at h
  cases a with
  | nil => exact h
  | cons y ys =>
    rw [joinWith_append_singleton (String.mk [sep]) (y :: ys) x (by simp)]
    rw [string_data_append]
    rw [List.getLast?_append_of_ne_nil _ hxne]
    exact h

theorem alGet_append_left_none {β : Type} (m1 m2 : List (String × β))
    (k : String) (h : alGet m1 k = none) :
    alGet (m1 ++ m2) k = alGet m2 k := by
  induction m1 with
  | nil => rfl
  | cons p rest ih =>
    obtain ⟨pk, pv⟩ := p
    rw [alGet] at h
    by_cases hp : pk = k
    · rw [if_pos hp] at h
      exact absurd h (by simp)
    · rw [if_neg hp] at h
      rw [List.cons_append, alGet, if_neg hp]
      exact ih h

theorem alSet_append_left_none {β : Type} (m1 m2 : List (String × β))
    (k : String) (v : β) (h : alGet m1 k = none) :
    alSet (m1 ++ m2) k v = m1 ++ alSet m2 k v := by
  induction m1 with
  | nil => rfl
  | cons p rest ih =>
    obtain ⟨pk, pv⟩ := p
    rw [alGet] at h
    by_cases hp : pk = k
    · rw [if_pos hp] at h
      exact absurd h (by simp)
    · rw [if_neg hp] at h
      rw [List.cons_append, alSet, if_neg hp, List.cons_append, ih h]

theorem foldl_alSet_fresh {β : Type} :
    ∀ (flds : List (String × β)) (m : List (String × β)),
    (∀ q ∈ flds, q.1 ∉ m.map Prod.fst) →
    ((flds.map Prod.fst).Nodup) →
    flds.foldl (fun acc q => alSet acc q.1 q.2) m = m ++ flds := by
  intro flds
  induction flds with
  | nil => intro m _ _; simp
  | cons q rest ih =>
    intro m hfresh hnd
    rw [List.foldl_cons]
    rw [alSet_append_fresh m q.1 q.2 (hfresh q (by simp))]
    rw [ih (m ++ [(q.1, q.2)])
      (by
        intro q2 hq2
        rw [List.map_append, List.mem_append]
        push_neg
        constructor
        · exact hfresh q2 (by simp [hq2])
        · intro hc
          simp only [List.map_cons, List.map_nil, List.mem_singleton] at hc
          rw [List.map_cons, List.nodup_cons] at hnd
          exact hnd.1 (hc ▸ List.mem_map_of_mem Prod.fst hq2))
      (by
        rw [List.map_cons, List.nodup_cons] at hnd
        exact hnd.2)]
    simp

theorem splitStr_join_commas :
    ∀ (ps : List String) (p : String), (∀ q ∈ p :: ps, ',' ∉ q.data) →
    splitStr ',' (joinWith ", " (p :: ps)) =
      p :: ps.map (fun q => String.mk (' ' :: q.data)) := by
  intro ps
  induction ps with
  | nil =>
    intro p hfree
    show (splitOnChar ',' p.data).map (fun l => String.mk l) = [p]
    rw [splitOnChar_no_sep ',' p.data (hfree p (by simp))]
    cases p
    rfl
  | cons q r ih =>
    intro p hfree
    rw [joinWith_cons_cons]
    show (splitOnChar ','
      ((p ++ ", " ++ joinWith ", " (q :: r))).data).map
      (fun l => String.mk l) = _
    rw [string_data_append, string_data_append]
    rw [show (", " : String).data = [',', ' '] from rfl]
    rw [show p.data ++ [',', ' '] ++ (joinWith ", " (q :: r)).data =
      p.data ++ ',' :: (' ' :: (joinWith ", " (q :: r)).data) from by simp]
    rw [splitOnChar_append_sep ',' p.data _ (hfree p (by simp))]
    have ih2 := ih q (fun x hx => hfree x (List.mem_cons_of_mem p hx))
    have ih3 := congrArg (List.map String.data) ih2
    simp only [List.map_map, List.map_cons] at ih3
    have hid : (splitOnChar ',' (joinWith ", " (q :: r)).data).map
        (String.data ∘ fun l => String.mk l) =
        splitOnChar ',' (joinWith ", " (q :: r)).data := by
      rw [show (String.data ∘ fun l : List Char => String.mk l) = id from by
        funext l
        rfl]
      rw [List.map_id]
    rw [show (splitStr ',' (joinWith ", " (q :: r))).map String.data =
      (splitOnChar ',' (joinWith ", " (q :: r)).data).map
        (String.data ∘ fun l => String.mk l) from by
        rw [splitStr, List.map_map]] at ih3
    rw [hid] at ih3
    have hsp : splitOnChar ',' (' ' :: (joinWith ", " (q :: r)).data) =
        (' ' :: q.data) :: (r.map fun s => ' ' :: s.data) := by
      rw [splitOnChar]
      rw [if_neg (by decide)]
      rw [ih3]
      simp
    rw [hsp]
    rw [List.map_cons, List.map_cons]
    have hp : String.mk p.data = p := by cases p; rfl
    rw [hp]
    congr 1
    congr 1
    rw [List.map_map]
    rfl

theorem joinWith_mem (sep : String) :
    ∀ (l : List String) (c : Char), c ∈ (joinWith sep l).data →
    (∃ s ∈ l, c ∈ s.data) ∨ c ∈ sep.data := by
  intro l
  induction l with
  | nil =>
    intro c hc
    rw [show joinWith sep [] = "" from rfl] at hc
    simp at hc
  | cons x xs ih =>
    intro c hc
    cases xs with
    | nil => exact Or.inl ⟨x, by simp, hc⟩
    | cons y ys =>
      rw [joinWith_cons_cons, string_data_append, string_data_append] at hc
      rcases List.mem_append.mp hc with h1 | h1
      · rcases List.mem_append.mp h1 with h2 | h2
        · exact Or.inl ⟨x, by simp, h2⟩
        · exact Or.inr h2
      · rcases ih c h1 with ⟨s, hs, hcs⟩ | h2
        · exact Or.inl ⟨s, by simp [hs], hcs⟩
        · exact Or.inr h2

theorem tomlDepth_le_list : ∀ (es : List JValue) (e : JValue), e ∈ es →
    tomlDepth e ≤ tomlDepthList es := by
  intro es
  induction es with
  | nil => intro e he; simp at he
  | cons x xs ih =>
    intro e he
    rcases List.mem_cons.mp he with h | h
    · subst h
      exact le_max_left _ _
    · exact le_trans (ih e h) (le_max_right _ _)

theorem tomlDepthList_le_of (es : List JValue) (K : Nat)
    (h : ∀ e ∈ es, tomlDepth e + 1 ≤ K) : tomlDepthList es ≤ K := by
  induction es with
  | nil => exact Nat.zero_le K
  | cons x xs ih =>
    show max (tomlDepth x) (tomlDepthList xs) ≤ K
    exact max_le (by have := h x (by simp); omega)
      (ih fun e he => h e (by simp [he]))

theorem list_map_self {α : Type} (f : α → α) :
    ∀ (l : List α), (∀ x ∈ l, f x = x) → l.map f = l := by
  intro l
  induction l with
  | nil => intro _; rfl
  | cons x xs ih =>
    intro h
    rw [List.map_cons, h x (by simp), ih fun y hy => h y (by simp [hy])]

/-- Edge characters of a serialized TOML value are never whitespace. -/
theorem toml_sv_edges (v : JValue) (h : tomlValWf v ∨ tomlElemWf v) :
    (∃ c0 cs, (serializeTomlValue v).data = c0 :: cs ∧
      isJsWhitespace c0 = false) ∧
    (∃ d, (serializeTomlValue v).data.getLast? = some d ∧
      isJsWhitespace d = false) := by
  cases v with
  | null => rcases h with h | h <;> exact absurd h (by simp [tomlValWf, tomlElemWf])
  | obj fs => rcases h with h | h <;> exact absurd h (by simp [tomlValWf, tomlElemWf])
  | str s =>
    constructor
    · exact ⟨'"', s.data ++ ['"'], by
        show ('"' :: (s.data ++ ['"'])) = _
        rfl, by decide⟩
    · refine ⟨'"', ?_, by decide⟩
      show ('"' :: (s.data ++ ['"'])).getLast? = some '"'
      rw [show '"' :: (s.data ++ ['"']) = ('"' :: s.data) ++ ['"'] from by simp]
      rw [List.getLast?_concat]
  | num lit =>
    have hdec : decimalLit lit = true := by
      rcases h with h | h
      · exact h
      · exact h
    constructor
    · obtain ⟨c0, cs, hd, hc⟩ := decimalLit_head lit hdec
      refine ⟨c0, cs, hd, ?_⟩
      rcases hc with h1 | h1
      · rw [h1]; decide
      · exact isDigitCh_not_ws c0 h1
    · obtain ⟨d, hd1, hd2⟩ := decimalLit_last lit hdec
      exact ⟨d, hd1, isDigitCh_not_ws d hd2⟩
  | bool b =>
    cases b with
    | true => exact ⟨⟨'t', "rue".data, rfl, by decide⟩, ⟨'e', by decide, by decide⟩⟩
    | false => exact ⟨⟨'f', "alse".data, rfl, by decide⟩, ⟨'e', by decide, by decide⟩⟩
  | arr es =>
    constructor
    · refine ⟨'[', (joinWith ", " (serializeTomlValueList es)).data ++ [']'],
        ?_, by decide⟩
      show ('[' :: ((joinWith ", " (serializeTomlValueList es)).data ++ [']'])) = _
      rfl
    · refine ⟨']', ?_, by decide⟩
      show ('[' :: ((joinWith ", " (serializeTomlValueList es)).data ++
        [']'])).getLast? = some ']'
      rw [show '[' :: ((joinWith ", " (serializeTomlValueList es)).data ++ [']']) =
        ('[' :: (joinWith ", " (serializeTomlValueList es)).data) ++ [']'] from by simp]
      rw [List.getLast?_concat]

mutual

/-- Serialized TOML values contain no newline; serialized array elements
additionally contain no comma. -/
theorem toml_sv_chars : ∀ (v : JValue),
    (tomlValWf v → ∀ c ∈ (serializeTomlValue v).data, ¬ c = '\n') ∧
    (tomlElemWf v → ∀ c ∈ (serializeTomlValue v).data,
      ¬ c = '\n' ∧ ¬ c = ',')
  | JValue.null =>
    ⟨fun h => absurd h (by simp [tomlValWf]),
     fun h => absurd h (by simp [tomlElemWf])⟩
  | JValue.obj fs =>
    ⟨fun h => absurd h (by simp [tomlValWf]),
     fun h => absurd h (by simp [tomlElemWf])⟩
  | JValue.str s => by
    constructor
    · intro h c hc
      have hc2 : c = '"' ∨ c ∈ s.data := by
        have : c ∈ '"' :: (s.data ++ ['"']) := hc
        rcases List.mem_cons.mp this with h1 | h1
        · exact Or.inl h1
        · rcases List.mem_append.mp h1 with h2 | h2
          · exact Or.inr h2
          · exact Or.inl (by simpa using h2)
      rcases hc2 with h1 | h1
      · rw [h1]; decide
      · intro hn
        exact (by exact h : '\n' ∉ s.data) (hn ▸ h1)
    · intro h c hc
      have hc2 : c = '"' ∨ c ∈ s.data := by
        have : c ∈ '"' :: (s.data ++ ['"']) := hc
        rcases List.mem_cons.mp this with h1 | h1
        · exact Or.inl h1
        · rcases List.mem_append.mp h1 with h2 | h2
          · exact Or.inr h2
          · exact Or.inl (by simpa using h2)
      have h2 : '\n' ∉ s.data ∧ ',' ∉ s.data := h
      rcases hc2 with h1 | h1
      · rw [h1]; constructor <;> decide
      · exact ⟨fun hn => h2.1 (hn ▸ h1), fun hn => h2.2 (hn ▸ h1)⟩
  | JValue.num lit => by
    constructor
    · intro h c hc
      rcases decimalLit_chars lit h c hc with h1 | h1 | h1
      · rw [h1]; decide
      · rw [h1]; decide
      · exact digit_ne c '\n' h1 (by decide)
    · intro h c hc
      have hdec : decimalLit lit = true := h
      rcases decimalLit_chars lit hdec c hc with h1 | h1 | h1
      · rw [h1]; constructor <;> decide
      · rw [h1]; constructor <;> decide
      · exact ⟨digit_ne c '\n' h1 (by decide), digit_ne c ',' h1 (by decide)⟩
  | JValue.bool b => by
    cases b with
    | true =>
      constructor
      · intro _ c hc
        have : c ∈ "true".data := hc
        intro he
        rw [he] at this
        exact absurd this (by decide)
      · intro _ c hc
        have h9 : c ∈ "true".data := hc
        constructor
        · intro he; rw [he] at h9; exact absurd h9 (by decide)
        · intro he; rw [he] at h9; exact absurd h9 (by decide)
    | false =>
      constructor
      · intro _ c hc
        have : c ∈ "false".data := hc
        intro he
        rw [he] at this
        exact absurd this (by decide)
      · intro _ c hc
        have h9 : c ∈ "false".data := hc
        constructor
        · intro he; rw [he] at h9; exact absurd h9 (by decide)
        · intro he; rw [he] at h9; exact absurd h9 (by decide)
  | JValue.arr es => by
    have hlist := toml_svl_chars es
    constructor
    · intro h c hc
      have hwf : es ≠ [] ∧ tomlElemsWf es := h
      have hc2 : c = '[' ∨ c = ']' ∨
          c ∈ (joinWith ", " (serializeTomlValueList es)).data := by
        have h3 : c ∈ '[' ::
            ((joinWith ", " (serializeTomlValueList es)).data ++ [']']) := hc
        rcases List.mem_cons.mp h3 with h1 | h1
        · exact Or.inl h1
        · rcases List.mem_append.mp h1 with h2 | h2
          · exact Or.inr (Or.inr h2)
          · exact Or.inr (Or.inl (by simpa using h2))
      rcases hc2 with h1 | h1 | h1
      · rw [h1]; decide
      · rw [h1]; decide
      · rcases joinWith_mem ", " (serializeTomlValueList es) c h1 with
          ⟨s, hs, hcs⟩ | h2
        · exact (hlist hwf.2 s hs c hcs).1
        · have : c = ',' ∨ c = ' ' := by
            rcases List.mem_cons.mp h2 with h3 | h3
            · exact Or.inl h3
            · exact Or.inr (by simpa using h3)
          rcases this with h3 | h3 <;> rw [h3] <;> decide
    · intro h c hc
      have hwf : es.length = 1 ∧ tomlElemsWf es := h
      cases es with
      | nil => exact absurd hwf.1 (by simp)
      | cons e0 es2 =>
        cases es2 with
        | cons x xs => exact absurd hwf.1 (by simp)
        | nil =>
          have hc2 : c = '[' ∨ c = ']' ∨
              c ∈ (serializeTomlValue e0).data := by
            have h3 : c ∈ '[' ::
                ((joinWith ", " (serializeTomlValueList [e0])).data ++ [']']) := hc
            rcases List.mem_cons.mp h3 with h1 | h1
            · exact Or.inl h1
            · rcases List.mem_append.mp h1 with h2 | h2
              · exact Or.inr (Or.inr h2)
              · exact Or.inr (Or.inl (by simpa using h2))
          rcases hc2 with h1 | h1 | h1
          · rw [h1]; constructor <;> decide
          · rw [h1]; constructor <;> decide
          · exact hlist hwf.2 (serializeTomlValue e0) (by
              show serializeTomlValue e0 ∈ [serializeTomlValue e0]
              simp) c h1

/-- Serialized TOML array elements contain neither newline nor comma. -/
theorem toml_svl_chars : ∀ (es : List JValue), tomlElemsWf es →
    ∀ s ∈ serializeTomlValueList es, ∀ c ∈ s.data,
    ¬ c = '\n' ∧ ¬ c = ','
  | [] => by
    intro _ s hs
    exact absurd hs (by simp [serializeTomlValueList])
  | e :: es2 => by
    intro hwf s hs c hc
    have hwf2 : tomlElemWf e ∧ tomlElemsWf es2 := hwf
    have hs2 : s = serializeTomlValue e ∨ s ∈ serializeTomlValueList es2 := by
      have : s ∈ serializeTomlValue e :: serializeTomlValueList es2 := hs
      exact List.mem_cons.mp this
    rcases hs2 with h1 | h1
    · exact (toml_sv_chars e).2 hwf2.1 c (h1 ▸ hc)
    · exact toml_svl_chars es2 hwf2.2 s h1 c hc

end

mutual

/-- The serialized text of a well-formed TOML value is strictly longer than
its nesting depth (so the source's `value.length` fuel suffices). -/
theorem toml_sv_len : ∀ (v : JValue), (tomlValWf v ∨ tomlElemWf v) →
    tomlDepth v + 1 ≤ (serializeTomlValue v).data.length
  | JValue.null => by
    intro h
    rcases h with h | h <;> exact absurd h (by simp [tomlValWf, tomlElemWf])
  | JValue.obj fs => by
    intro h
    rcases h with h | h <;> exact absurd h (by simp [tomlValWf, tomlElemWf])
  | JValue.str s => by
    intro _
    show tomlDepth (JValue.str s) + 1 ≤ ('"' :: (s.data ++ ['"'])).length
    have : tomlDepth (JValue.str s) = 0 := rfl
    rw [this]
    simp
  | JValue.num lit => by
    intro h
    have hdec : decimalLit lit = true := by
      rcases h with h | h
      · exact h
      · exact h
    obtain ⟨c0, cs, hd, _⟩ := decimalLit_head lit hdec
    show tomlDepth (JValue.num lit) + 1 ≤ lit.data.length
    have h0 : tomlDepth (JValue.num lit) = 0 := rfl
    rw [h0, hd]
    simp
  | JValue.bool b => by
    intro _
    cases b with
    | true =>
      show tomlDepth (JValue.bool true) + 1 ≤ "true".data.length
      decide
    | false =>
      show tomlDepth (JValue.bool false) + 1 ≤ "false".data.length
      decide
  | JValue.arr es => by
    intro h
    have hne : es ≠ [] := by
      rcases h with h | h
      · exact h.1
      · have h2 : es.length = 1 ∧ tomlElemsWf es := h
        intro hc
        rw [hc] at h2
        exact absurd h2.1 (by simp)
    have hwf : tomlElemsWf es := by
      rcases h with h | h
      · exact h.2
      · exact (h : es.length = 1 ∧ tomlElemsWf es).2
    have hlist := toml_svl_len es hwf
    have hdl : tomlDepthList es ≤
        (joinWith ", " (serializeTomlValueList es)).data.length :=
      tomlDepthList_le_of es _ (fun e he => hlist e he)
    show tomlDepth (JValue.arr es) + 1 ≤
      ('[' :: ((joinWith ", " (serializeTomlValueList es)).data ++ [']'])).length
    have h0 : tomlDepth (JValue.arr es) = 1 + tomlDepthList es := rfl
    rw [h0]
    simp only [List.length_cons, List.length_append, List.length_singleton]
    omega

/-- Every element's depth is below the joined serialization's length. -/
theorem toml_svl_len : ∀ (es : List JValue), tomlElemsWf es →
    ∀ e ∈ es, tomlDepth e + 1 ≤
      (joinWith ", " (serializeTomlValueList es)).data.length
  | [] => by
    intro _ e he
    exact absurd he (by simp)
  | e0 :: es2 => by
    intro hwf e he
    have hwf2 : tomlElemWf e0 ∧ tomlElemsWf es2 := hwf
    have hconsL : serializeTomlValueList (e0 :: es2) =
        serializeTomlValue e0 :: serializeTomlValueList es2 := rfl
    rcases List.mem_cons.mp he with h1 | h1
    · subst h1
      have h2 := toml_sv_len e (Or.inr hwf2.1)
      rw [hconsL]
      cases hL2 : serializeTomlValueList es2 with
      | nil =>
        rw [show (joinWith ", " [serializeTomlValue e]) =
          serializeTomlValue e from rfl]
        exact h2
      | cons p ps =>
        rw [joinWith_cons_cons]
        rw [string_data_append, string_data_append]
        simp only [List.length_append]
        omega
    · have h2 := toml_svl_len es2 hwf2.2 e h1
      rw [hconsL]
      cases hL2 : serializeTomlValueList es2 with
      | nil =>
        rw [hL2] at h2
        rw [show (joinWith ", " ([] : List String)) = "" from rfl] at h2
        have h3 : tomlDepth e + 1 ≤ 0 := h2
        omega
      | cons p ps =>
        rw [hL2] at h2
        rw [joinWith_cons_cons, string_data_append, string_data_append]
        simp only [List.length_append]
        omega

end

/-- C2: corrected round-trip contract of the MCP config codec for the JSON
and JSONC formats.  For every text whose parse under the format succeeds,
parsing the serialization of the resulting config yields the config back,
provided the serialized document is a fixpoint of the comment stripper —
the proviso the original claim lacks: `parseMcpConfig` strips `//` and
`/* ... */` sequences without string-literal awareness, so a config whose
serialization contains such a sequence inside a string value (see
`c2_counterexample`) does not round-trip.  The round-trip is exact: the
reparsed config equals the original, server names, key order and
string/number/boolean representations included. -/
theorem c2_roundtrip_json_jsonc (fmt : McpFormat)
    (hfmt : fmt = McpFormat.json ∨ fmt = McpFormat.jsonc)
    (text : String) (c : JValue)
    (hparse : parseMcpConfig text fmt = some c)
    (hstrip : stripJsonComments (jStringify 0 c) = jStringify 0 c) :
    parseMcpConfig (serializeMcpConfig c fmt) fmt = some c := by
  have hmain : ∀ (t2 : String), parseMcpConfig t2 fmt = (if strTrim t2 = ""
      then some (JValue.obj [("mcpServers", JValue.obj [])])
      else parseJsonWithComments t2) := by
    intro t2
    rcases hfmt with h | h <;> rw [h] <;> rfl
  have hser : serializeMcpConfig c fmt = jStringify 0 c := by
    rcases hfmt with h | h <;> rw [h] <;> rfl
  rw [hmain text] at hparse
  by_cases hemp : strTrim text = ""
  · rw [if_pos hemp] at hparse
    have hc : JValue.obj [("mcpServers", JValue.obj [])] = c := by
      injection hparse
    subst hc
    rw [hser, hmain]
    rfl
  · rw [if_neg hemp] at hparse
    have hwf : JWf c := by
      have hp2 : jsonParse (stripJsonComments text) = some c := hparse
      exact jsonParse_wf (stripJsonComments text) c hp2
    obtain ⟨c0, cs, hd, hws, _, _⟩ := jStringify_head c 0 hwf
    have hne := strTrim_ne_empty (jStringify 0 c) c0 cs hd hws
    rw [hser, hmain]
    rw [if_neg hne]
    exact parseJsonWC_roundtrip text c hparse hstrip

/-- The concrete config of the C2 witness. -/
def c2WitnessConfig : JValue :=
  JValue.obj [("mcpServers", JValue.obj
    [("s", JValue.obj [("command", JValue.str "x")])])]

/-- Witness for C2 on a concrete one-server JSON config: it round-trips
through serialize-then-parse. -/
theorem c2_roundtrip_json_jsonc_witness :
    parseMcpConfig (serializeMcpConfig c2WitnessConfig McpFormat.json)
      McpFormat.json = some c2WitnessConfig :=
  c2_roundtrip_json_jsonc McpFormat.json (Or.inl rfl)
    "\x7b\"mcpServers\": \x7b\"s\": \x7b\"command\": \"x\"\x7d\x7d\x7d"
    c2WitnessConfig (by rfl) (by rfl)
